import Mathlib

/-!
libsigrokdecode: decoder instance handling.

A shallow embedding of `instance.c` (option coercion, probe mapping, the
instance graph of a session, and teardown) together with the properties
established about it.

Conventions of the embedding:
* C strings are `String`, `GSList *` is `List`, a `NULL` pointer argument is `none`.
* `struct srd_decoder_inst *` is an address `Ptr` into a heap (a list of
  instances, address = position); `g_try_malloc0` of an instance hands out
  the next unused address.
* A `GHashTable` with string keys is an association list; iteration over its
  keys follows the list, so statements quantified over all association lists
  cover every iteration order of the hash table.
* `int` quantities that only count list elements are `Nat`.
-/

namespace Srd

/-! ## Status codes (libsigrokdecode.h) -/

def SRD_OK : Int := 0
def SRD_ERR : Int := -1
def SRD_ERR_MALLOC : Int := -2
def SRD_ERR_ARG : Int := -3
def SRD_ERR_BUG : Int := -4
def SRD_ERR_PYTHON : Int := -5
def SRD_ERR_DECODERS_DIR : Int := -6

/-! ## GLib values -/

/-- A `GVariant`: a value tagged with its dynamic type. -/
inductive GVariant where
  | string (s : String)
  | int32 (v : Int)
  | int64 (v : Int)
  | uint64 (v : Nat)
  | boolean (b : Bool)
  deriving DecidableEq, Repr

/-- A `GHashTable` from C strings to `GVariant *`. -/
abbrev GHashTable := List (String × GVariant)

def g_hash_table_size (t : GHashTable) : Nat := t.length

def g_hash_table_lookup (t : GHashTable) (key : String) : Option GVariant :=
  (t.find? (fun kv => kv.1 == key)).map Prod.snd

def g_hash_table_remove (t : GHashTable) (key : String) : GHashTable :=
  t.filter (fun kv => !(kv.1 == key))

def g_hash_table_get_keys (t : GHashTable) : List String := t.map Prod.fst

/-! ## Python objects -/

/-- The Python values the option code distinguishes: `str`, `int`
(arbitrary precision) and everything else, kept by type name. -/
inductive PyObject where
  | unicode (s : String)
  | long (v : Int)
  | other (tp_name : String)
  deriving DecidableEq, Repr

def PyUnicode_Check : PyObject → Bool
  | .unicode _ => true
  | _ => false

def PyLong_Check : PyObject → Bool
  | .long _ => true
  | _ => false

/-- A Python `dict` with string keys, in insertion order. -/
abbrev PyDict (α : Type) := List (String × α)

def PyDict_Keys {α : Type} (d : PyDict α) : List String := d.map Prod.fst

def PyDict_GetItemString {α : Type} (d : PyDict α) (key : String) : Option α :=
  (d.find? (fun kv => kv.1 == key)).map Prod.snd

def PyDict_SetItemString {α : Type} (d : PyDict α) (key : String) (v : α) : PyDict α :=
  if d.any (fun kv => kv.1 == key) then
    d.map (fun kv => if kv.1 == key then (key, v) else kv)
  else d ++ [(key, v)]

def PyList_GetItem (l : List PyObject) (i : Nat) : Option PyObject := l.get? i

/-- The `sigrokdecode.Decoder` subclass of a decoder (`py_dec`): only its
`options` class attribute matters here, a dict from option id to the list
`[description, default]`; `none` when the class has no such attribute. -/
structure PyClass where
  options : Option (PyDict (List PyObject))
  deriving DecidableEq, Repr

/-- An instance of the decoder class (`py_inst`): its identity, and its own
`options` attribute once one has been set on the instance (`none`: the
lookup still falls through to the class attribute). -/
structure PyInst where
  addr : Nat
  options : Option (PyDict PyObject)
  deriving DecidableEq, Repr

/-! ## Decoders and instances (libsigrokdecode.h) -/

structure srd_probe where
  id : String
  name : String
  desc : String
  order : Nat
  deriving DecidableEq, Repr

structure srd_decoder where
  id : String
  name : String
  probes : List srd_probe
  opt_probes : List srd_probe
  py_dec : PyClass
  deriving DecidableEq, Repr

/-- Address of a `struct srd_decoder_inst`. -/
abbrev Ptr := Nat

structure srd_decoder_inst where
  decoder : srd_decoder
  py_inst : PyInst
  inst_id : String
  dec_num_probes : Nat
  dec_probemap : List Int
  data_unitsize : Nat
  next_di : List Ptr
  deriving DecidableEq, Repr

/-! ## srd_inst_probe_set_all -/

/-- The helper `compare_probe_id`: `strcmp` of the probe id and the wanted id
is zero. -/
def compare_probe_id (a : srd_probe) (probe_id : String) : Bool := a.id == probe_id

/-- The call `g_slist_find_custom(list, probe_id, compare_probe_id)`. -/
def g_slist_find_custom (l : List srd_probe) (probe_id : String) : Option srd_probe :=
  l.find? (fun a => compare_probe_id a probe_id)

/-- Lookup of a probe id: the required probes first, the optional probes as
fallback. -/
def find_probe (dec : srd_decoder) (probe_id : String) : Option srd_probe :=
  match g_slist_find_custom dec.probes probe_id with
  | some p => some p
  | none => g_slist_find_custom dec.opt_probes probe_id

/-- The loop over `g_hash_table_get_keys(new_probes)`; `none` is the
`return SRD_ERR_ARG` taken inside the loop. The store
`new_probemap[p->order] = new_probenum` is `List.set` (an `order` outside the
array is undefined behaviour in C and leaves the list unchanged here). -/
def probe_set_loop (dec : srd_decoder) (new_probes : GHashTable) :
    List String → List Int → Nat → Option (List Int × Nat)
  | [], new_probemap, num_probes => some (new_probemap, num_probes)
  | probe_id :: l, new_probemap, num_probes =>
    match g_hash_table_lookup new_probes probe_id with
    | some (.int32 new_probenum) =>
      match find_probe dec probe_id with
      | none => none
      | some p => probe_set_loop dec new_probes l (new_probemap.set p.order new_probenum)
          (num_probes + 1)
    | _ => none

/-- The function `srd_inst_probe_set_all`; `malloc_ok` says whether
`g_try_malloc` of the new map succeeds. Returns the status and the instance
afterwards. -/
def srd_inst_probe_set_all (malloc_ok : Bool) (di : srd_decoder_inst)
    (new_probes : GHashTable) : Int × srd_decoder_inst :=
  if g_hash_table_size new_probes = 0 then (SRD_OK, di)
  else if di.dec_num_probes = 0 then (SRD_ERR_ARG, di)
  else if !malloc_ok then (SRD_ERR_MALLOC, di)
  else
    match probe_set_loop di.decoder new_probes (g_hash_table_get_keys new_probes)
        (List.replicate di.dec_num_probes (-1)) 0 with
    | none => (SRD_ERR_ARG, di)
    | some (new_probemap, num_probes) =>
      (SRD_OK, { di with data_unitsize := (num_probes + 7) / 8, dec_probemap := new_probemap })

/-- All probes of a decoder, required then optional. -/
def all_probes (dec : srd_decoder) : List srd_probe := dec.probes ++ dec.opt_probes

/-- Number of slots of a probe map that differ from the unmapped sentinel. -/
def mapped_count (m : List Int) : Nat := (m.filter (fun x => x != -1)).length

/-! ### Example data: the i2c decoder -/

def i2c : srd_decoder :=
  { id := "i2c", name := "I2C",
    probes := [⟨"scl", "SCL", "Serial clock line", 0⟩, ⟨"sda", "SDA", "Serial data line", 1⟩],
    opt_probes := [], py_dec := ⟨none⟩ }

def i2c_inst : srd_decoder_inst :=
  { decoder := i2c, py_inst := ⟨0, none⟩, inst_id := "i2c", dec_num_probes := 2,
    dec_probemap := [0, 1], data_unitsize := 1, next_di := [] }

/-! ## srd_inst_option_set -/

/-- Largest `unsigned long long`, the value `(unsigned long long)-1`. -/
def ULLONG_MAX : Nat := 2 ^ 64 - 1

/-- The function `PyLong_AsUnsignedLongLong`: a Python int outside
`0 .. ULLONG_MAX` raises OverflowError, and the C function then returns
`(unsigned long long)-1`. -/
def PyLong_AsUnsignedLongLong (v : Int) : Nat :=
  if 0 ≤ v ∧ v ≤ (ULLONG_MAX : Int) then v.toNat else ULLONG_MAX

/-- The function `PyLong_FromLong` on a `gint64` (a C `long` of 64 bits). -/
def PyLong_FromLong (val_int : Int) : PyObject := .long val_int

def PyLong_FromUnsignedLongLong (val_ull : Nat) : PyObject := .long (val_ull : Int)

/-- The branch "an override for this option was provided": the new option
value, or `none` for the `goto err_out` of a type mismatch. -/
def override_value (py_classval : PyObject) (value : GVariant) : Option PyObject :=
  if PyUnicode_Check py_classval then
    match value with
    | .string val_str => some (.unicode val_str)
    | _ => none
  else if PyLong_Check py_classval then
    match value with
    | .int64 val_int => some (PyLong_FromLong val_int)
    | _ => none
  else none

/-- The branch "use the class default for this option": a fresh copy of the
default, or `none` for the `goto err_out` after the conversion to
`unsigned long long` yielded `(unsigned long long)-1`. -/
def default_value (py_classval : PyObject) : Option PyObject :=
  match py_classval with
  | .unicode py_ustr => some (.unicode py_ustr)
  | .long v =>
    let val_ull := PyLong_AsUnsignedLongLong v
    if val_ull = ULLONG_MAX then none else some (PyLong_FromUnsignedLongLong val_ull)
  | .other _ => none

/-- The loop over the option keys of the decoder class. The status is
SRD_ERR_PYTHON (the value `ret` holds from before the loop) on every
`goto err_out`, SRD_OK once all keys are done. The dict `py_di_options` is the
one already attached to the instance, so the dict built so far is returned on
failure as well, like the options hash table with the handled keys removed. -/
def option_set_loop (py_dec_options : PyDict (List PyObject)) :
    List String → PyDict PyObject → GHashTable → Int × PyDict PyObject × GHashTable
  | [], py_di_options, options => (SRD_OK, py_di_options, options)
  | key :: keys, py_di_options, options =>
    match PyDict_GetItemString py_dec_options key with
    | none => (SRD_ERR_PYTHON, py_di_options, options)
    | some py_optlist =>
      match PyList_GetItem py_optlist 1 with
      | none => (SRD_ERR_PYTHON, py_di_options, options)
      | some py_classval =>
        if !PyUnicode_Check py_classval && !PyLong_Check py_classval then
          (SRD_ERR_PYTHON, py_di_options, options)
        else
          match g_hash_table_lookup options key with
          | some value =>
            match override_value py_classval value with
            | none => (SRD_ERR_PYTHON, py_di_options, options)
            | some py_optval =>
              option_set_loop py_dec_options keys
                (PyDict_SetItemString py_di_options key py_optval)
                (g_hash_table_remove options key)
          | none =>
            match default_value py_classval with
            | none => (SRD_ERR_PYTHON, py_di_options, options)
            | some py_optval =>
              option_set_loop py_dec_options keys
                (PyDict_SetItemString py_di_options key py_optval) options

/-- The function `srd_inst_option_set`: the status, the instance and the
options hash table afterwards. The lookup of `options` on `py_inst` cannot
fail once the class has the attribute, so the fresh dict is always attached
to the instance before the loop. -/
def srd_inst_option_set (di : Option srd_decoder_inst) (options : Option GHashTable) :
    Int × Option srd_decoder_inst × Option GHashTable :=
  match di with
  | none => (SRD_ERR_ARG, none, options)
  | some di =>
    match options with
    | none => (SRD_ERR_ARG, some di, none)
    | some options =>
      match di.decoder.py_dec.options with
      | none =>
        if g_hash_table_size options = 0 then (SRD_OK, some di, some options)
        else (SRD_ERR_ARG, some di, some options)
      | some py_dec_options =>
        let r := option_set_loop py_dec_options (PyDict_Keys py_dec_options) [] options
        (r.1, some { di with py_inst := { di.py_inst with options := some r.2.1 } }, some r.2.2)

/-! ### Example data: the uart decoder -/

def uart : srd_decoder :=
  { id := "uart", name := "UART", probes := [⟨"rx", "RX", "UART receive line", 0⟩],
    opt_probes := [],
    py_dec := ⟨some [("baudrate", [.unicode "Baud rate", .long 115200]),
                     ("parity", [.unicode "Parity", .unicode "none"])]⟩ }

def uart_inst : srd_decoder_inst :=
  { decoder := uart, py_inst := ⟨0, none⟩, inst_id := "uart", dec_num_probes := 1,
    dec_probemap := [0], data_unitsize := 1, next_di := [] }

/-- A decoder with an integer option whose default is negative. -/
def offset_dec : srd_decoder :=
  { id := "offset", name := "Offset", probes := [], opt_probes := [],
    py_dec := ⟨some [("offset", [.unicode "Sample offset", .long (-1)])]⟩ }

def offset_inst : srd_decoder_inst :=
  { decoder := offset_dec, py_inst := ⟨0, none⟩, inst_id := "offset", dec_num_probes := 0,
    dec_probemap := [], data_unitsize := 0, next_di := [] }

/-! ## Sessions and the instance heap -/

/-- Modelled from the spec: `struct srd_session` is only forward-declared in
libsigrokdecode.h and its definition is not among the sources. It owns the
ordered list of root instances (`di_list`); `live` stands for what the
validity check inspects. -/
structure srd_session where
  live : Bool
  di_list : List Ptr
  deriving DecidableEq, Repr

/-- Modelled from the spec: `session_is_valid` (session.c) is not among the
sources; the spec has the callers "validate session is live". A null session
is never valid. -/
def session_is_valid : Option srd_session → Int
  | none => SRD_ERR
  | some sess => if sess.live then SRD_OK else SRD_ERR

/-- Modelled from the spec: `srd_decoder_get_by_id` (decoder.c) is not among
the sources; it "resolves decoder_id to a Descriptor" among the loaded
decoders `pd_list`, or finds none. -/
def srd_decoder_get_by_id (pd_list : List srd_decoder) (id : String) : Option srd_decoder :=
  pd_list.find? (fun dec => dec.id == id)

/-- All instances allocated so far; the address of an instance is its
position. -/
abbrev Heap := List srd_decoder_inst

/-- An instance as `g_try_malloc0` leaves it: every field zero. -/
def zero_inst : srd_decoder_inst :=
  { decoder := { id := "", name := "", probes := [], opt_probes := [], py_dec := ⟨none⟩ },
    py_inst := ⟨0, none⟩, inst_id := "", dec_num_probes := 0, dec_probemap := [],
    data_unitsize := 0, next_di := [] }

/-- Read the instance at an address. Reading through an address that was
never allocated is undefined in C; the embedding reads an all-zero instance
there, and the statements below only use allocated addresses. -/
def deref (heap : Heap) (p : Ptr) : srd_decoder_inst := heap.getD p zero_inst

def g_slist_find (l : List Ptr) (data : Ptr) : Bool := l.contains data

/-- The function `g_slist_remove`: drops the first element equal to `data`. -/
def g_slist_remove (l : List Ptr) (data : Ptr) : List Ptr := l.erase data

def g_slist_append (l : List Ptr) (data : Ptr) : List Ptr := l ++ [data]

/-! ## srd_inst_new -/

/-- The options hash table handed to `srd_inst_new`: the entry under the key
"id", if any, is read as a C string; all other entries are `GVariant`s. -/
structure InstOptions where
  id : Option String
  entries : GHashTable
  deriving DecidableEq, Repr

/-- Outcomes of the calls `srd_inst_new` makes into its environment: the
three allocations, and the call of the decoder class (`PyObject_CallObject`),
which yields the address of a new Python object or fails. -/
structure NewEnv where
  malloc_di : Bool
  malloc_probemap : Bool
  malloc_samples : Bool
  py_inst : Option Nat
  deriving DecidableEq, Repr

/-- The default probe map `dec_probemap[i] = i`. -/
def default_probemap (n : Nat) : List Int := (List.range n).map (fun (i : Nat) => (i : Int))

/-- The instance `srd_inst_new` has built when it reaches the call of
`srd_inst_option_set`. -/
def new_inst (dec : srd_decoder) (inst_id : String) (py_addr : Nat) : srd_decoder_inst :=
  let dec_num_probes := dec.probes.length + dec.opt_probes.length
  { decoder := dec, py_inst := ⟨py_addr, none⟩, inst_id := inst_id,
    dec_num_probes := dec_num_probes,
    dec_probemap := if dec_num_probes ≠ 0 then default_probemap dec_num_probes else [],
    data_unitsize := if dec_num_probes ≠ 0 then (dec_num_probes + 7) / 8 else 0,
    next_di := [] }

/-- The instance id chosen by `srd_inst_new`: the string under the key "id"
of the options hash table when there is a table with that key, the decoder id
otherwise. -/
def new_inst_id (decoder_id : String) (options : Option InstOptions) : String :=
  match options with
  | some o =>
    match o.id with
    | some inst_id => inst_id
    | none => decoder_id
  | none => decoder_id

/-- The options hash table after `g_hash_table_remove(options, "id")`. -/
def remove_id (options : Option InstOptions) : Option InstOptions :=
  options.map (fun o => { id := none, entries := g_hash_table_remove o.entries "id" })

/-- The tail of `srd_inst_new`, from the call of `srd_inst_option_set` on:
option coercion when a table was supplied, then the append to the session's
list of roots. The new instance gets the next unused address. -/
def new_finish (heap : Heap) (s : srd_session) (di : srd_decoder_inst)
    (options : Option InstOptions) :
    Option Ptr × Heap × Option srd_session × Option InstOptions :=
  match options with
  | some o =>
    let r := srd_inst_option_set (some di) (some o.entries)
    let options2 : Option InstOptions := some { id := none, entries := r.2.2.getD o.entries }
    if r.1 ≠ SRD_OK then (none, heap, some s, options2)
    else
      (some heap.length, heap ++ [r.2.1.getD di],
        some { s with di_list := g_slist_append s.di_list heap.length }, options2)
  | none =>
    (some heap.length, heap ++ [di],
      some { s with di_list := g_slist_append s.di_list heap.length }, none)

/-- The function `srd_inst_new`: the returned instance (`none` for NULL), the
heap, the session and the options hash table afterwards. -/
def srd_inst_new (pd_list : List srd_decoder) (env : NewEnv) (heap : Heap)
    (sess : Option srd_session) (decoder_id : String) (options : Option InstOptions) :
    Option Ptr × Heap × Option srd_session × Option InstOptions :=
  if session_is_valid sess ≠ SRD_OK then (none, heap, sess, options)
  else
    match sess with
    | none => (none, heap, sess, options)
    | some s =>
      match srd_decoder_get_by_id pd_list decoder_id with
      | none => (none, heap, sess, options)
      | some dec =>
        if !env.malloc_di then (none, heap, sess, options)
        else if dec.probes.length + dec.opt_probes.length ≠ 0 ∧ !env.malloc_probemap then
          (none, heap, sess, remove_id options)
        else if dec.probes.length + dec.opt_probes.length ≠ 0 ∧ !env.malloc_samples then
          (none, heap, sess, remove_id options)
        else
          match env.py_inst with
          | none => (none, heap, sess, remove_id options)
          | some py_addr =>
            new_finish heap s (new_inst dec (new_inst_id decoder_id options) py_addr)
              (remove_id options)

/-! ## srd_inst_stack, srd_inst_find_by_id, srd_sess_inst_find_by_obj -/

/-- The function `srd_inst_stack`: the status, the heap and the session
afterwards. -/
def srd_inst_stack (heap : Heap) (sess : Option srd_session) (di_from di_to : Option Ptr) :
    Int × Heap × Option srd_session :=
  if session_is_valid sess ≠ SRD_OK then (SRD_ERR_ARG, heap, sess)
  else
    match sess, di_from, di_to with
    | some s, some f, some t =>
      let di_list := if g_slist_find s.di_list t then g_slist_remove s.di_list t else s.di_list
      (SRD_OK,
        heap.set f { deref heap f with next_di := g_slist_append (deref heap f).next_di t },
        some { s with di_list := di_list })
    | _, _, _ => (SRD_ERR_ARG, heap, sess)

/-- The function `srd_inst_find_by_id`: the first root whose `inst_id` equals
the wanted one. -/
def srd_inst_find_by_id (heap : Heap) (sess : Option srd_session) (inst_id : String) :
    Option Ptr :=
  if session_is_valid sess ≠ SRD_OK then none
  else
    match sess with
    | none => none
    | some s => s.di_list.find? (fun tmp => (deref heap tmp).inst_id == inst_id)

/-- The `for` loop of `srd_sess_inst_find_by_obj`, with the loop variable `di`
and the rest of the list; `recurse` is the recursive call on a child list.
The outer `none` says that a recursive call did not return. -/
def find_by_obj_loop (heap : Heap) (obj : Nat)
    (recurse : List Ptr → Option (Option Ptr)) : Option Ptr → List Ptr → Option (Option Ptr)
  | some di, _ => some (some di)
  | none, [] => some none
  | none, tmp :: l =>
    if (deref heap tmp).py_inst.addr = obj then find_by_obj_loop heap obj recurse (some tmp) l
    else if (deref heap tmp).next_di ≠ [] then
      match recurse (deref heap tmp).next_di with
      | none => none
      | some di => find_by_obj_loop heap obj recurse di l
    else find_by_obj_loop heap obj recurse none l

/-- The function `srd_sess_inst_find_by_obj`, with a bound on the depth of
the recursion; the outer `none` says that the bound was reached. A NULL
`stack` is the empty list. -/
def srd_sess_inst_find_by_obj (heap : Heap) (sess : Option srd_session) (obj : Nat) :
    Nat → List Ptr → Option (Option Ptr)
  | 0, _ => none
  | fuel + 1, stack =>
    if session_is_valid sess ≠ SRD_OK then some none
    else
      match sess with
      | none => some none
      | some s =>
        find_by_obj_loop heap obj (srd_sess_inst_find_by_obj heap sess obj fuel) none
          (if stack ≠ [] then stack else s.di_list)

/-! ## srd_inst_free, srd_inst_free_all -/

/-- What teardown acts on: the session, and the instances handed to
`srd_inst_free` so far, in call order. The heap keeps the last contents of a
freed instance. -/
structure FreeState where
  sess : Option srd_session
  freed : List Ptr
  deriving DecidableEq, Repr

/-- The function `srd_inst_free`, as the record of its call. -/
def srd_inst_free (freed : List Ptr) (di : Ptr) : List Ptr := freed ++ [di]

/-- The `for` loop of `srd_inst_free_all`, with the loop variable `di` (which
the loop condition `di == NULL && l != NULL` tests) and the rest of the list;
`recurse` is the recursive call on a child list. -/
def free_all_loop (heap : Heap) (recurse : FreeState → List Ptr → Option FreeState) :
    Option Ptr → List Ptr → FreeState → Option FreeState
  | some _, _, st => some st
  | none, [], st => some st
  | none, di :: l, st =>
    match (if (deref heap di).next_di ≠ [] then recurse st (deref heap di).next_di
           else some st) with
    | none => none
    | some st1 =>
      free_all_loop heap recurse (some di) l { st1 with freed := srd_inst_free st1.freed di }

/-- The function `srd_inst_free_all`, with a bound on the depth of the
recursion (`none`: bound reached). A NULL `stack` is the empty list. -/
def srd_inst_free_all (heap : Heap) : Nat → FreeState → List Ptr → Option FreeState
  | 0, _, _ => none
  | fuel + 1, st, stack =>
    if session_is_valid st.sess ≠ SRD_OK then some st
    else
      match st.sess with
      | none => some st
      | some s =>
        match free_all_loop heap (srd_inst_free_all heap fuel) none
            (if stack ≠ [] then stack else s.di_list) st with
        | none => none
        | some st1 =>
          if stack = [] then
            some { st1 with sess := st1.sess.map (fun s1 => { s1 with di_list := [] }) }
          else some st1

/-! ### Example data: a session with two uart roots -/

def uart_a : srd_decoder_inst := new_inst uart "uart" 11

def uart_b : srd_decoder_inst := new_inst uart "uart" 12

def two_roots : srd_session := { live := true, di_list := [0, 1] }

def uart_named : srd_decoder_inst := new_inst uart "uart-2" 13

/-! ## The instance graph of a session -/

/-- The child relation: `c` is in the `next_di` list of the allocated
instance `p`. -/
def child (heap : Heap) (p c : Ptr) : Prop := p < heap.length ∧ c ∈ (deref heap p).next_di

/-- Number of occurrences of an address in the `next_di` lists of all
instances. -/
def child_occurrences : Heap → Ptr → Nat
  | [], _ => 0
  | di :: heap, p => di.next_di.count p + child_occurrences heap p

/-- Number of occurrences of an address in the root list of the session and
in all child lists together. -/
def occurrences (heap : Heap) (s : srd_session) (p : Ptr) : Nat :=
  s.di_list.count p + child_occurrences heap p

/-- All addresses stored in the session and in the heap are allocated. -/
def Closed (heap : Heap) (s : srd_session) : Prop :=
  (∀ r ∈ s.di_list, r < heap.length) ∧ ∀ di ∈ heap, ∀ c ∈ di.next_di, c < heap.length

/-- The forest invariant: every allocated instance occurs exactly once, as a
root or as a child, and the child relation has no cycle. -/
def Forest (heap : Heap) (s : srd_session) : Prop :=
  (∀ p, p < heap.length → occurrences heap s p = 1) ∧
  ∀ p, ¬ Relation.TransGen (child heap) p p

/-- The states of a session and its instances reachable from the empty
session by calls of `srd_inst_new` that return an instance and calls of
`srd_inst_stack` on allocated instances; `allowed heap s from to` says
which stacking calls are taken into account. -/
inductive Reachable (pd_list : List srd_decoder)
    (allowed : Heap → srd_session → Ptr → Ptr → Prop) : Heap → srd_session → Prop where
  | init : Reachable pd_list allowed [] { live := true, di_list := [] }
  | new {heap : Heap} {s : srd_session} (env : NewEnv) (decoder_id : String)
      (options : Option InstOptions) {p : Ptr} {heap' : Heap} {s' : srd_session}
      {o' : Option InstOptions} :
      Reachable pd_list allowed heap s →
      srd_inst_new pd_list env heap (some s) decoder_id options = (some p, heap', some s', o') →
      Reachable pd_list allowed heap' s'
  | stack {heap : Heap} {s : srd_session} (f t : Ptr) {heap' : Heap} {s' : srd_session} :
      Reachable pd_list allowed heap s →
      f < heap.length → t < heap.length → allowed heap s f t →
      srd_inst_stack heap (some s) (some f) (some t) = (SRD_OK, heap', some s') →
      Reachable pd_list allowed heap' s'

/-- Every stacking call on allocated instances. -/
def any_stack : Heap → srd_session → Ptr → Ptr → Prop := fun _ _ _ _ => True

/-- The stacking calls that move a current root `t` onto an instance `f`
outside the subtree of `t`. -/
def root_stack : Heap → srd_session → Ptr → Ptr → Prop :=
  fun heap s f t => t ∈ s.di_list ∧ ¬ Relation.ReflTransGen (child heap) t f

/-! ## Instance states under probe mapping -/

/-- The slot invariant of a probe map: every slot is the unmapped sentinel
or a non-negative channel index, and the byte width is
ceil(number of mapped slots / 8). -/
def slot_invariant (di : srd_decoder_inst) : Prop :=
  (∀ x ∈ di.dec_probemap, x = -1 ∨ 0 ≤ x) ∧
  di.data_unitsize = ⌈(mapped_count di.dec_probemap : ℚ) / 8⌉₊

/-- The instance states reachable by one `srd_inst_new` that returns an
instance, followed by calls of `srd_inst_probe_set_all` on it;
`allowed new_probes` says which input maps are taken into account. -/
inductive InstReachable (pd_list : List srd_decoder) (allowed : GHashTable → Prop) :
    srd_decoder_inst → Prop where
  | new (env : NewEnv) (heap : Heap) (sess : Option srd_session) (decoder_id : String)
      (options : Option InstOptions) {p : Ptr} {heap' : Heap} {sess' : Option srd_session}
      {o' : Option InstOptions} :
      srd_inst_new pd_list env heap sess decoder_id options = (some p, heap', sess', o') →
      InstReachable pd_list allowed (deref heap' p)
  | probe_set {di : srd_decoder_inst} (malloc_ok : Bool) (new_probes : GHashTable) :
      InstReachable pd_list allowed di → allowed new_probes →
      InstReachable pd_list allowed (srd_inst_probe_set_all malloc_ok di new_probes).2

/-- Input maps with distinct keys whose integer values are arbitrary 32-bit
integers. -/
def int32_map (t : GHashTable) : Prop :=
  (g_hash_table_get_keys t).Nodup ∧
  ∀ kv ∈ t, ∀ v : Int, kv.2 = .int32 v → -2 ^ 31 ≤ v ∧ v < 2 ^ 31

/-- Input maps with distinct keys whose integer values are non-negative
32-bit integers. -/
def channel_map (t : GHashTable) : Prop :=
  (g_hash_table_get_keys t).Nodup ∧
  ∀ kv ∈ t, ∀ v : Int, kv.2 = .int32 v → 0 ≤ v ∧ v < 2 ^ 31

/-- The probes of a decoder sit at pairwise distinct orders, each a position
of the combined probe list. -/
def probe_orders_ok (dec : srd_decoder) : Prop :=
  ((all_probes dec).map srd_probe.order).Nodup ∧
  ∀ p ∈ all_probes dec, p.order < (all_probes dec).length

/-! ## Search by Python object -/

/-- The instance `q` is a member of the list `l` or one of the transitive
stacked children of a member. -/
def in_subtree (heap : Heap) (l : List Ptr) (q : Ptr) : Prop :=
  ∃ p ∈ l, Relation.ReflTransGen (child heap) p q

/-- The loop of `srd_inst_find_by_obj` over the sessions, with the loop
variable `di`. -/
def find_by_obj_sessions (heap : Heap) (obj : Nat) (fuel : Nat) (stack : List Ptr) :
    Option Ptr → List srd_session → Option (Option Ptr)
  | some di, _ => some (some di)
  | none, [] => some none
  | none, sess :: l =>
    match srd_sess_inst_find_by_obj heap (some sess) obj fuel stack with
    | none => none
    | some di => find_by_obj_sessions heap obj fuel stack di l

/-- The function `srd_inst_find_by_obj` over the global list `sessions`, with
the bound on the depth of the recursion of the search in one session. -/
def srd_inst_find_by_obj (heap : Heap) (sessions : List srd_session) (obj : Nat) (fuel : Nat)
    (stack : List Ptr) : Option (Option Ptr) :=
  find_by_obj_sessions heap obj fuel stack none sessions

/-! ## Pre-order listing of the instance graph -/

/-- The listings of the members of a list one after the other, `listing`
giving the listing of one member (`none` when it gives none). -/
def preorder_loop (listing : Ptr → Option (List Ptr)) : List Ptr → Option (List Ptr)
  | [] => some []
  | q :: l =>
    match listing q, preorder_loop listing l with
    | some a, some b => some (a ++ b)
    | _, _ => none

/-- The pre-order listing of the subtree of an instance: the instance, then
the subtree of each stacked child in the order of the child list; `none` when
the subtree is deeper than the bound. -/
def preorder_node (heap : Heap) : Nat → Ptr → Option (List Ptr)
  | 0, _ => none
  | fuel + 1, p =>
    match preorder_loop (preorder_node heap fuel) (deref heap p).next_di with
    | some kids => some (p :: kids)
    | none => none

/-! ## srd_inst_start -/

/-- The loop of `srd_inst_start` over the stacked instances; `recurse` is the
recursive call, which takes and returns the record of the start hooks invoked
so far. -/
def start_loop (recurse : Ptr → List Ptr → Option (Int × List Ptr)) :
    List Ptr → List Ptr → Option (Int × List Ptr)
  | [], started => some (SRD_OK, started)
  | next_di :: l, started =>
    match recurse next_di started with
    | none => none
    | some (ret, started1) =>
      if ret ≠ SRD_OK then some (ret, started1) else start_loop recurse l started1

/-- The function `srd_inst_start`, with a bound on the depth of the recursion
(`none`: bound reached). `start_hook di` is the outcome of the call of the
`start` method of the Python object of `di` (`false`: the call fails);
`started` records the instances whose hook has been invoked, in call order. -/
def srd_inst_start (heap : Heap) (start_hook : Ptr → Bool) :
    Nat → Ptr → List Ptr → Option (Int × List Ptr)
  | 0, _, _ => none
  | fuel + 1, di, started =>
    if !start_hook di then some (SRD_ERR_PYTHON, started ++ [di])
    else start_loop (srd_inst_start heap start_hook fuel) (deref heap di).next_di
      (started ++ [di])

/-! ### Example data: a shared Python object -/

/-- A third uart instance carrying the Python object of `uart_b`. -/
def uart_shared : srd_decoder_inst := new_inst uart "uart-3" 12

/-- The part of a listing up to and including the first instance whose
start hook fails (the whole listing when none fails). -/
def hooks_invoked (start_hook : Ptr → Bool) : List Ptr → List Ptr
  | [] => []
  | p :: l => if start_hook p then p :: hooks_invoked start_hook l else [p]

/-! ## srd_inst_decode -/

/-- The `srd_logic` object handed to the decode method (the sample cursor):
the instance, the absolute number of the first sample, the iteration count,
the buffer and its length, and the two-element `sample` list
(`PyList_New(2)`, both items unset). -/
structure srd_logic where
  di : Ptr
  start_samplenum : Nat
  itercnt : Nat
  inbuf : List Nat
  inbuflen : Nat
  sample : List (Option PyObject)
  deriving DecidableEq, Repr

/-- One call of the `decode` method: the Python object it is called on and
the three arguments. -/
structure DecodeCall where
  py_inst : Nat
  start_samplenum : Nat
  end_samplenum : Nat
  logic : srd_logic
  deriving DecidableEq, Repr

/-- The function `srd_inst_decode`. `decode_hook call heap` is the outcome of
the call of the `decode` method (`false`: the call fails) together with the
heap as the plugin leaves it; `calls` records the calls made so far. Returns
the status, the heap and the record of calls. -/
def srd_inst_decode (heap : Heap) (decode_hook : DecodeCall → Heap → Bool × Heap)
    (calls : List DecodeCall) (di : Option Ptr) (start_samplenum end_samplenum : Nat)
    (inbuf : Option (List Nat)) (inbuflen : Nat) : Int × Heap × List DecodeCall :=
  match di with
  | none => (SRD_ERR_ARG, heap, calls)
  | some d =>
    match inbuf with
    | none => (SRD_ERR_ARG, heap, calls)
    | some buf =>
      if inbuflen = 0 then (SRD_ERR_ARG, heap, calls)
      else
        let logic : srd_logic :=
          { di := d, start_samplenum := start_samplenum, itercnt := 0, inbuf := buf,
            inbuflen := inbuflen, sample := [none, none] }
        let call : DecodeCall :=
          { py_inst := (deref heap d).py_inst.addr, start_samplenum := start_samplenum,
            end_samplenum := end_samplenum, logic := logic }
        let r := decode_hook call heap
        if !r.1 then (SRD_ERR_PYTHON, r.2, calls ++ [call])
        else (SRD_OK, r.2, calls ++ [call])

/-! ### Example data: a child list with a cycle -/

/-- The heap after `srd_inst_stack(sess, 0, 1)` and `srd_inst_stack(sess, 1, 1)`
on two fresh uart roots: instance 1 is a stacked child of instance 0 and of
itself. -/
def cyclic_heap : Heap := [{ uart_a with next_di := [1] }, { uart_b with next_di := [1] }]

def one_root : srd_session := { live := true, di_list := [0] }

/-! ## Sessions built by srd_inst_new alone -/

/-- The states a session reaches from the empty session by successful calls
of `srd_inst_new`; `allowed` says which calls are made in a state. -/
inductive NewReachable (pd_list : List srd_decoder)
    (allowed : Heap → srd_session → String → Option InstOptions → Prop) :
    Heap → srd_session → Prop where
  | init : NewReachable pd_list allowed [] { live := true, di_list := [] }
  | new {heap : Heap} {s : srd_session} (env : NewEnv) (decoder_id : String)
      (options : Option InstOptions) {p : Ptr} {heap' : Heap} {s' : srd_session}
      {o' : Option InstOptions} :
      NewReachable pd_list allowed heap s → allowed heap s decoder_id options →
      srd_inst_new pd_list env heap (some s) decoder_id options = (some p, heap', some s', o') →
      NewReachable pd_list allowed heap' s'

/-- Every call of `srd_inst_new`. -/
def any_new : Heap → srd_session → String → Option InstOptions → Prop := fun _ _ _ _ => True

/-- The calls of `srd_inst_new` whose instance id (the "id" entry of the
options table, or the decoder id) is the id of no current root. -/
def fresh_id : Heap → srd_session → String → Option InstOptions → Prop :=
  fun heap s decoder_id options =>
    ∀ r ∈ s.di_list, (deref heap r).inst_id ≠ new_inst_id decoder_id options

/-- The instance ids of the roots of a session, in list order. -/
def root_ids (heap : Heap) (s : srd_session) : List String :=
  s.di_list.map (fun r => (deref heap r).inst_id)

/-! ### Example data: a configured uart instance -/

/-- The uart instance after `srd_inst_option_set` with baudrate = 9600 and
parity = "even". -/
def uart_configured : srd_decoder_inst :=
  { uart_inst with
    py_inst := ⟨0, some [("baudrate", .long 9600), ("parity", .unicode "even")]⟩ }

/-! ## Library initialisation (srd.c) -/

/-- The library state `srd_init` and `srd_exit` act on: the global
`max_session_id` (-1: not initialised) and whether the Python interpreter is
running (`Py_Initialize` / `Py_Finalize`). -/
structure LibState where
  max_session_id : Int
  py_initialized : Bool
  deriving DecidableEq, Repr

/-- What `srd_init` reads from its environment: the build-time constant
`DECODERS_DIR`, the value of `getenv("SIGROKDECODE_DIR")`, and the outcome of
the allocation inside each of the up to three calls of
`srd_decoder_searchpath_add`. -/
structure InitEnv where
  decoders_dir : String
  env_path : Option String
  malloc_dir : Bool
  malloc_path : Bool
  malloc_env : Bool
  deriving DecidableEq, Repr

/-- The status of `srd_decoder_searchpath_add`: SRD_ERR_MALLOC when the
allocation of the wide-character path fails, SRD_OK otherwise. Its effect on
Python's `sys.path` is not part of the state kept here. -/
def srd_decoder_searchpath_add (malloc_ok : Bool) (_path : String) : Int :=
  if !malloc_ok then SRD_ERR_MALLOC else SRD_OK

/-- The function `srd_init`: the status and the library state afterwards. -/
def srd_init (st : LibState) (env : InitEnv) (path : Option String) : Int × LibState :=
  if st.max_session_id ≠ -1 then (SRD_ERR, st)
  else
    let ret1 := srd_decoder_searchpath_add env.malloc_dir env.decoders_dir
    if ret1 ≠ SRD_OK then (ret1, { st with py_initialized := false })
    else
      let ret2 :=
        match path with
        | some p => srd_decoder_searchpath_add env.malloc_path p
        | none => SRD_OK
      if ret2 ≠ SRD_OK then (ret2, { st with py_initialized := false })
      else
        let ret3 :=
          match env.env_path with
          | some p => srd_decoder_searchpath_add env.malloc_env p
          | none => SRD_OK
        if ret3 ≠ SRD_OK then (ret3, { st with py_initialized := false })
        else (SRD_OK, { max_session_id := 0, py_initialized := true })

/-- The function `srd_exit`: the status and the library state afterwards. -/
def srd_exit (_st : LibState) : Int × LibState :=
  (SRD_OK, { max_session_id := -1, py_initialized := false })

/-- The function `srd_check_init`. -/
def srd_check_init (st : LibState) : Bool :=
  if st.max_session_id < 0 then false else true

/-- The statuses of the search-path additions `srd_init` makes when none of
them fails: the installed decoders, then the path given by the caller if any,
then the path of the environment variable if set. -/
def init_additions (env : InitEnv) (path : Option String) : List Int :=
  [srd_decoder_searchpath_add env.malloc_dir env.decoders_dir] ++
  (match path with
   | some p => [srd_decoder_searchpath_add env.malloc_path p]
   | none => []) ++
  (match env.env_path with
   | some p => [srd_decoder_searchpath_add env.malloc_env p]
   | none => [])

/-! ### Example data: a decoder class with an empty options dict -/

/-- A decoder whose class declares zero options through `options = {}`. -/
def empty_opts_dec : srd_decoder := { i2c with id := "can", name := "CAN", py_dec := ⟨some []⟩ }

def empty_opts_inst : srd_decoder_inst := { i2c_inst with decoder := empty_opts_dec, inst_id := "can" }

end Srd

/-! # Properties -/

namespace Srd

/-! ## Probe lookup -/

theorem find_probe_eq_find (dec : srd_decoder) (k : String) :
    find_probe dec k = (all_probes dec).find? (fun a => a.id == k) := by
  unfold find_probe g_slist_find_custom all_probes compare_probe_id
  rw [List.find?_append]
  cases List.find? (fun a => a.id == k) dec.probes <;> rfl

theorem find_probe_some {dec : srd_decoder} {k : String} {p : srd_probe}
    (h : find_probe dec k = some p) : p ∈ all_probes dec ∧ p.id = k := by
  rw [find_probe_eq_find] at h
  exact ⟨List.mem_of_find?_eq_some h, by simpa using List.find?_some h⟩

theorem find_nodup_ids (l : List srd_probe) (hnd : (l.map srd_probe.id).Nodup)
    (p : srd_probe) (hp : p ∈ l) : l.find? (fun a => a.id == p.id) = some p := by
  induction l with
  | nil => cases hp
  | cons a l ih =>
    rw [List.map_cons, List.nodup_cons] at hnd
    rcases List.mem_cons.mp hp with rfl | hp
    · simp
    · have hne : a.id ≠ p.id := fun e => hnd.1 (e ▸ List.mem_map_of_mem srd_probe.id hp)
      rw [List.find?_cons_of_neg _ (by simpa using hne)]
      exact ih hnd.2 hp

theorem find_probe_of_mem (dec : srd_decoder)
    (hnd : ((all_probes dec).map srd_probe.id).Nodup) (p : srd_probe)
    (hp : p ∈ all_probes dec) : find_probe dec p.id = some p := by
  rw [find_probe_eq_find]
  exact find_nodup_ids _ hnd p hp

/-- Two keys that resolve to probes of the same `order` are equal, when the
orders of the decoder's probes are pairwise distinct. -/
theorem find_probe_order_inj (dec : srd_decoder)
    (hord : ((all_probes dec).map srd_probe.order).Nodup) {k1 k2 : String}
    {p1 p2 : srd_probe} (h1 : find_probe dec k1 = some p1) (h2 : find_probe dec k2 = some p2)
    (ho : p1.order = p2.order) : k1 = k2 := by
  obtain ⟨m1, e1⟩ := find_probe_some h1
  obtain ⟨m2, e2⟩ := find_probe_some h2
  have : p1 = p2 := List.inj_on_of_nodup_map hord m1 m2 ho
  rw [← e1, ← e2, this]

/-! ## The probe loop -/

theorem probe_set_loop_spec (dec : srd_decoder) (t : GHashTable)
    (hord : ((all_probes dec).map srd_probe.order).Nodup) :
    ∀ (ks : List String) (m : List Int) (n : Nat), ks.Nodup →
      (∀ k ∈ ks, ∃ v p, g_hash_table_lookup t k = some (.int32 v) ∧ find_probe dec k = some p) →
      ∃ m', probe_set_loop dec t ks m n = some (m', n + ks.length) ∧ m'.length = m.length ∧
        (∀ k ∈ ks, ∀ v p, g_hash_table_lookup t k = some (.int32 v) → find_probe dec k = some p →
          p.order < m.length → m'.get? p.order = some v) ∧
        (∀ i, (∀ k ∈ ks, ∀ p, find_probe dec k = some p → p.order ≠ i) →
          m'.get? i = m.get? i) := by
  intro ks
  induction ks with
  | nil => intro m n _ _; exact ⟨m, rfl, rfl, by simp, fun _ _ => rfl⟩
  | cons k ks ih =>
    intro m n hnd hall
    rw [List.nodup_cons] at hnd
    obtain ⟨v, p, hv, hp⟩ := hall k (List.mem_cons_self _ _)
    obtain ⟨m', hrun, hlen, hset, hkeep⟩ :=
      ih (m.set p.order v) (n + 1) hnd.2 (fun k' hk' => hall k' (List.mem_cons_of_mem _ hk'))
    refine ⟨m', ?_, ?_, ?_, ?_⟩
    · simp only [probe_set_loop, hv, hp, hrun, List.length_cons]
      congr 2; omega
    · simpa using hlen
    · intro k' hk' v' p' hv' hp' hlt
      rcases List.mem_cons.mp hk' with rfl | hk'
      · rw [hv] at hv'; rw [hp] at hp'
        cases hv'; cases hp'
        rw [hkeep p.order, List.get?_eq_getElem?, List.getElem?_set_self hlt]
        intro k2 hk2 p2 hp2 ho
        exact hnd.1 (find_probe_order_inj dec hord hp hp2 ho.symm ▸ hk2)
      · exact hset k' hk' v' p' hv' hp' (by simpa using hlt)
    · intro i hi
      rw [hkeep i (fun k' hk' p' hp' => hi k' (List.mem_cons_of_mem _ hk') p' hp')]
      have hne : p.order ≠ i := hi k (List.mem_cons_self _ _) p hp
      rw [List.get?_eq_getElem?, List.get?_eq_getElem?, List.getElem?_set_ne hne]

theorem lookup_of_mem_keys (t : GHashTable) (k : String)
    (hk : k ∈ g_hash_table_get_keys t) :
    ∃ v, g_hash_table_lookup t k = some v ∧ (k, v) ∈ t := by
  unfold g_hash_table_get_keys at hk
  obtain ⟨⟨k', v⟩, hmem, rfl⟩ := List.mem_map.mp hk
  cases hf : t.find? (fun kv => kv.1 == k') with
  | none =>
    have := List.find?_eq_none.mp hf (k', v) hmem
    simp at this
  | some kv =>
    have h1 : kv.1 = k' := by simpa using List.find?_some hf
    have h2 := List.mem_of_find?_eq_some hf
    refine ⟨kv.2, by simp [g_hash_table_lookup, hf], ?_⟩
    rw [← h1]; exact h2

/-- C1: with a decoder declaring n > 0 probes of distinct ids and distinct
orders below n, and a non-empty input map whose keys are declared probe ids
and whose values are 32-bit integers, `srd_inst_probe_set_all` returns SRD_OK;
the new probe map has length n, holds the input value of every probe named in
the input at that probe's order (the probe being looked up among the required
probes first and the optional ones second) and the sentinel -1 in every other
slot, independently of the previous map. -/
theorem C1_probe_set_all_map (di : srd_decoder_inst) (new_probes : GHashTable)
    (hn : di.dec_num_probes = (all_probes di.decoder).length)
    (hpos : 0 < di.dec_num_probes)
    (hid : ((all_probes di.decoder).map srd_probe.id).Nodup)
    (hord : ((all_probes di.decoder).map srd_probe.order).Nodup)
    (hlt : ∀ p ∈ all_probes di.decoder, p.order < di.dec_num_probes)
    (hne : new_probes ≠ [])
    (hkeys : (g_hash_table_get_keys new_probes).Nodup)
    (hdecl : ∀ kv ∈ new_probes, ∃ p ∈ all_probes di.decoder, p.id = kv.1)
    (hint : ∀ kv ∈ new_probes, ∃ v : Int, kv.2 = .int32 v ∧ -2 ^ 31 ≤ v ∧ v < 2 ^ 31) :
    ∃ di', srd_inst_probe_set_all true di new_probes = (SRD_OK, di') ∧
      di'.dec_probemap.length = (all_probes di.decoder).length ∧
      (∀ p ∈ all_probes di.decoder, ∀ v, g_hash_table_lookup new_probes p.id = some (.int32 v) →
        di'.dec_probemap.get? p.order = some v) ∧
      (∀ i, i < (all_probes di.decoder).length →
        (∀ p ∈ all_probes di.decoder, p.order = i → g_hash_table_lookup new_probes p.id = none) →
        di'.dec_probemap.get? i = some (-1)) ∧
      (∀ k v p, g_hash_table_lookup new_probes k = some (.int32 v) →
        (g_slist_find_custom di.decoder.probes k = some p ∨
          (g_slist_find_custom di.decoder.probes k = none ∧
            g_slist_find_custom di.decoder.opt_probes k = some p)) →
        di'.dec_probemap.get? p.order = some v) := by
  have hall : ∀ k ∈ g_hash_table_get_keys new_probes, ∃ v p,
      g_hash_table_lookup new_probes k = some (.int32 v) ∧ find_probe di.decoder k = some p := by
    intro k hk
    obtain ⟨v, hv, hmem⟩ := lookup_of_mem_keys new_probes k hk
    obtain ⟨w, hw, _⟩ := hint _ hmem
    obtain ⟨p, hp, hpid⟩ := hdecl _ hmem
    simp only at hw hpid
    exact ⟨w, p, by rw [hv, hw], hpid ▸ find_probe_of_mem di.decoder hid p hp⟩
  obtain ⟨m', hrun, hlen, hset, hkeep⟩ := probe_set_loop_spec di.decoder new_probes hord
    (g_hash_table_get_keys new_probes) (List.replicate di.dec_num_probes (-1)) 0 hkeys hall
  have hsz : g_hash_table_size new_probes ≠ 0 := by
    simpa [g_hash_table_size] using hne
  have hkmem : ∀ k v, g_hash_table_lookup new_probes k = some v →
      k ∈ g_hash_table_get_keys new_probes := by
    intro k v hv
    unfold g_hash_table_lookup at hv
    cases hf : new_probes.find? (fun kv => kv.1 == k) with
    | none => simp [hf] at hv
    | some kv =>
      have h1 : kv.1 = k := by simpa using List.find?_some hf
      exact h1 ▸ List.mem_map_of_mem Prod.fst (List.mem_of_find?_eq_some hf)
  refine ⟨{ di with data_unitsize := (0 + (g_hash_table_get_keys new_probes).length + 7) / 8,
                    dec_probemap := m' }, ?_, ?_, ?_, ?_, ?_⟩
  · simp only [srd_inst_probe_set_all, hsz, if_false, Nat.pos_iff_ne_zero.mp hpos, hrun,
      Bool.not_true, Bool.false_eq_true]
  · simpa [hn] using hlen
  · intro p hp v hv
    exact hset p.id (hkmem _ _ hv) v p hv (find_probe_of_mem di.decoder hid p hp)
      (by simpa using hlt p hp)
  · intro i hi hfree
    show m'.get? i = some (-1)
    rw [hkeep i, List.get?_eq_getElem?, List.getElem?_replicate, if_pos (hn ▸ hi)]
    intro k hk p hp ho
    obtain ⟨hmem, hpid⟩ := find_probe_some hp
    obtain ⟨v, hv, _⟩ := lookup_of_mem_keys new_probes k hk
    rw [← hpid, hfree p hmem ho] at hv
    cases hv
  · intro k v p hv hfind
    have hp : find_probe di.decoder k = some p := by
      unfold find_probe
      rcases hfind with h | ⟨h1, h2⟩
      · rw [h]
      · rw [h1]; exact h2
    exact hset k (hkmem _ _ hv) v p hv hp
      (by simpa using hlt p (find_probe_some hp).1)

/-- C1, witness: required probes scl (order 0) and sda (order 1), input
map sda = 3: the new probe map is [-1, 3]. -/
theorem C1_probe_set_all_map_witness :
    ∃ di', srd_inst_probe_set_all true i2c_inst [("sda", .int32 3)] = (SRD_OK, di') ∧
      di'.dec_probemap.get? 1 = some 3 ∧ di'.dec_probemap.get? 0 = some (-1) ∧
      di'.dec_probemap.length = 2 := by
  obtain ⟨di', h1, h2, h3, h4, _⟩ := C1_probe_set_all_map i2c_inst [("sda", .int32 3)]
    (by decide) (by decide) (by decide) (by decide) (by decide) (by decide) (by decide)
    (by decide) (by simp)
  refine ⟨di', h1, ?_, ?_, h2⟩
  · exact h3 ⟨"sda", "SDA", "Serial data line", 1⟩ (by decide) 3 (by decide)
  · exact h4 0 (by decide) (by decide)

/-! ## Byte width -/

theorem ceil_div8 (n : Nat) : (n + 7) / 8 = ⌈(n : ℚ) / 8⌉₊ := by
  apply le_antisymm
  · have h := Nat.le_ceil ((n : ℚ) / 8)
    rw [div_le_iff₀ (by norm_num)] at h
    have h2 : n ≤ ⌈(n : ℚ) / 8⌉₊ * 8 := by exact_mod_cast h
    omega
  · rw [Nat.ceil_le, div_le_iff₀ (by norm_num)]
    have : n ≤ (n + 7) / 8 * 8 := by omega
    exact_mod_cast this

theorem mapped_count_replicate (n : Nat) : mapped_count (List.replicate n (-1)) = 0 := by
  induction n with
  | zero => rfl
  | succ n ih => simp [mapped_count, List.replicate_succ]

theorem mapped_count_set (m : List Int) (o : Nat) (v : Int) (hm : m.get? o = some (-1))
    (hv : v ≠ -1) : mapped_count (m.set o v) = mapped_count m + 1 := by
  induction m generalizing o with
  | nil => simp at hm
  | cons a m ih =>
    cases o with
    | zero =>
      simp only [List.get?_cons_zero, Option.some.injEq] at hm
      subst hm
      simp [mapped_count, hv]
    | succ o =>
      simp only [List.get?_cons_succ] at hm
      have := ih o hm
      simp only [mapped_count, List.set_cons_succ, List.filter_cons] at this ⊢
      split <;> simp [this]

theorem find_probe_of_declared (dec : srd_decoder) (k : String)
    (h : ∃ p ∈ all_probes dec, p.id = k) : ∃ p, find_probe dec k = some p := by
  rw [find_probe_eq_find]
  obtain ⟨p, hp, hk⟩ := h
  cases hf : (all_probes dec).find? (fun a => a.id == k) with
  | some q => exact ⟨q, rfl⟩
  | none =>
    have := List.find?_eq_none.mp hf p hp
    simp [hk] at this

theorem probe_set_loop_count (dec : srd_decoder) (t : GHashTable)
    (hord : ((all_probes dec).map srd_probe.order).Nodup) :
    ∀ (ks : List String) (m : List Int) (n : Nat), ks.Nodup →
      (∀ k ∈ ks, ∃ v p, g_hash_table_lookup t k = some (.int32 v) ∧ v ≠ -1 ∧
        find_probe dec k = some p ∧ m.get? p.order = some (-1)) →
      ∃ m', probe_set_loop dec t ks m n = some (m', n + ks.length) ∧
        mapped_count m' = mapped_count m + ks.length := by
  intro ks
  induction ks with
  | nil => intro m n _ _; exact ⟨m, rfl, rfl⟩
  | cons k ks ih =>
    intro m n hnd hall
    rw [List.nodup_cons] at hnd
    obtain ⟨v, p, hv, hv1, hp, hslot⟩ := hall k (List.mem_cons_self _ _)
    obtain ⟨m', hrun, hcnt⟩ := ih (m.set p.order v) (n + 1) hnd.2 (by
      intro k' hk'
      obtain ⟨v', p', hv', hv1', hp', hslot'⟩ := hall k' (List.mem_cons_of_mem _ hk')
      refine ⟨v', p', hv', hv1', hp', ?_⟩
      have hne : p.order ≠ p'.order := fun ho =>
        hnd.1 (find_probe_order_inj dec hord hp hp' ho ▸ hk')
      rw [List.get?_eq_getElem?, List.getElem?_set_ne hne, ← List.get?_eq_getElem?]
      exact hslot')
    refine ⟨m', ?_, ?_⟩
    · simp only [probe_set_loop, hv, hp, hrun, List.length_cons]
      congr 2; omega
    · rw [hcnt, mapped_count_set m p.order v hslot hv1, List.length_cons]; omega

/-- C2, as stated, fails: for the i2c decoder (probes scl, sda) and the
input map sda = -1 the call succeeds and the new map is [-1, -1], with no
mapped slot, yet the byte width is 1 and not ceil(0 / 8) = 0. -/
theorem C2_counterexample :
    (∀ kv ∈ [("sda", GVariant.int32 (-1))], ∃ p ∈ all_probes i2c_inst.decoder, p.id = kv.1) ∧
    (srd_inst_probe_set_all true i2c_inst [("sda", .int32 (-1))]).1 = SRD_OK ∧
    mapped_count (srd_inst_probe_set_all true i2c_inst [("sda", .int32 (-1))]).2.dec_probemap
      = 0 ∧
    (srd_inst_probe_set_all true i2c_inst [("sda", .int32 (-1))]).2.data_unitsize = 1 ∧
    (srd_inst_probe_set_all true i2c_inst [("sda", .int32 (-1))]).2.data_unitsize ≠
      ⌈(mapped_count
        (srd_inst_probe_set_all true i2c_inst [("sda", .int32 (-1))]).2.dec_probemap : ℚ) / 8⌉₊ := by
  have h0 : mapped_count
      (srd_inst_probe_set_all true i2c_inst [("sda", .int32 (-1))]).2.dec_probemap = 0 := by
    decide
  refine ⟨by decide, by decide, h0, by decide, ?_⟩
  rw [h0, ← ceil_div8]
  decide

/-- C2, amended: when the probes of the descriptor have pairwise distinct
orders inside the map, the input map is non-empty (or the instance already
satisfied the relation), its keys are declared probe ids and its values are
32-bit integers other than the sentinel -1, then after a successful
`srd_inst_probe_set_all` the byte width equals ceil(m / 8), m being the
number of slots of the resulting map that differ from the sentinel. -/
theorem C2_unitsize_mapped (malloc_ok : Bool) (di : srd_decoder_inst) (new_probes : GHashTable)
    (hord : ((all_probes di.decoder).map srd_probe.order).Nodup)
    (hlt : ∀ p ∈ all_probes di.decoder, p.order < di.dec_num_probes)
    (hkeys : (g_hash_table_get_keys new_probes).Nodup)
    (hdecl : ∀ kv ∈ new_probes, ∃ p ∈ all_probes di.decoder, p.id = kv.1)
    (hint : ∀ kv ∈ new_probes, ∃ v : Int, kv.2 = .int32 v ∧ v ≠ -1)
    (hprev : new_probes = [] →
      di.data_unitsize = ⌈(mapped_count di.dec_probemap : ℚ) / 8⌉₊)
    (hok : (srd_inst_probe_set_all malloc_ok di new_probes).1 = SRD_OK) :
    (srd_inst_probe_set_all malloc_ok di new_probes).2.data_unitsize =
      ⌈(mapped_count (srd_inst_probe_set_all malloc_ok di new_probes).2.dec_probemap : ℚ) / 8⌉₊ := by
  by_cases hsz : g_hash_table_size new_probes = 0
  · have he : new_probes = [] := by simpa [g_hash_table_size] using hsz
    simpa [srd_inst_probe_set_all, hsz] using hprev he
  by_cases hnum : di.dec_num_probes = 0
  · simp [srd_inst_probe_set_all, hsz, hnum, SRD_ERR_ARG, SRD_OK] at hok
  cases malloc_ok with
  | false => simp [srd_inst_probe_set_all, hsz, hnum, SRD_ERR_MALLOC, SRD_OK] at hok
  | true =>
    have hall : ∀ k ∈ g_hash_table_get_keys new_probes, ∃ v p,
        g_hash_table_lookup new_probes k = some (.int32 v) ∧ v ≠ -1 ∧
        find_probe di.decoder k = some p ∧
        (List.replicate di.dec_num_probes (-1 : Int)).get? p.order = some (-1) := by
      intro k hk
      obtain ⟨v, hv, hmem⟩ := lookup_of_mem_keys new_probes k hk
      obtain ⟨w, hw, hw1⟩ := hint _ hmem
      obtain ⟨p, hp⟩ := find_probe_of_declared di.decoder k (hdecl _ hmem)
      simp only at hw
      refine ⟨w, p, by rw [hv, hw], hw1, hp, ?_⟩
      rw [List.get?_eq_getElem?, List.getElem?_replicate, if_pos (hlt p (find_probe_some hp).1)]
    obtain ⟨m', hrun, hcnt⟩ := probe_set_loop_count di.decoder new_probes hord
      (g_hash_table_get_keys new_probes) (List.replicate di.dec_num_probes (-1)) 0 hkeys hall
    simp only [srd_inst_probe_set_all, hsz, hnum, if_false, Bool.not_true, Bool.false_eq_true,
      hrun]
    rw [hcnt, mapped_count_replicate, ← ceil_div8]

/-- C2, amended, witness: the i2c decoder and the input map sda = 3 give
byte width 1 for one mapped slot. -/
theorem C2_unitsize_mapped_witness :
    (srd_inst_probe_set_all true i2c_inst [("sda", .int32 3)]).2.data_unitsize =
      ⌈(mapped_count (srd_inst_probe_set_all true i2c_inst [("sda", .int32 3)]).2.dec_probemap
        : ℚ) / 8⌉₊ :=
  C2_unitsize_mapped true i2c_inst [("sda", .int32 3)] (by decide) (by decide) (by decide)
    (by decide) (by simp) (by simp) (by decide)


/-! ## Option coercion -/

theorem PyDict_SetItemString_fresh {α : Type} (d : PyDict α) (k : String) (v : α)
    (hk : k ∉ d.map Prod.fst) : PyDict_SetItemString d k v = d ++ [(k, v)] := by
  unfold PyDict_SetItemString
  rw [if_neg]
  simp only [List.any_eq_true, beq_iff_eq, not_exists, not_and]
  intro kv hkv e
  exact hk (e ▸ List.mem_map_of_mem Prod.fst hkv)

theorem PyDict_get_append_fresh {α : Type} (d : PyDict α) (k : String) (v : α)
    (hk : k ∉ d.map Prod.fst) : PyDict_GetItemString (d ++ [(k, v)]) k = some v := by
  unfold PyDict_GetItemString
  rw [List.find?_append]
  have : d.find? (fun kv => kv.1 == k) = none := by
    rw [List.find?_eq_none]
    intro kv hkv
    simp only [beq_iff_eq]
    intro e
    exact hk (e ▸ List.mem_map_of_mem Prod.fst hkv)
  simp [this]

theorem PyDict_get_append_ne {α : Type} (d : PyDict α) (k k' : String) (v : α)
    (hk : k ≠ k') : PyDict_GetItemString (d ++ [(k, v)]) k' = PyDict_GetItemString d k' := by
  unfold PyDict_GetItemString
  rw [List.find?_append]
  cases d.find? (fun kv => kv.1 == k') <;> simp [hk]

theorem lookup_remove_ne (o : GHashTable) (k k' : String) (hk : k ≠ k') :
    g_hash_table_lookup (g_hash_table_remove o k) k' = g_hash_table_lookup o k' := by
  unfold g_hash_table_lookup g_hash_table_remove
  congr 1
  induction o with
  | nil => rfl
  | cons a o ih =>
    by_cases ha : a.1 = k
    · have hne : ¬ a.1 = k' := fun e => hk (ha ▸ e)
      simp [List.filter_cons, ha, List.find?_cons, hk, ih]
    · by_cases ha' : a.1 = k'
      · have hk' : ¬ k' = k := fun e => hk e.symm
        simp [List.filter_cons, ha, List.find?_cons, ha', hk']
      · simp [List.filter_cons, ha, List.find?_cons, ha', ih]

theorem filter_of_lookup_none (o : GHashTable) (k : String)
    (h : g_hash_table_lookup o k = none) : o.filter (fun kv => !(kv.1 == k)) = o := by
  unfold g_hash_table_lookup at h
  rw [Option.map_eq_none', List.find?_eq_none] at h
  rw [List.filter_eq_self]
  intro kv hkv
  simpa using h kv hkv

/-- What a successful run of the option loop leaves behind. -/
theorem option_set_loop_ok (schema : PyDict (List PyObject)) :
    ∀ (ks : List String) (d : PyDict PyObject) (o : GHashTable) (d' : PyDict PyObject)
      (o' : GHashTable), ks.Nodup → (∀ k ∈ ks, k ∉ d.map Prod.fst) →
      option_set_loop schema ks d o = (SRD_OK, d', o') →
      d'.map Prod.fst = d.map Prod.fst ++ ks ∧
      o' = o.filter (fun kv => decide (kv.1 ∉ ks)) ∧
      (∀ k, k ∉ ks → PyDict_GetItemString d' k = PyDict_GetItemString d k) ∧
      (∀ k ∈ ks, ∃ optlist cv val, PyDict_GetItemString schema k = some optlist ∧
        PyList_GetItem optlist 1 = some cv ∧ PyDict_GetItemString d' k = some val ∧
        ((∃ value, g_hash_table_lookup o k = some value ∧ override_value cv value = some val) ∨
         (g_hash_table_lookup o k = none ∧ default_value cv = some val))) := by
  intro ks
  induction ks with
  | nil =>
    intro d o d' o' _ _ h
    simp only [option_set_loop, Prod.mk.injEq, true_and] at h
    obtain ⟨rfl, rfl⟩ := h
    simp
  | cons k ks ih =>
    intro d o d' o' hnd hfresh h
    rw [List.nodup_cons] at hnd
    have hkd : k ∉ d.map Prod.fst := hfresh k (List.mem_cons_self _ _)
    have hbad : ∀ (x : PyDict PyObject) (y : GHashTable),
        (SRD_ERR_PYTHON, x, y) ≠ (SRD_OK, d', o') := by
      intro x y e
      have := congrArg Prod.fst e
      simp [SRD_ERR_PYTHON, SRD_OK] at this
    have hfresh' : ∀ val, ∀ k' ∈ ks, k' ∉ (PyDict_SetItemString d k val).map Prod.fst := by
      intro val k' hk'
      rw [PyDict_SetItemString_fresh d k val hkd, List.map_append, List.mem_append]
      rintro (hm | hm)
      · exact hfresh k' (List.mem_cons_of_mem _ hk') hm
      · simp only [List.map_cons, List.map_nil, List.mem_singleton] at hm
        exact hnd.1 (hm ▸ hk')
    unfold option_set_loop at h
    cases hs : PyDict_GetItemString schema k with
    | none => rw [hs] at h; exact absurd h (hbad _ _)
    | some optlist =>
      rw [hs] at h
      simp only at h
      cases hc : PyList_GetItem optlist 1 with
      | none => rw [hc] at h; exact absurd h (hbad _ _)
      | some cv =>
        rw [hc] at h
        simp only at h
        split at h
        · exact absurd h (hbad _ _)
        · cases hl : g_hash_table_lookup o k with
          | some value =>
            rw [hl] at h
            simp only at h
            cases hov : override_value cv value with
            | none => rw [hov] at h; exact absurd h (hbad _ _)
            | some val =>
              rw [hov] at h
              simp only at h
              obtain ⟨h1, h2, h3, h4⟩ := ih _ _ d' o' hnd.2 (hfresh' val) h
              refine ⟨?_, ?_, ?_, ?_⟩
              · rw [h1, PyDict_SetItemString_fresh d k val hkd]; simp
              · rw [h2, g_hash_table_remove, List.filter_filter]
                congr 1; funext kv
                by_cases e : kv.1 = k <;> simp [e]
              · intro k' hk'
                rw [List.mem_cons, not_or] at hk'
                rw [h3 k' hk'.2, PyDict_SetItemString_fresh d k val hkd,
                  PyDict_get_append_ne d k k' val (Ne.symm hk'.1)]
              · intro k' hk'
                rcases List.mem_cons.mp hk' with rfl | hk'
                · refine ⟨optlist, cv, val, hs, hc, ?_, Or.inl ⟨value, hl, hov⟩⟩
                  rw [h3 k' hnd.1, PyDict_SetItemString_fresh d k' val hkd,
                    PyDict_get_append_fresh d k' val hkd]
                · have hne : k ≠ k' := fun e => hnd.1 (e ▸ hk')
                  have := h4 k' hk'
                  rwa [lookup_remove_ne o k k' hne] at this
          | none =>
            rw [hl] at h
            simp only at h
            cases hdv : default_value cv with
            | none => rw [hdv] at h; exact absurd h (hbad _ _)
            | some val =>
              rw [hdv] at h
              simp only at h
              obtain ⟨h1, h2, h3, h4⟩ := ih _ _ d' o' hnd.2 (hfresh' val) h
              refine ⟨?_, ?_, ?_, ?_⟩
              · rw [h1, PyDict_SetItemString_fresh d k val hkd]; simp
              · rw [h2]
                conv_lhs => rw [← filter_of_lookup_none o k hl]
                rw [List.filter_filter]
                congr 1; funext kv
                by_cases e : kv.1 = k <;> simp [e]
              · intro k' hk'
                rw [List.mem_cons, not_or] at hk'
                rw [h3 k' hk'.2, PyDict_SetItemString_fresh d k val hkd,
                  PyDict_get_append_ne d k k' val (Ne.symm hk'.1)]
              · intro k' hk'
                rcases List.mem_cons.mp hk' with rfl | hk'
                · refine ⟨optlist, cv, val, hs, hc, ?_, Or.inr ⟨hl, hdv⟩⟩
                  rw [h3 k' hnd.1, PyDict_SetItemString_fresh d k' val hkd,
                    PyDict_get_append_fresh d k' val hkd]
                · exact h4 k' hk'

/-- The option loop only ever yields SRD_OK or SRD_ERR_PYTHON. -/
theorem option_set_loop_ret (schema : PyDict (List PyObject)) :
    ∀ (ks : List String) (d : PyDict PyObject) (o : GHashTable),
      (option_set_loop schema ks d o).1 = SRD_OK ∨
      (option_set_loop schema ks d o).1 = SRD_ERR_PYTHON := by
  intro ks
  induction ks with
  | nil => intro d o; exact Or.inl rfl
  | cons k ks ih =>
    intro d o
    unfold option_set_loop
    split
    · exact Or.inr rfl
    · split
      · exact Or.inr rfl
      · split
        · exact Or.inr rfl
        · split
          · split
            · exact Or.inr rfl
            · exact ih _ _
          · split
            · exact Or.inr rfl
            · exact ih _ _

/-- A negative class default is never copied: the conversion to
`unsigned long long` reports it as an overflow. -/
theorem default_value_negative (v : Int) (hv : v < 0) : default_value (.long v) = none := by
  have : ¬ (0 ≤ v ∧ v ≤ (ULLONG_MAX : Int)) := fun h => absurd h.1 (not_le.mpr hv)
  simp [default_value, PyLong_AsUnsignedLongLong, this]

/-- Apart from negative integer defaults the loop is total: when every
schema entry has a string default or an integer default in `0 .. 2^63 - 1`
and every input value for a schema key has the type of that default, the
loop ends with SRD_OK. -/
theorem option_set_loop_total (schema : PyDict (List PyObject)) :
    ∀ (ks : List String) (d : PyDict PyObject) (o : GHashTable),
      (∀ k ∈ ks, ∃ optlist cv, PyDict_GetItemString schema k = some optlist ∧
        PyList_GetItem optlist 1 = some cv ∧
        ((∃ s, cv = .unicode s) ∨ (∃ v : Int, cv = .long v ∧ 0 ≤ v ∧ v < 2 ^ 63)) ∧
        (∀ value, g_hash_table_lookup o k = some value →
          (∃ s, cv = .unicode s ∧ ∃ w, value = .string w) ∨
          (∃ v, cv = .long v ∧ ∃ w, value = .int64 w))) →
      (option_set_loop schema ks d o).1 = SRD_OK := by
  intro ks
  induction ks with
  | nil => intro d o _; rfl
  | cons k ks ih =>
    intro d o h
    obtain ⟨optlist, cv, hs, hc, hcv, hty⟩ := h k (List.mem_cons_self _ _)
    have hcheck : (!PyUnicode_Check cv && !PyLong_Check cv) = false := by
      rcases hcv with ⟨s, rfl⟩ | ⟨v, rfl, _⟩ <;> rfl
    have hrest : ∀ o', (∀ k', k ≠ k' → g_hash_table_lookup o' k' = g_hash_table_lookup o k') →
        (∀ k' ∈ ks, k' = k → g_hash_table_lookup o' k' = none ∨ o' = o) →
        ∀ k' ∈ ks, ∃ optlist cv, PyDict_GetItemString schema k' = some optlist ∧
          PyList_GetItem optlist 1 = some cv ∧
          ((∃ s, cv = .unicode s) ∨ (∃ v : Int, cv = .long v ∧ 0 ≤ v ∧ v < 2 ^ 63)) ∧
          (∀ value, g_hash_table_lookup o' k' = some value →
            (∃ s, cv = .unicode s ∧ ∃ w, value = .string w) ∨
            (∃ v, cv = .long v ∧ ∃ w, value = .int64 w)) := by
      intro o' hne heq k' hk'
      obtain ⟨ol, c, h1, h2, h3, h4⟩ := h k' (List.mem_cons_of_mem _ hk')
      refine ⟨ol, c, h1, h2, h3, ?_⟩
      intro value hv
      by_cases e : k = k'
      · rcases heq k' hk' e.symm with hn | ho
        · rw [hn] at hv; cases hv
        · rw [ho] at hv; exact h4 value hv
      · rw [hne k' e] at hv; exact h4 value hv
    unfold option_set_loop
    simp only [hs, hc, hcheck, Bool.false_eq_true, if_false]
    cases hl : g_hash_table_lookup o k with
    | some value =>
      simp only
      have hov : ∃ val, override_value cv value = some val := by
        rcases hty value hl with ⟨s, rfl, w, rfl⟩ | ⟨v, rfl, w, rfl⟩
        · exact ⟨_, rfl⟩
        · exact ⟨_, rfl⟩
      obtain ⟨val, hval⟩ := hov
      simp only [hval]
      apply ih
      apply hrest
      · intro k' hne
        exact lookup_remove_ne o k k' hne
      · intro k' _ e
        left
        subst e
        unfold g_hash_table_lookup g_hash_table_remove
        rw [Option.map_eq_none', List.find?_eq_none]
        intro kv hkv
        have := (List.mem_filter.mp hkv).2
        simpa using this
    | none =>
      simp only
      have hdv : ∃ val, default_value cv = some val := by
        rcases hcv with ⟨s, rfl⟩ | ⟨v, rfl, h0, h1⟩
        · exact ⟨_, rfl⟩
        · have hr : 0 ≤ v ∧ v ≤ (ULLONG_MAX : Int) := ⟨h0, by simp [ULLONG_MAX]; omega⟩
          have hne : v.toNat ≠ ULLONG_MAX := by
            simp only [ULLONG_MAX]
            omega
          exact ⟨PyLong_FromUnsignedLongLong v.toNat,
            by simp [default_value, PyLong_AsUnsignedLongLong, hr, hne]⟩
      obtain ⟨val, hval⟩ := hdv
      simp only [hval]
      apply ih
      apply hrest
      · intro k' _; rfl
      · intro k' _ _; right; rfl

/-- C4 (defect): a decoder whose only option is an integer with default -1,
called with an empty (non-null) input map: the default is not copied and
`srd_inst_option_set` fails with SRD_ERR_PYTHON, although an override of the
same option accepts the negative value. -/
theorem C4_negative_default_fails :
    (srd_inst_option_set (some offset_inst) (some [])).1 = SRD_ERR_PYTHON ∧
    (srd_inst_option_set (some offset_inst) (some [])).1 ≠ SRD_OK ∧
    srd_inst_option_set (some offset_inst) (some [("offset", .int64 (-1))]) =
      (SRD_OK, some { offset_inst with py_inst := ⟨0, some [("offset", .long (-1))]⟩ },
        some []) := by
  decide

/-- C5 (defect): for the uart schema, a string value for the integer option
baudrate, or an integer value for the string option parity, makes
`srd_inst_option_set` fail with SRD_ERR_PYTHON, not with SRD_ERR_ARG. -/
theorem C5_type_mismatch_status :
    (srd_inst_option_set (some uart_inst) (some [("baudrate", .string "fast")])).1
      = SRD_ERR_PYTHON ∧
    (srd_inst_option_set (some uart_inst) (some [("parity", .int64 1)])).1 = SRD_ERR_PYTHON ∧
    (srd_inst_option_set (some uart_inst) (some [("baudrate", .int32 9600)])).1
      = SRD_ERR_PYTHON ∧
    SRD_ERR_PYTHON ≠ SRD_ERR_ARG := by
  decide

/-- Once the decoder class declares options, `srd_inst_option_set` on a
non-null instance and map never returns SRD_ERR_ARG. -/
theorem option_set_never_err_arg (di : srd_decoder_inst) (options : GHashTable)
    (schema : PyDict (List PyObject)) (hs : di.decoder.py_dec.options = some schema) :
    (srd_inst_option_set (some di) (some options)).1 ≠ SRD_ERR_ARG := by
  simp only [srd_inst_option_set, hs]
  rcases option_set_loop_ret schema (PyDict_Keys schema) [] options with h | h <;>
    rw [h] <;> decide


/-! ## Teardown -/

/-- With a valid session whose first root has no stacked children,
`srd_inst_free_all(sess, NULL)` frees that first root and nothing else,
whatever follows it in the root list, and clears the list. -/
theorem free_all_first_only (heap : Heap) (s : srd_session) (r : Ptr) (rest freed : List Ptr)
    (fuel : Nat) (hlive : s.live = true) (hroots : s.di_list = r :: rest)
    (hleaf : (deref heap r).next_di = []) :
    srd_inst_free_all heap (fuel + 1) ⟨some s, freed⟩ [] =
      some ⟨some { s with di_list := [] }, freed ++ [r]⟩ := by
  simp [srd_inst_free_all, session_is_valid, hlive, hroots, free_all_loop, hleaf, srd_inst_free]

/-- C6 (defect): a session with two roots and no stacked children. For
every bound on the recursion depth, `srd_inst_free_all(sess, NULL)` hands only
the first root to `srd_inst_free`; the second root is never freed, and the
root list is cleared all the same. -/
theorem C6_free_all_frees_first_root_only (fuel : Nat) :
    srd_inst_free_all [uart_a, uart_b] (fuel + 1) ⟨some two_roots, []⟩ [] =
      some ⟨some { live := true, di_list := [] }, [0]⟩ ∧
    two_roots.di_list = [0, 1] ∧ (1 : Ptr) ∉ [(0 : Ptr)] := by
  refine ⟨?_, rfl, by decide⟩
  rfl

/-! ## Stacking -/

theorem deref_set_self (heap : Heap) (f : Ptr) (di : srd_decoder_inst) (hf : f < heap.length) :
    deref (heap.set f di) f = di := by
  simp [deref, List.getD_eq_getElem?_getD, List.getElem?_set_self hf]

theorem deref_set_ne (heap : Heap) (f q : Ptr) (di : srd_decoder_inst) (hq : q ≠ f) :
    deref (heap.set f di) q = deref heap q := by
  simp [deref, List.getD_eq_getElem?_getD, List.getElem?_set_ne (Ne.symm hq)]

/-- C8: for a valid session and non-null instances `from` and `to`,
`srd_inst_stack` returns SRD_OK; the new root list is the old one without the
first occurrence of `to` (the old one itself when `to` was no root); the child
list of `from` is the old one with `to` appended, nothing else of `from`
changes, and no other instance changes. With an invalid session or a null
`from` or `to` it returns SRD_ERR_ARG and changes nothing. -/
theorem C8_stack (heap : Heap) (s : srd_session) (f t : Ptr)
    (hvalid : session_is_valid (some s) = SRD_OK) (hf : f < heap.length) :
    (∃ heap' s', srd_inst_stack heap (some s) (some f) (some t) = (SRD_OK, heap', some s') ∧
      (t ∈ s.di_list → ∃ l1 l2, s.di_list = l1 ++ t :: l2 ∧ t ∉ l1 ∧ s'.di_list = l1 ++ l2) ∧
      (t ∉ s.di_list → s'.di_list = s.di_list) ∧
      s'.live = s.live ∧
      heap'.length = heap.length ∧
      deref heap' f = { deref heap f with next_di := (deref heap f).next_di ++ [t] } ∧
      (∀ q, q ≠ f → deref heap' q = deref heap q)) ∧
    (∀ (sess : Option srd_session) (di_from di_to : Option Ptr),
      session_is_valid sess ≠ SRD_OK ∨ di_from = none ∨ di_to = none →
      srd_inst_stack heap sess di_from di_to = (SRD_ERR_ARG, heap, sess)) := by
  constructor
  · refine ⟨heap.set f { deref heap f with next_di := (deref heap f).next_di ++ [t] },
      { s with di_list := if g_slist_find s.di_list t then g_slist_remove s.di_list t
                          else s.di_list },
      by simp only [srd_inst_stack, hvalid, ne_eq, not_true_eq_false, if_false]; rfl,
      ?_, ?_, rfl, by simp, deref_set_self _ _ _ hf, fun q hq => deref_set_ne _ _ _ _ hq⟩
    · intro ht
      obtain ⟨l1, l2, h1, h2, h3⟩ := List.exists_erase_eq ht
      refine ⟨l1, l2, h2, h1, ?_⟩
      simp [g_slist_find, g_slist_remove, ht, h3]
    · intro ht
      simp [g_slist_find, ht]
  · intro sess di_from di_to h
    unfold srd_inst_stack
    by_cases hv : session_is_valid sess = SRD_OK
    · rcases h with h | h | h
      · exact absurd hv h
      · subst h; cases sess <;> simp [hv]
      · subst h; cases sess <;> cases di_from <;> simp [hv]
    · simp [hv]

/-- C8, witness: stacking root 1 on root 0 in the session with two uart
roots. -/
theorem C8_stack_witness :
    srd_inst_stack [uart_a, uart_b] (some two_roots) (some 0) (some 1) =
      (SRD_OK, [{ uart_a with next_di := [1] }, uart_b], some ⟨true, [0]⟩) ∧
    srd_inst_stack [uart_a, uart_b] (some two_roots) none (some 1) =
      (SRD_ERR_ARG, [uart_a, uart_b], some two_roots) := by
  have h := C8_stack [uart_a, uart_b] two_roots 0 1 (by decide) (by decide)
  exact ⟨by decide, h.2 (some two_roots) none (some 1) (Or.inr (Or.inl rfl))⟩

/-! ## Instance creation -/

/-- The instance after `srd_inst_option_set` differs from the one before at
most in the `options` attribute of its Python object. -/
theorem option_set_inst (di : srd_decoder_inst) (o : GHashTable) :
    ∃ d, (srd_inst_option_set (some di) (some o)).2.1 =
      some { di with py_inst := { di.py_inst with options := d } } := by
  simp only [srd_inst_option_set]
  cases di.decoder.py_dec.options with
  | none =>
    refine ⟨di.py_inst.options, ?_⟩
    simp only
    split <;> rfl
  | some schema => exact ⟨_, rfl⟩

theorem new_finish_cases (heap : Heap) (s : srd_session) (di : srd_decoder_inst)
    (options : Option InstOptions) (hdi : di.next_di = []) :
    (∃ s0 di' o', some s = some s0 ∧ di'.next_di = [] ∧ new_finish heap s di options =
        (some heap.length, heap ++ [di'],
          some { s0 with di_list := s0.di_list ++ [heap.length] }, o')) ∨
    (∃ o', new_finish heap s di options = (none, heap, some s, o')) := by
  unfold new_finish
  cases options with
  | none => exact Or.inl ⟨s, di, none, rfl, hdi, rfl⟩
  | some o =>
    simp only
    split
    · exact Or.inr ⟨_, rfl⟩
    · obtain ⟨d, hd⟩ := option_set_inst di o.entries
      refine Or.inl ⟨s, _, _, rfl, ?_, rfl⟩
      rw [hd]
      exact hdi

/-- The two outcomes of `srd_inst_new`. -/
theorem srd_inst_new_cases (pd_list : List srd_decoder) (env : NewEnv) (heap : Heap)
    (sess : Option srd_session) (decoder_id : String) (options : Option InstOptions) :
    (∃ s di o', sess = some s ∧ di.next_di = [] ∧
      srd_inst_new pd_list env heap sess decoder_id options =
        (some heap.length, heap ++ [di],
          some { s with di_list := s.di_list ++ [heap.length] }, o')) ∨
    (∃ o', srd_inst_new pd_list env heap sess decoder_id options = (none, heap, sess, o')) := by
  cases sess with
  | none => exact Or.inr ⟨options, by simp [srd_inst_new, session_is_valid, SRD_ERR, SRD_OK]⟩
  | some s =>
    simp only [srd_inst_new]
    split
    · exact Or.inr ⟨_, rfl⟩
    · split
      · exact Or.inr ⟨_, rfl⟩
      · split
        · exact Or.inr ⟨_, rfl⟩
        · split
          · exact Or.inr ⟨_, rfl⟩
          · split
            · exact Or.inr ⟨_, rfl⟩
            · split
              · exact Or.inr ⟨_, rfl⟩
              · exact new_finish_cases _ _ _ _ rfl

/-- C10: `srd_inst_new` either returns a new instance (at an address not used
before), and the root list of the session becomes the old one with that
instance appended at the end, or it returns NULL and neither the root list
nor any existing instance changes. It returns NULL whenever the session is
invalid, the decoder id resolves to no decoder, the call of the decoder class
fails, or option coercion of a supplied options table fails. -/
theorem C10_inst_new (pd_list : List srd_decoder) (env : NewEnv) (heap : Heap)
    (sess : Option srd_session) (decoder_id : String) (options : Option InstOptions) :
    ((∃ s di o', sess = some s ∧
        srd_inst_new pd_list env heap sess decoder_id options =
          (some heap.length, heap ++ [di],
            some { s with di_list := s.di_list ++ [heap.length] }, o')) ∨
      (∃ o', srd_inst_new pd_list env heap sess decoder_id options = (none, heap, sess, o'))) ∧
    (session_is_valid sess ≠ SRD_OK →
      (srd_inst_new pd_list env heap sess decoder_id options).1 = none) ∧
    (srd_decoder_get_by_id pd_list decoder_id = none →
      (srd_inst_new pd_list env heap sess decoder_id options).1 = none) ∧
    (env.py_inst = none →
      (srd_inst_new pd_list env heap sess decoder_id options).1 = none) ∧
    (∀ dec py_addr o, srd_decoder_get_by_id pd_list decoder_id = some dec →
      env.py_inst = some py_addr → options = some o →
      (srd_inst_option_set (some (new_inst dec (new_inst_id decoder_id options) py_addr))
        (some (g_hash_table_remove o.entries "id"))).1 ≠ SRD_OK →
      (srd_inst_new pd_list env heap sess decoder_id options).1 = none) := by
  refine ⟨?_, ?_, ?_, ?_, ?_⟩
  · rcases srd_inst_new_cases pd_list env heap sess decoder_id options with
      ⟨s, di, o', h1, _, h2⟩ | h
    · exact Or.inl ⟨s, di, o', h1, h2⟩
    · exact Or.inr h
  · intro h
    simp [srd_inst_new, h]
  · intro h
    unfold srd_inst_new
    rw [h]
    split
    · rfl
    · split <;> rfl
  · intro h
    unfold srd_inst_new
    rw [h]
    repeat' split
    all_goals first
      | rfl
      | (rename_i heq; cases heq)
  · intro dec py_addr o hdec hpy ho hfail
    unfold srd_inst_new
    rw [hdec, hpy]
    subst ho
    repeat' split
    all_goals first
      | rfl
      | (rename_i h1 _ _ _ _ _ h2
         cases h1
         cases h2
         simp only [new_finish, remove_id, Option.map_some']
         rw [if_pos hfail])

/-! ## Search after stacking -/

theorem find_by_obj_loop_some (heap : Heap) (obj : Nat)
    (recurse : List Ptr → Option (Option Ptr)) (di : Ptr) (l : List Ptr) :
    find_by_obj_loop heap obj recurse (some di) l = some (some di) := by
  cases l <;> rfl

/-- The search for the handle of `B` through a list whose members are `B`
itself or instances of rank below `n`, in a heap that agrees with an acyclic
heap everywhere except at `A` (of rank at least `n`): it returns, finds
nothing but `B`, and finds `B` when `B` is in the list. -/
theorem find_by_obj_search (heap' heap : Heap) (s' : srd_session) (A B : Ptr)
    (rank : Ptr → Nat) (obj : Nat)
    (hvalid : session_is_valid (some s') = SRD_OK)
    (hsame : ∀ p, p ≠ A → deref heap' p = deref heap p)
    (hpy : ∀ p, (deref heap' p).py_inst = (deref heap p).py_inst)
    (hclosed : ∀ p, p < heap.length → ∀ c ∈ (deref heap p).next_di, c < heap.length)
    (hobj : ∀ p, p < heap.length → (deref heap p).py_inst.addr = obj → p = B)
    (hB : (deref heap B).py_inst.addr = obj)
    (hrank : ∀ p, p < heap.length → ∀ c ∈ (deref heap p).next_di, rank c < rank p) :
    ∀ n, n ≤ rank A → ∀ fuel, n ≤ fuel → ∀ l : List Ptr,
      (∀ q ∈ l, q = B ∨ (q < heap.length ∧ rank q < n)) →
      ∃ r, find_by_obj_loop heap' obj (srd_sess_inst_find_by_obj heap' (some s') obj fuel)
          none l = some r ∧ (r = none ∨ r = some B) ∧ (B ∈ l → r = some B) := by
  intro n
  induction n using Nat.strong_induction_on with
  | _ n ihn =>
    intro hn fuel hfuel l
    induction l with
    | nil => intro _; exact ⟨none, rfl, Or.inl rfl, fun h => absurd h (List.not_mem_nil _)⟩
    | cons q l ihl =>
      intro hl
      have hl' : ∀ q' ∈ l, q' = B ∨ (q' < heap.length ∧ rank q' < n) :=
        fun q' hq' => hl q' (List.mem_cons_of_mem _ hq')
      obtain ⟨r, hr, hr1, hr2⟩ := ihl hl'
      by_cases hq : (deref heap' q).py_inst.addr = obj
      · have hqB : q = B := by
          rcases hl q (List.mem_cons_self _ _) with h | ⟨h, _⟩
          · exact h
          · exact hobj q h (by rw [← hpy q]; exact hq)
        refine ⟨some B, ?_, Or.inr rfl, fun _ => rfl⟩
        rw [← hqB]
        simp only [find_by_obj_loop, hq, if_true, find_by_obj_loop_some]
      · have hqB : q ≠ B := by
          rintro rfl
          exact hq (by rw [hpy q]; exact hB)
        obtain ⟨hqlen, hqrank⟩ : q < heap.length ∧ rank q < n := by
          rcases hl q (List.mem_cons_self _ _) with h | h
          · exact absurd h hqB
          · exact h
        have hqA : q ≠ A := by
          rintro rfl
          omega
        have hmem : B ∈ q :: l → B ∈ l := by
          intro h
          rcases List.mem_cons.mp h with h | h
          · exact absurd h.symm hqB
          · exact h
        by_cases hch : (deref heap' q).next_di = []
        · refine ⟨r, ?_, hr1, fun h => hr2 (hmem h)⟩
          simp only [find_by_obj_loop, hq, if_false, hch, ne_eq, not_true_eq_false]
          exact hr
        · obtain ⟨f, rfl⟩ : ∃ f, fuel = f + 1 := ⟨fuel - 1, by omega⟩
          have hkids : ∀ c ∈ (deref heap' q).next_di,
              c = B ∨ (c < heap.length ∧ rank c < rank q) := by
            intro c hc
            rw [hsame q hqA] at hc
            exact Or.inr ⟨hclosed q hqlen c hc, hrank q hqlen c hc⟩
          obtain ⟨r', hr', hr1', _⟩ := ihn (rank q) hqrank (by omega) f (by omega)
            (deref heap' q).next_di hkids
          have hrec : srd_sess_inst_find_by_obj heap' (some s') obj (f + 1)
              (deref heap' q).next_di = some r' := by
            simp only [srd_sess_inst_find_by_obj, hvalid, ne_eq, not_true_eq_false, if_false,
              hch, if_true]
            exact hr'
          rcases hr1' with rfl | rfl
          · refine ⟨r, ?_, hr1, fun h => hr2 (hmem h)⟩
            simp only [find_by_obj_loop, hq, if_false, hch, ne_eq, not_false_eq_true, if_true,
              hrec]
            exact hr
          · refine ⟨some B, ?_, Or.inr rfl, fun _ => rfl⟩
            simp only [find_by_obj_loop, hq, if_false, hch, ne_eq, not_false_eq_true, if_true,
              hrec, find_by_obj_loop_some]

/-- C9, as stated, fails: in a session whose two roots both carry the id
"uart" (two instances of the uart decoder created without an "id" option),
after stacking the second root on the first, `srd_inst_find_by_id` with the
id of the stacked instance returns the first root, not not-found. -/
theorem C9_counterexample :
    srd_inst_new [uart] ⟨true, true, true, some 11⟩ [] (some ⟨true, []⟩) "uart" none =
      (some 0, [uart_a], some ⟨true, [0]⟩, none) ∧
    srd_inst_new [uart] ⟨true, true, true, some 12⟩ [uart_a] (some ⟨true, [0]⟩) "uart" none =
      (some 1, [uart_a, uart_b], some two_roots, none) ∧
    (0 : Ptr) ∈ two_roots.di_list ∧ (1 : Ptr) ∈ two_roots.di_list ∧
    (srd_inst_stack [uart_a, uart_b] (some two_roots) (some 0) (some 1)).1 = SRD_OK ∧
    srd_inst_find_by_id
      (srd_inst_stack [uart_a, uart_b] (some two_roots) (some 0) (some 1)).2.1
      (srd_inst_stack [uart_a, uart_b] (some two_roots) (some 0) (some 1)).2.2
      (deref [uart_a, uart_b] 1).inst_id = some 0 := by
  decide

/-- C9, amended: let A and B be roots of a valid session in which no root
other than B carries B's id, the roots are listed once, no two instances
share a Python object and the child relation is acyclic (it decreases a
rank). After stack(s, A, B), `srd_inst_find_by_id` with B's id returns
not-found, and `srd_sess_inst_find_by_obj` started on A's child list with
B's Python object returns B, for every sufficiently large bound on the
recursion depth. -/
theorem C9_stack_then_find (heap : Heap) (s : srd_session) (A B : Ptr) (rank : Ptr → Nat)
    (hvalid : session_is_valid (some s) = SRD_OK)
    (hA : A ∈ s.di_list) (hB : B ∈ s.di_list)
    (hroots : ∀ r ∈ s.di_list, r < heap.length)
    (hnodup : s.di_list.Nodup)
    (hids : ∀ r ∈ s.di_list, r ≠ B → (deref heap r).inst_id ≠ (deref heap B).inst_id)
    (hclosed : ∀ p, p < heap.length → ∀ c ∈ (deref heap p).next_di, c < heap.length)
    (hobj : ∀ p, p < heap.length →
      (deref heap p).py_inst.addr = (deref heap B).py_inst.addr → p = B)
    (hrank : ∀ p, p < heap.length → ∀ c ∈ (deref heap p).next_di, rank c < rank p) :
    ∃ heap' s', srd_inst_stack heap (some s) (some A) (some B) = (SRD_OK, heap', some s') ∧
      srd_inst_find_by_id heap' (some s') (deref heap B).inst_id = none ∧
      ∃ n, ∀ fuel, n ≤ fuel →
        srd_sess_inst_find_by_obj heap' (some s') (deref heap B).py_inst.addr fuel
          (deref heap' A).next_di = some (some B) := by
  have hAlen : A < heap.length := hroots A hA
  have hfindB : g_slist_find s.di_list B = true := by simpa [g_slist_find] using hB
  let dA : srd_decoder_inst :=
    { deref heap A with next_di := g_slist_append (deref heap A).next_di B }
  have hself : deref (heap.set A dA) A = dA := deref_set_self heap A dA hAlen
  have hsame : ∀ p, p ≠ A → deref (heap.set A dA) p = deref heap p :=
    fun p hp => deref_set_ne heap A p dA hp
  have hpy : ∀ p, (deref (heap.set A dA) p).py_inst = (deref heap p).py_inst := by
    intro p
    by_cases hp : p = A
    · rw [hp, hself]
    · rw [hsame p hp]
  have hid : ∀ p, (deref (heap.set A dA) p).inst_id = (deref heap p).inst_id := by
    intro p
    by_cases hp : p = A
    · rw [hp, hself]
    · rw [hsame p hp]
  have hvalid' : session_is_valid (some { s with di_list := g_slist_remove s.di_list B })
      = SRD_OK := by
    simpa [session_is_valid] using hvalid
  refine ⟨heap.set A dA, { s with di_list := g_slist_remove s.di_list B }, ?_, ?_, ?_⟩
  · simp only [srd_inst_stack, hvalid, ne_eq, not_true_eq_false, if_false, hfindB, if_true]
  · simp only [srd_inst_find_by_id, hvalid', ne_eq, not_true_eq_false, if_false]
    rw [List.find?_eq_none]
    intro r hr
    have hr' : r ≠ B ∧ r ∈ s.di_list := by
      simpa [g_slist_remove] using (hnodup.mem_erase_iff).mp hr
    simpa [hid r] using hids r hr'.2 hr'.1
  · refine ⟨rank A + 1, ?_⟩
    intro fuel hfuel
    obtain ⟨f, rfl⟩ : ∃ f, fuel = f + 1 := ⟨fuel - 1, by omega⟩
    have hne : (deref (heap.set A dA) A).next_di ≠ [] := by
      rw [hself]
      simp [dA, g_slist_append]
    have hl : ∀ q ∈ (deref (heap.set A dA) A).next_di,
        q = B ∨ (q < heap.length ∧ rank q < rank A) := by
      intro q hq
      rw [hself] at hq
      simp only [dA, g_slist_append, List.mem_append, List.mem_singleton] at hq
      rcases hq with hq | hq
      · exact Or.inr ⟨hclosed A hAlen q hq, hrank A hAlen q hq⟩
      · exact Or.inl hq
    obtain ⟨r, hr, _, hr2⟩ := find_by_obj_search (heap.set A dA) heap
      { s with di_list := g_slist_remove s.di_list B } A B rank (deref heap B).py_inst.addr
      hvalid' hsame hpy hclosed hobj rfl hrank (rank A) (le_refl _) f (by omega) _ hl
    have hBin : B ∈ (deref (heap.set A dA) A).next_di := by
      rw [hself]
      simp [dA, g_slist_append]
    simp only [srd_sess_inst_find_by_obj, hvalid', ne_eq, not_true_eq_false, if_false, hne,
      not_false_eq_true, if_true]
    rw [hr, hr2 hBin]

/-- C9, amended, witness: two uart roots with the ids "uart" and
"uart-2"; after stacking the second on the first, the id "uart-2" is no
longer found among the roots and the search under the first root finds the
second by its Python object. -/
theorem C9_stack_then_find_witness :
    ∃ heap' s', srd_inst_stack [uart_a, uart_named] (some two_roots) (some 0) (some 1) =
        (SRD_OK, heap', some s') ∧
      srd_inst_find_by_id heap' (some s') "uart-2" = none ∧
      ∃ n, ∀ fuel, n ≤ fuel →
        srd_sess_inst_find_by_obj heap' (some s') 13 fuel (deref heap' 0).next_di
          = some (some 1) :=
  C9_stack_then_find [uart_a, uart_named] two_roots 0 1 (fun _ => 0) (by decide) (by decide)
    (by decide) (by decide) (by decide) (by decide) (by decide) (by decide) (by decide)

/-! ## The forest invariant -/

theorem deref_cons_zero (di : srd_decoder_inst) (heap : Heap) : deref (di :: heap) 0 = di := rfl

theorem deref_cons_succ (di : srd_decoder_inst) (heap : Heap) (p : Ptr) :
    deref (di :: heap) (p + 1) = deref heap p := rfl

theorem deref_mem (heap : Heap) (p : Ptr) (hp : p < heap.length) : deref heap p ∈ heap := by
  induction heap generalizing p with
  | nil => simp at hp
  | cons di heap ih =>
    cases p with
    | zero => exact List.mem_cons_self _ _
    | succ p => exact List.mem_cons_of_mem _ (ih p (by simpa using hp))

theorem deref_append_lt (heap : Heap) (di : srd_decoder_inst) (p : Ptr) (hp : p < heap.length) :
    deref (heap ++ [di]) p = deref heap p := by
  simp [deref, List.getD_eq_getElem?_getD, List.getElem?_append_left hp]

theorem deref_append_length (heap : Heap) (di : srd_decoder_inst) :
    deref (heap ++ [di]) heap.length = di := by
  simp [deref, List.getD_eq_getElem?_getD]

theorem child_occurrences_append (heap heap2 : Heap) (p : Ptr) :
    child_occurrences (heap ++ heap2) p = child_occurrences heap p + child_occurrences heap2 p := by
  induction heap with
  | nil => simp [child_occurrences]
  | cons di heap ih => simp [child_occurrences, ih, Nat.add_assoc]

theorem child_occurrences_eq_zero (heap : Heap) (p : Ptr)
    (h : ∀ di ∈ heap, p ∉ di.next_di) : child_occurrences heap p = 0 := by
  induction heap with
  | nil => rfl
  | cons di heap ih =>
    simp only [child_occurrences]
    rw [List.count_eq_zero_of_not_mem (h di (List.mem_cons_self _ _)),
      ih (fun d hd => h d (List.mem_cons_of_mem _ hd))]

theorem child_occurrences_set (heap : Heap) (f : Ptr) (di : srd_decoder_inst) (p : Ptr)
    (hf : f < heap.length) :
    child_occurrences (heap.set f di) p + (deref heap f).next_di.count p =
      child_occurrences heap p + di.next_di.count p := by
  induction heap generalizing f with
  | nil => simp at hf
  | cons d heap ih =>
    cases f with
    | zero => simp only [List.set_cons_zero, child_occurrences, deref_cons_zero]; omega
    | succ f =>
      have := ih f (by simpa using hf)
      simp only [List.set_cons_succ, child_occurrences, deref_cons_succ]
      omega

/-- A path in a relation extended by the one edge `f → t` either avoids
that edge, or leads to `f` and leaves from `t` in the original relation. -/
theorem transGen_add_edge {α : Type} (r r' : α → α → Prop) (f t : α)
    (hr : ∀ a b, r' a b → r a b ∨ (a = f ∧ b = t)) {a b : α}
    (h : Relation.TransGen r' a b) :
    Relation.TransGen r a b ∨
      (Relation.ReflTransGen r a f ∧ Relation.ReflTransGen r t b) := by
  induction h with
  | single hab =>
    rcases hr _ _ hab with h | ⟨rfl, rfl⟩
    · exact Or.inl (Relation.TransGen.single h)
    · exact Or.inr ⟨Relation.ReflTransGen.refl, Relation.ReflTransGen.refl⟩
  | tail _ hcb ih =>
    rcases hr _ _ hcb with h | ⟨rfl, rfl⟩
    · rcases ih with ih | ⟨ih1, ih2⟩
      · exact Or.inl (Relation.TransGen.tail ih h)
      · exact Or.inr ⟨ih1, Relation.ReflTransGen.tail ih2 h⟩
    · rcases ih with ih | ⟨ih1, _⟩
      · exact Or.inr ⟨ih.to_reflTransGen, Relation.ReflTransGen.refl⟩
      · exact Or.inr ⟨ih1, Relation.ReflTransGen.refl⟩

theorem closed_forest_new (heap : Heap) (s : srd_session) (di : srd_decoder_inst)
    (hdi : di.next_di = []) (hc : Closed heap s) (hf : Forest heap s) :
    Closed (heap ++ [di]) { s with di_list := s.di_list ++ [heap.length] } ∧
    Forest (heap ++ [di]) { s with di_list := s.di_list ++ [heap.length] } := by
  obtain ⟨hc1, hc2⟩ := hc
  obtain ⟨hf1, hf2⟩ := hf
  refine ⟨⟨?_, ?_⟩, ?_, ?_⟩
  · intro r hr
    simp only [List.mem_append, List.mem_singleton] at hr
    simp only [List.length_append, List.length_singleton]
    rcases hr with hr | rfl
    · exact Nat.lt_succ_of_lt (hc1 r hr)
    · exact Nat.lt_succ_self _
  · intro d hd c hcm
    simp only [List.mem_append, List.mem_singleton] at hd
    simp only [List.length_append, List.length_singleton]
    rcases hd with hd | rfl
    · exact Nat.lt_succ_of_lt (hc2 d hd c hcm)
    · rw [hdi] at hcm; cases hcm
  · intro p hp
    simp only [List.length_append, List.length_singleton] at hp
    simp only [occurrences, List.count_append, child_occurrences_append, child_occurrences, hdi,
      List.count_nil, Nat.add_zero]
    by_cases hpl : p < heap.length
    · have : List.count p [heap.length] = 0 :=
        List.count_eq_zero_of_not_mem (by rw [List.mem_singleton]; omega)
      have := hf1 p hpl
      simp only [occurrences] at this
      omega
    · have hpe : p = heap.length := by omega
      subst hpe
      have h1 : List.count heap.length s.di_list = 0 :=
        List.count_eq_zero_of_not_mem (fun h => absurd (hc1 _ h) (Nat.lt_irrefl _))
      have h2 : child_occurrences heap heap.length = 0 :=
        child_occurrences_eq_zero heap _ (fun d hd h => absurd (hc2 d hd _ h) (Nat.lt_irrefl _))
      simp [h1, h2]
  · intro p hp
    apply hf2 p
    refine Relation.TransGen.mono ?_ hp
    intro a b hab
    obtain ⟨ha, hb⟩ := hab
    simp only [List.length_append, List.length_singleton] at ha
    by_cases hal : a < heap.length
    · exact ⟨hal, by rwa [deref_append_lt heap di a hal] at hb⟩
    · have hae : a = heap.length :=
        Nat.le_antisymm (Nat.lt_succ_iff.mp ha) (Nat.not_lt.mp hal)
      subst hae
      rw [deref_append_length, hdi] at hb
      cases hb

theorem closed_forest_stack (heap : Heap) (s : srd_session) (f t : Ptr)
    (hf : f < heap.length) (ht : t ∈ s.di_list)
    (hnr : ¬ Relation.ReflTransGen (child heap) t f)
    (hc : Closed heap s) (hF : Forest heap s) :
    Closed (heap.set f { deref heap f with next_di := (deref heap f).next_di ++ [t] })
      { s with di_list := s.di_list.erase t } ∧
    Forest (heap.set f { deref heap f with next_di := (deref heap f).next_di ++ [t] })
      { s with di_list := s.di_list.erase t } := by
  obtain ⟨hc1, hc2⟩ := hc
  obtain ⟨hf1, hf2⟩ := hF
  have hedge : ∀ a b,
      child (heap.set f { deref heap f with next_di := (deref heap f).next_di ++ [t] }) a b →
      child heap a b ∨ (a = f ∧ b = t) := by
    intro a b hab
    obtain ⟨ha, hb⟩ := hab
    rw [List.length_set] at ha
    by_cases haf : a = f
    · subst haf
      rw [deref_set_self _ _ _ hf] at hb
      simp only [List.mem_append, List.mem_singleton] at hb
      rcases hb with hb | hb
      · exact Or.inl ⟨ha, hb⟩
      · exact Or.inr ⟨rfl, hb⟩
    · rw [deref_set_ne _ _ _ _ haf] at hb
      exact Or.inl ⟨ha, hb⟩
  refine ⟨⟨?_, ?_⟩, ?_, ?_⟩
  · intro r hr
    rw [List.length_set]
    exact hc1 r (List.mem_of_mem_erase hr)
  · intro d hd c hcm
    rw [List.length_set]
    rcases List.mem_or_eq_of_mem_set hd with hd | rfl
    · exact hc2 d hd c hcm
    · simp only [List.mem_append, List.mem_singleton] at hcm
      rcases hcm with hcm | rfl
      · exact hc2 _ (deref_mem heap f hf) c hcm
      · exact hc1 _ ht
  · intro p hp
    rw [List.length_set] at hp
    have hset := child_occurrences_set heap f
      { deref heap f with next_di := (deref heap f).next_di ++ [t] } p hf
    simp only [List.count_append] at hset
    have hold := hf1 p hp
    simp only [occurrences] at hold ⊢
    by_cases hpt : p = t
    · subst hpt
      have hpos : 0 < List.count p s.di_list := List.count_pos_iff.mpr ht
      rw [List.count_erase_self]
      rw [List.count_singleton_self] at hset
      omega
    · rw [List.count_erase_of_ne hpt]
      have h0 : List.count p [t] = 0 :=
        List.count_eq_zero_of_not_mem (by rw [List.mem_singleton]; exact hpt)
      rw [h0] at hset
      omega
  · intro p hp
    rcases transGen_add_edge (child heap) _ f t hedge hp with h | ⟨h1, h2⟩
    · exact hf2 p h
    · exact hnr (h2.trans h1)

theorem closed_forest_of_reachable (pd_list : List srd_decoder) (heap : Heap) (s : srd_session)
    (h : Reachable pd_list root_stack heap s) : Closed heap s ∧ Forest heap s := by
  induction h with
  | init =>
    refine ⟨⟨?_, ?_⟩, ?_, ?_⟩
    · intro r hr
      cases hr
    · intro d hd
      cases hd
    · intro p hp
      exact absurd hp (Nat.not_lt_zero _)
    · intro p hp
      obtain ⟨b, hb, _⟩ := Relation.TransGen.head'_iff.mp hp
      exact absurd hb.1 (Nat.not_lt_zero _)
  | @new heap s env decoder_id options p heap' s' o' _ heq ih =>
    rcases srd_inst_new_cases pd_list env heap (some s) decoder_id options with
      ⟨s0, di, o1, hs, hdi, hnew⟩ | ⟨o1, hnew⟩
    · rw [hnew] at heq
      cases hs
      simp only [Prod.mk.injEq, Option.some.injEq] at heq
      obtain ⟨_, rfl, rfl, _⟩ := heq
      exact closed_forest_new heap s di hdi ih.1 ih.2
    · rw [hnew] at heq
      simp at heq
  | @stack heap s f t heap' s' _ hf _ hallowed heq ih =>
    obtain ⟨ht, hnr⟩ := hallowed
    have hfind : g_slist_find s.di_list t = true := by simpa [g_slist_find] using ht
    by_cases hv : session_is_valid (some s) = SRD_OK
    · simp only [srd_inst_stack, hv, ne_eq, not_true_eq_false, if_false, hfind, if_true,
        Prod.mk.injEq, Option.some.injEq, true_and] at heq
      obtain ⟨rfl, rfl⟩ := heq
      exact closed_forest_stack heap s f t hf ht hnr ih.1 ih.2
    · simp only [srd_inst_stack, hv, ne_eq, not_false_eq_true, if_true] at heq
      have := congrArg Prod.fst heq
      simp [SRD_ERR_ARG, SRD_OK] at this

/-- C7, as stated, fails: from the empty session, creating one uart
instance and stacking it on itself is a sequence of `srd_inst_new` and
`srd_inst_stack` calls, and in the state it reaches the instance is its own
child, so the child relation has a cycle. -/
theorem C7_counterexample :
    ∃ heap s, Reachable [uart] any_stack heap s ∧ ¬ Forest heap s := by
  have h1 : Reachable [uart] any_stack [uart_a] ⟨true, [0]⟩ :=
    Reachable.new ⟨true, true, true, some 11⟩ "uart" none Reachable.init
      (show srd_inst_new [uart] ⟨true, true, true, some 11⟩ [] (some ⟨true, []⟩) "uart" none =
        (some 0, [uart_a], some ⟨true, [0]⟩, none) by decide)
  have h2 : Reachable [uart] any_stack [{ uart_a with next_di := [0] }] ⟨true, []⟩ :=
    Reachable.stack 0 0 h1 (by decide) (by decide) trivial
      (show srd_inst_stack [uart_a] (some ⟨true, [0]⟩) (some 0) (some 0) =
        (SRD_OK, [{ uart_a with next_di := [0] }], some ⟨true, []⟩) by decide)
  refine ⟨_, _, h2, ?_⟩
  intro hF
  exact hF.2 0 (Relation.TransGen.single ⟨by decide, by decide⟩)

/-- C7, amended: in every session state reachable from an empty session by
`srd_inst_new` calls and by `srd_inst_stack` calls whose `to` is a current
root and whose `from` is an allocated instance outside the subtree of `to`,
each created instance occurs exactly once in total across the root list and
all child lists, and the child relation has no cycle. -/
theorem C7_forest_root_stacking (pd_list : List srd_decoder) (heap : Heap) (s : srd_session)
    (h : Reachable pd_list root_stack heap s) : Forest heap s :=
  (closed_forest_of_reachable pd_list heap s h).2

/-- C7, amended, witness: two uart instances are created and the second is
stacked on the first; the resulting state is a forest. -/
theorem C7_forest_root_stacking_witness :
    Forest [{ uart_a with next_di := [1] }, uart_b] ⟨true, [0]⟩ := by
  have h1 : Reachable [uart] root_stack [uart_a] ⟨true, [0]⟩ :=
    Reachable.new ⟨true, true, true, some 11⟩ "uart" none Reachable.init
      (show srd_inst_new [uart] ⟨true, true, true, some 11⟩ [] (some ⟨true, []⟩) "uart" none =
        (some 0, [uart_a], some ⟨true, [0]⟩, none) by decide)
  have h2 : Reachable [uart] root_stack [uart_a, uart_b] ⟨true, [0, 1]⟩ :=
    Reachable.new ⟨true, true, true, some 12⟩ "uart" none h1
      (show srd_inst_new [uart] ⟨true, true, true, some 12⟩ [uart_a] (some ⟨true, [0]⟩) "uart"
        none = (some 1, [uart_a, uart_b], some ⟨true, [0, 1]⟩, none) by decide)
  have hnr : ¬ Relation.ReflTransGen (child [uart_a, uart_b]) 1 0 := by
    intro h
    rcases Relation.ReflTransGen.cases_tail h with h | ⟨c, _, hc, hmem⟩
    · cases h
    · have hall : ∀ c, c < 2 → (0 : Ptr) ∉ (deref [uart_a, uart_b] c).next_di := by decide
      exact hall c hc hmem
  have h3 : Reachable [uart] root_stack [{ uart_a with next_di := [1] }, uart_b] ⟨true, [0]⟩ :=
    Reachable.stack 0 1 h2 (by decide) (by decide) ⟨by decide, hnr⟩
      (show srd_inst_stack [uart_a, uart_b] (some ⟨true, [0, 1]⟩) (some 0) (some 1) =
        (SRD_OK, [{ uart_a with next_di := [1] }, uart_b], some ⟨true, [0]⟩) by decide)
  exact C7_forest_root_stacking [uart] _ _ h3

/-! ## Status of the probe call -/

/-- In an association list with distinct keys the lookup of a key yields the
value of its entry. -/
theorem PyDict_get_of_mem {α : Type} (d : PyDict α) (hnd : (PyDict_Keys d).Nodup)
    (k : String) (v : α) (h : (k, v) ∈ d) : PyDict_GetItemString d k = some v := by
  induction d with
  | nil => cases h
  | cons a d ih =>
    simp only [PyDict_Keys, List.map_cons, List.nodup_cons] at hnd
    rcases List.mem_cons.mp h with h | h
    · subst h
      simp [PyDict_GetItemString]
    · have hne : a.1 ≠ k := fun e => hnd.1 (e ▸ List.mem_map_of_mem Prod.fst h)
      have := ih hnd.2 h
      simp only [PyDict_GetItemString] at this ⊢
      rw [List.find?_cons_of_neg _ (by simpa using hne)]
      exact this

theorem lookup_of_mem_nodup (t : GHashTable) (hnd : (g_hash_table_get_keys t).Nodup)
    (k : String) (v : GVariant) (h : (k, v) ∈ t) : g_hash_table_lookup t k = some v :=
  PyDict_get_of_mem t hnd k v h

theorem find_probe_eq_none (dec : srd_decoder) (k : String) :
    find_probe dec k = none ↔ ∀ p ∈ all_probes dec, p.id ≠ k := by
  rw [find_probe_eq_find, List.find?_eq_none]
  simp

/-- The probe loop takes its error exit exactly when some key has a value
that is no 32-bit integer or names no probe. -/
theorem probe_set_loop_eq_none (dec : srd_decoder) (t : GHashTable) :
    ∀ (ks : List String) (m : List Int) (n : Nat),
      probe_set_loop dec t ks m n = none ↔
        ∃ k ∈ ks, (∀ v, g_hash_table_lookup t k ≠ some (.int32 v)) ∨ find_probe dec k = none := by
  intro ks
  induction ks with
  | nil => intro m n; simp [probe_set_loop]
  | cons k ks ih =>
    intro m n
    unfold probe_set_loop
    cases hl : g_hash_table_lookup t k with
    | none => simp [hl]
    | some value =>
      cases value with
      | int32 v =>
        cases hp : find_probe dec k with
        | none => simp [hl, hp]
        | some p =>
          simp only [ih, List.mem_cons, exists_eq_or_imp, hl, hp]
          simp
      | string s => simp [hl]
      | int64 v => simp [hl]
      | uint64 v => simp [hl]
      | boolean b => simp [hl]

/-- C13: when the allocation of the new map succeeds, `srd_inst_probe_set_all`
returns SRD_ERR_ARG if and only if the input map is non-empty and the
descriptor declares no probe, or some value is not a 32-bit integer, or some
key is the id of neither a required nor an optional probe; in every other case
it returns SRD_OK. -/
theorem C13_probe_set_all_status (di : srd_decoder_inst) (new_probes : GHashTable)
    (hn : di.dec_num_probes = (all_probes di.decoder).length)
    (hkeys : (g_hash_table_get_keys new_probes).Nodup) :
    ((srd_inst_probe_set_all true di new_probes).1 = SRD_ERR_ARG ↔
      new_probes ≠ [] ∧
        (all_probes di.decoder = [] ∨
          (∃ kv ∈ new_probes, ∀ v, kv.2 ≠ .int32 v) ∨
          (∃ kv ∈ new_probes, ∀ p, p ∈ di.decoder.probes ∨ p ∈ di.decoder.opt_probes →
            p.id ≠ kv.1))) ∧
    ((srd_inst_probe_set_all true di new_probes).1 ≠ SRD_ERR_ARG →
      (srd_inst_probe_set_all true di new_probes).1 = SRD_OK) := by
  have hbad : (∃ k ∈ g_hash_table_get_keys new_probes,
        (∀ v, g_hash_table_lookup new_probes k ≠ some (.int32 v)) ∨
          find_probe di.decoder k = none) ↔
      ((∃ kv ∈ new_probes, ∀ v, kv.2 ≠ .int32 v) ∨
        (∃ kv ∈ new_probes, ∀ p, p ∈ di.decoder.probes ∨ p ∈ di.decoder.opt_probes →
          p.id ≠ kv.1)) := by
    have hall : ∀ k, (∀ p, p ∈ di.decoder.probes ∨ p ∈ di.decoder.opt_probes → p.id ≠ k) ↔
        find_probe di.decoder k = none := by
      intro k
      rw [find_probe_eq_none]
      simp [all_probes]
    constructor
    · rintro ⟨k, hk, h | h⟩
      · obtain ⟨v, hv, hmem⟩ := lookup_of_mem_keys new_probes k hk
        refine Or.inl ⟨(k, v), hmem, fun w e => h w ?_⟩
        simp only at e
        rw [hv, e]
      · obtain ⟨v, _, hmem⟩ := lookup_of_mem_keys new_probes k hk
        exact Or.inr ⟨(k, v), hmem, (hall k).mpr h⟩
    · rintro (⟨kv, hmem, h⟩ | ⟨kv, hmem, h⟩)
      · refine ⟨kv.1, List.mem_map_of_mem Prod.fst hmem, Or.inl fun v e => h v ?_⟩
        rw [lookup_of_mem_nodup new_probes hkeys kv.1 kv.2 hmem] at e
        exact Option.some.inj e
      · exact ⟨kv.1, List.mem_map_of_mem Prod.fst hmem, Or.inr ((hall kv.1).mp h)⟩
  by_cases hsz : g_hash_table_size new_probes = 0
  · have he : new_probes = [] := by simpa [g_hash_table_size] using hsz
    subst he
    simp [srd_inst_probe_set_all, g_hash_table_size, SRD_OK, SRD_ERR_ARG]
  have hne : new_probes ≠ [] := by simpa [g_hash_table_size] using hsz
  by_cases hnum : di.dec_num_probes = 0
  · have hnil : all_probes di.decoder = [] := by
      rw [hnum] at hn
      exact List.length_eq_zero.mp hn.symm
    simp [srd_inst_probe_set_all, hsz, hnum, hne, hnil]
  have hnil : all_probes di.decoder ≠ [] := by
    intro h
    rw [h] at hn
    exact hnum hn
  cases hloop : probe_set_loop di.decoder new_probes (g_hash_table_get_keys new_probes)
      (List.replicate di.dec_num_probes (-1)) 0 with
  | none =>
    have := (probe_set_loop_eq_none di.decoder new_probes _ _ _).mp hloop
    have hcond := hbad.mp this
    have hret : (srd_inst_probe_set_all true di new_probes).1 = SRD_ERR_ARG := by
      simp only [srd_inst_probe_set_all, hsz, hnum, if_false, Bool.not_true,
        Bool.false_eq_true, hloop]
    rw [hret]
    exact ⟨⟨fun _ => ⟨hne, Or.inr hcond⟩, fun _ => rfl⟩, fun h => absurd rfl h⟩
  | some r =>
    have hgood : ¬ ((∃ kv ∈ new_probes, ∀ v, kv.2 ≠ .int32 v) ∨
        (∃ kv ∈ new_probes, ∀ p, p ∈ di.decoder.probes ∨ p ∈ di.decoder.opt_probes →
          p.id ≠ kv.1)) := by
      intro h
      have := (probe_set_loop_eq_none di.decoder new_probes (g_hash_table_get_keys new_probes)
        (List.replicate di.dec_num_probes (-1)) 0).mpr (hbad.mpr h)
      rw [hloop] at this
      cases this
    have hret : (srd_inst_probe_set_all true di new_probes).1 = SRD_OK := by
      simp only [srd_inst_probe_set_all, hsz, hnum, if_false, Bool.not_true,
        Bool.false_eq_true, hloop]
    rw [hret]
    refine ⟨⟨fun h => ?_, fun h => ?_⟩, fun _ => rfl⟩
    · simp [SRD_OK, SRD_ERR_ARG] at h
    · rcases h.2 with h1 | h1
      · exact absurd h1 hnil
      · exact absurd h1 hgood

/-- C13, witness: the i2c decoder with a key that names no probe. -/
theorem C13_probe_set_all_status_witness :
    (srd_inst_probe_set_all true i2c_inst [("miso", .int32 0)]).1 = SRD_ERR_ARG ∧
    (srd_inst_probe_set_all true i2c_inst [("sda", .int32 0)]).1 = SRD_OK := by
  have h1 := C13_probe_set_all_status i2c_inst [("miso", .int32 0)] (by decide) (by decide)
  have h2 := C13_probe_set_all_status i2c_inst [("sda", .int32 0)] (by decide) (by decide)
  refine ⟨h1.1.mpr ⟨by decide, Or.inr (Or.inr ⟨("miso", .int32 0), by decide, ?_⟩)⟩,
    h2.2 (by decide)⟩
  intro p hp
  have hall : ∀ q ∈ all_probes i2c_inst.decoder, q.id ≠ "miso" := by decide
  exact hall p (by simpa [all_probes] using hp)

/-- C14: whenever `srd_inst_probe_set_all` returns an error (failed
allocation, value that is no 32-bit integer, unknown probe id, descriptor
without probes), the instance, and so its probe map and byte width, is exactly
what it was before the call. -/
theorem C14_probe_set_all_error_unchanged (malloc_ok : Bool) (di : srd_decoder_inst)
    (new_probes : GHashTable)
    (herr : (srd_inst_probe_set_all malloc_ok di new_probes).1 ≠ SRD_OK) :
    (srd_inst_probe_set_all malloc_ok di new_probes).2 = di ∧
    (srd_inst_probe_set_all malloc_ok di new_probes).2.dec_probemap = di.dec_probemap ∧
    (srd_inst_probe_set_all malloc_ok di new_probes).2.data_unitsize = di.data_unitsize := by
  have h : (srd_inst_probe_set_all malloc_ok di new_probes).2 = di := by
    unfold srd_inst_probe_set_all at herr ⊢
    split
    · rfl
    · split
      · rfl
      · split
        · rfl
        · split
          · rfl
          · rename_i hloop
            rw [if_neg (by assumption), if_neg (by assumption), if_neg (by assumption),
              hloop] at herr
            exact absurd rfl herr
  exact ⟨h, by rw [h], by rw [h]⟩

/-- C14, witness: the four kinds of failure on the i2c instance (whose map
is [0, 1] and byte width 1) and on the instance of a decoder without probes. -/
theorem C14_probe_set_all_error_unchanged_witness :
    (srd_inst_probe_set_all false i2c_inst [("sda", .int32 3)]) = (SRD_ERR_MALLOC, i2c_inst) ∧
    (srd_inst_probe_set_all true i2c_inst [("sda", .int32 3), ("scl", .string "x")]).2
      = i2c_inst ∧
    (srd_inst_probe_set_all true i2c_inst [("sda", .int32 3), ("miso", .int32 4)]).2
      = i2c_inst ∧
    (srd_inst_probe_set_all true offset_inst [("sda", .int32 3)]).2 = offset_inst :=
  ⟨by decide,
   (C14_probe_set_all_error_unchanged true i2c_inst [("sda", .int32 3), ("scl", .string "x")]
     (by decide)).1,
   (C14_probe_set_all_error_unchanged true i2c_inst [("sda", .int32 3), ("miso", .int32 4)]
     (by decide)).1,
   (C14_probe_set_all_error_unchanged true offset_inst [("sda", .int32 3)] (by decide)).1⟩

/-- C15: with an empty input map `srd_inst_probe_set_all` returns SRD_OK and
leaves the instance, and so its probe map and byte width, unchanged; hence any
number of such calls in a row leaves it unchanged. -/
theorem C15_probe_set_all_empty (malloc_ok : Bool) (di : srd_decoder_inst) :
    srd_inst_probe_set_all malloc_ok di [] = (SRD_OK, di) ∧
    ∀ n : Nat, (fun d => (srd_inst_probe_set_all malloc_ok d []).2)^[n] di = di := by
  have h : ∀ d, srd_inst_probe_set_all malloc_ok d [] = (SRD_OK, d) := fun d => rfl
  refine ⟨h di, fun n => ?_⟩
  induction n with
  | zero => rfl
  | succ n ih => rw [Function.iterate_succ_apply', ih, h]

/-! ## The instance built by srd_inst_new -/

/-- The option loop only removes entries from the options hash table. -/
theorem option_set_loop_sub (schema : PyDict (List PyObject)) :
    ∀ (ks : List String) (d : PyDict PyObject) (o : GHashTable),
      ∀ kv ∈ (option_set_loop schema ks d o).2.2, kv ∈ o := by
  intro ks
  induction ks with
  | nil => intro d o kv h; exact h
  | cons k ks ih =>
    intro d o kv
    unfold option_set_loop
    split
    · exact id
    · split
      · exact id
      · split
        · exact id
        · split
          · split
            · exact id
            · intro h
              exact (List.mem_filter.mp (ih _ _ kv h)).1
          · split
            · exact id
            · exact ih _ _ kv

/-- The options hash table after `srd_inst_option_set` holds only entries it
held before. -/
theorem option_set_table (di : srd_decoder_inst) (o : GHashTable) :
    ∃ e, (srd_inst_option_set (some di) (some o)).2.2 = some e ∧ ∀ kv ∈ e, kv ∈ o := by
  simp only [srd_inst_option_set]
  cases di.decoder.py_dec.options with
  | none =>
    refine ⟨o, ?_, fun _ h => h⟩
    simp only
    split <;> rfl
  | some schema => exact ⟨_, rfl, option_set_loop_sub schema _ _ _⟩

theorem new_finish_some (heap : Heap) (s : srd_session) (di : srd_decoder_inst)
    (options : Option InstOptions) {p : Ptr} {heap' : Heap} {sess' : Option srd_session}
    {o' : Option InstOptions}
    (h : new_finish heap s di options = (some p, heap', sess', o')) :
    ∃ d, p = heap.length ∧
      heap' = heap ++ [{ di with py_inst := { di.py_inst with options := d } }] ∧
      (options = none → o' = none) ∧
      (∀ o, options = some o → ∃ e, o' = some ⟨none, e⟩ ∧ ∀ kv ∈ e, kv ∈ o.entries) := by
  unfold new_finish at h
  cases options with
  | none =>
    simp only [Prod.mk.injEq, Option.some.injEq] at h
    obtain ⟨h1, h2, _, h4⟩ := h
    exact ⟨di.py_inst.options, h1.symm, h2.symm, fun _ => h4.symm, fun o ho => by cases ho⟩
  | some o =>
    simp only at h
    split at h
    · simp at h
    · obtain ⟨d, hd⟩ := option_set_inst di o.entries
      obtain ⟨e, he, hsub⟩ := option_set_table di o.entries
      rw [hd, he] at h
      simp only [Option.getD_some, Prod.mk.injEq, Option.some.injEq] at h
      obtain ⟨h1, h2, _, h4⟩ := h
      refine ⟨d, h1.symm, h2.symm, fun ho => (by cases ho), fun o1 ho1 => ?_⟩
      cases ho1
      exact ⟨e, h4.symm, hsub⟩

/-- What a successful `srd_inst_new` has done: the decoder was found, the
call of the decoder class gave a Python object, and the heap got one more
instance, the one built before option coercion with at most the `options`
attribute of its Python object replaced. -/
theorem srd_inst_new_some (pd_list : List srd_decoder) (env : NewEnv) (heap : Heap)
    (sess : Option srd_session) (decoder_id : String) (options : Option InstOptions)
    {p : Ptr} {heap' : Heap} {sess' : Option srd_session} {o' : Option InstOptions}
    (h : srd_inst_new pd_list env heap sess decoder_id options = (some p, heap', sess', o')) :
    ∃ dec py_addr d, srd_decoder_get_by_id pd_list decoder_id = some dec ∧
      env.py_inst = some py_addr ∧ p = heap.length ∧
      heap' = heap ++ [{ new_inst dec (new_inst_id decoder_id options) py_addr with
        py_inst := ⟨py_addr, d⟩ }] ∧
      (options = none → o' = none) ∧
      (∀ o, options = some o → ∃ e, o' = some ⟨none, e⟩ ∧
        ∀ kv ∈ e, kv ∈ g_hash_table_remove o.entries "id") := by
  unfold srd_inst_new at h
  split at h
  · simp at h
  · split at h
    · simp at h
    · split at h
      · simp at h
      · split at h
        · simp at h
        · split at h
          · simp at h
          · split at h
            · simp at h
            · split at h
              · simp at h
              · rename_i dec hdec _ _ _ _ py_addr hpy
                obtain ⟨d, h1, h2, h3, h4⟩ := new_finish_some _ _ _ _ h
                refine ⟨dec, py_addr, d, hdec, hpy, h1, h2, ?_, ?_⟩
                · intro ho
                  exact h3 (by rw [ho]; rfl)
                · intro o ho
                  subst ho
                  exact h4 _ rfl

theorem default_probemap_get (n i : Nat) (hi : i < n) :
    (default_probemap n).get? i = some (i : Int) := by
  simp [default_probemap, List.get?_eq_getElem?, List.getElem?_map, List.getElem?_range hi]

theorem new_inst_probemap (dec : srd_decoder) (inst_id : String) (py_addr : Nat) :
    (new_inst dec inst_id py_addr).dec_probemap
      = default_probemap (dec.probes.length + dec.opt_probes.length) := by
  simp only [new_inst]
  split
  · rfl
  · rename_i h
    rw [not_not.mp h]
    rfl

theorem new_inst_unitsize (dec : srd_decoder) (inst_id : String) (py_addr : Nat) :
    (new_inst dec inst_id py_addr).data_unitsize
      = (dec.probes.length + dec.opt_probes.length + 7) / 8 := by
  simp only [new_inst]
  split
  · rfl
  · rename_i h
    rw [not_not.mp h]

/-- C11: after a successful `srd_inst_new` the id of the new instance is the
string stored under the key "id" of the options table when a table was
supplied and holds that key, and the decoder id otherwise (no table, or a
table without "id"); the options table afterwards has no key "id". -/
theorem C11_inst_id (pd_list : List srd_decoder) (env : NewEnv) (heap : Heap)
    (sess : Option srd_session) (decoder_id : String) (options : Option InstOptions)
    {p : Ptr} {heap' : Heap} {sess' : Option srd_session} {o' : Option InstOptions}
    (h : srd_inst_new pd_list env heap sess decoder_id options = (some p, heap', sess', o')) :
    (∀ o id, options = some o → o.id = some id → (deref heap' p).inst_id = id) ∧
    (∀ o, options = some o → o.id = none → (deref heap' p).inst_id = decoder_id) ∧
    (options = none → (deref heap' p).inst_id = decoder_id ∧ o' = none) ∧
    (∀ o, o' = some o → o.id = none ∧ g_hash_table_lookup o.entries "id" = none ∧
      "id" ∉ g_hash_table_get_keys o.entries) := by
  obtain ⟨dec, py_addr, d, _, _, hp, hheap, hnone, hsome⟩ :=
    srd_inst_new_some pd_list env heap sess decoder_id options h
  have hid : (deref heap' p).inst_id = new_inst_id decoder_id options := by
    rw [hheap, hp, deref_append_length]
    rfl
  refine ⟨?_, ?_, ?_, ?_⟩
  · intro o id ho hoid
    rw [hid, ho]
    simp [new_inst_id, hoid]
  · intro o ho hoid
    rw [hid, ho]
    simp [new_inst_id, hoid]
  · intro ho
    refine ⟨?_, hnone ho⟩
    rw [hid, ho]
    rfl
  · intro o ho
    cases hopt : options with
    | none => rw [hnone hopt] at ho; cases ho
    | some o0 =>
      obtain ⟨e, he, hsub⟩ := hsome o0 hopt
      rw [he] at ho
      cases ho
      have hkeys : "id" ∉ g_hash_table_get_keys e := by
        intro hmem
        obtain ⟨kv, hkv, hk⟩ := List.mem_map.mp hmem
        have := (List.mem_filter.mp (hsub kv hkv)).2
        simp [hk] at this
      refine ⟨rfl, ?_, hkeys⟩
      cases hl : g_hash_table_lookup e "id" with
      | none => rfl
      | some v =>
        exfalso
        apply hkeys
        unfold g_hash_table_lookup at hl
        cases hf : e.find? (fun kv => kv.1 == "id") with
        | none => simp [hf] at hl
        | some kv =>
          have h1 : kv.1 = "id" := by simpa using List.find?_some hf
          exact h1 ▸ List.mem_map_of_mem Prod.fst (List.mem_of_find?_eq_some hf)

/-- C11, witness: a uart instance created with the options table holding
"id" = "u1" and baudrate = 9600 is named "u1" and the table ends up empty;
one created without a table is named after the decoder. -/
theorem C11_inst_id_witness :
    (deref [{ new_inst uart "u1" 11 with
        py_inst := ⟨11, some [("baudrate", .long 9600), ("parity", .unicode "none")]⟩ }]
      0).inst_id = "u1" ∧
    (deref [uart_a] 0).inst_id = "uart" := by
  have h1 := C11_inst_id [uart] ⟨true, true, true, some 11⟩ [] (some ⟨true, []⟩) "uart"
    (some ⟨some "u1", [("baudrate", .int64 9600)]⟩)
    (show srd_inst_new [uart] ⟨true, true, true, some 11⟩ [] (some ⟨true, []⟩) "uart"
        (some ⟨some "u1", [("baudrate", .int64 9600)]⟩) =
      (some 0, [{ new_inst uart "u1" 11 with
          py_inst := ⟨11, some [("baudrate", .long 9600), ("parity", .unicode "none")]⟩ }],
        some ⟨true, [0]⟩, some ⟨none, []⟩) by decide)
  have h2 := C11_inst_id [uart] ⟨true, true, true, some 11⟩ [] (some ⟨true, []⟩) "uart" none
    (show srd_inst_new [uart] ⟨true, true, true, some 11⟩ [] (some ⟨true, []⟩) "uart" none =
      (some 0, [uart_a], some ⟨true, [0]⟩, none) by decide)
  exact ⟨h1.1 _ "u1" rfl rfl, (h2.2.2.1 rfl).1⟩

/-- C12: an instance returned by `srd_inst_new` for a decoder with n probes
in total (required plus optional) has a probe map of length n that is the
identity (slot i holds channel i for every i < n) and byte width ceil(n / 8);
for n = 0 the byte width is 0. -/
theorem C12_default_probemap (pd_list : List srd_decoder) (env : NewEnv) (heap : Heap)
    (sess : Option srd_session) (decoder_id : String) (options : Option InstOptions)
    {p : Ptr} {heap' : Heap} {sess' : Option srd_session} {o' : Option InstOptions}
    (h : srd_inst_new pd_list env heap sess decoder_id options = (some p, heap', sess', o')) :
    srd_decoder_get_by_id pd_list decoder_id = some (deref heap' p).decoder ∧
    (deref heap' p).dec_num_probes = (all_probes (deref heap' p).decoder).length ∧
    (deref heap' p).dec_probemap.length = (all_probes (deref heap' p).decoder).length ∧
    (∀ i, i < (all_probes (deref heap' p).decoder).length →
      (deref heap' p).dec_probemap.get? i = some (i : Int)) ∧
    (deref heap' p).data_unitsize =
      ⌈((all_probes (deref heap' p).decoder).length : ℚ) / 8⌉₊ ∧
    ((all_probes (deref heap' p).decoder).length = 0 → (deref heap' p).data_unitsize = 0) := by
  obtain ⟨dec, py_addr, d, hdec, _, hp, hheap, _, _⟩ :=
    srd_inst_new_some pd_list env heap sess decoder_id options h
  have hdi : deref heap' p = { new_inst dec (new_inst_id decoder_id options) py_addr with
      py_inst := ⟨py_addr, d⟩ } := by
    rw [hheap, hp, deref_append_length]
  have hlen : (all_probes dec).length = dec.probes.length + dec.opt_probes.length := by
    simp [all_probes]
  have hd1 : (deref heap' p).decoder = dec := by rw [hdi]; rfl
  have hd2 : (deref heap' p).dec_num_probes = dec.probes.length + dec.opt_probes.length := by
    rw [hdi]; rfl
  have hd3 : (deref heap' p).dec_probemap
      = default_probemap (dec.probes.length + dec.opt_probes.length) := by
    rw [hdi]; exact new_inst_probemap dec (new_inst_id decoder_id options) py_addr
  have hd4 : (deref heap' p).data_unitsize
      = (dec.probes.length + dec.opt_probes.length + 7) / 8 := by
    rw [hdi]; exact new_inst_unitsize dec (new_inst_id decoder_id options) py_addr
  rw [hd1, hd2, hd3, hd4, hlen]
  refine ⟨hdec, rfl, ?_, ?_, ?_, ?_⟩
  · simp [default_probemap]
  · intro i hi
    exact default_probemap_get _ i hi
  · rw [ceil_div8]
  · intro h0
    rw [h0]

/-- C12, witness: a uart instance (one probe) gets the map [0] and byte
width 1. -/
theorem C12_default_probemap_witness :
    (deref [uart_a] 0).dec_probemap.get? 0 = some 0 ∧ (deref [uart_a] 0).data_unitsize = 1 := by
  have h := C12_default_probemap [uart] ⟨true, true, true, some 11⟩ [] (some ⟨true, []⟩) "uart"
    none
    (show srd_inst_new [uart] ⟨true, true, true, some 11⟩ [] (some ⟨true, []⟩) "uart" none =
      (some 0, [uart_a], some ⟨true, [0]⟩, none) by decide)
  exact ⟨h.2.2.2.1 0 (by decide), by decide⟩

/-! ## The slot invariant -/

theorem mapped_count_default (n : Nat) : mapped_count (default_probemap n) = n := by
  unfold mapped_count
  rw [List.filter_eq_self.mpr]
  · simp [default_probemap]
  · intro x hx
    simp only [default_probemap, List.mem_map] at hx
    obtain ⟨i, _, rfl⟩ := hx
    simp only [bne_iff_ne, ne_eq]
    omega

/-- Every slot of the map a successful probe loop returns is a slot of the
initial map or the value of one of the keys. -/
theorem probe_set_loop_mem (dec : srd_decoder) (t : GHashTable) :
    ∀ (ks : List String) (m : List Int) (n : Nat) (m' : List Int) (n' : Nat),
      probe_set_loop dec t ks m n = some (m', n') →
      ∀ x ∈ m', x ∈ m ∨ ∃ k ∈ ks, g_hash_table_lookup t k = some (.int32 x) := by
  intro ks
  induction ks with
  | nil =>
    intro m n m' n' h x hx
    simp only [probe_set_loop, Option.some.injEq, Prod.mk.injEq] at h
    exact Or.inl (h.1 ▸ hx)
  | cons k ks ih =>
    intro m n m' n' h x hx
    unfold probe_set_loop at h
    cases hl : g_hash_table_lookup t k with
    | none => simp [hl] at h
    | some value =>
      cases value with
      | int32 v =>
        cases hp : find_probe dec k with
        | none => simp [hl, hp] at h
        | some p =>
          simp only [hl, hp] at h
          rcases ih _ _ m' n' h x hx with h1 | ⟨k', hk', hv'⟩
          · rcases List.mem_or_eq_of_mem_set h1 with h2 | h2
            · exact Or.inl h2
            · exact Or.inr ⟨k, List.mem_cons_self _ _, h2 ▸ hl⟩
          · exact Or.inr ⟨k', List.mem_cons_of_mem _ hk', hv'⟩
      | string s => simp [hl] at h
      | int64 v => simp [hl] at h
      | uint64 v => simp [hl] at h
      | boolean b => simp [hl] at h

/-- The outcomes of `srd_inst_probe_set_all`: the instance is returned as it
was, or the loop succeeded on a non-empty map and the instance gets the new
map and the byte width computed from the number of keys. -/
theorem probe_set_all_cases (malloc_ok : Bool) (di : srd_decoder_inst) (t : GHashTable) :
    (srd_inst_probe_set_all malloc_ok di t).2 = di ∨
    ∃ m' n', probe_set_loop di.decoder t (g_hash_table_get_keys t)
        (List.replicate di.dec_num_probes (-1)) 0 = some (m', n') ∧
      (srd_inst_probe_set_all malloc_ok di t).2 =
        { di with data_unitsize := (n' + 7) / 8, dec_probemap := m' } := by
  unfold srd_inst_probe_set_all
  split
  · exact Or.inl rfl
  · split
    · exact Or.inl rfl
    · split
      · exact Or.inl rfl
      · split
        · exact Or.inl rfl
        · rename_i m' n' hloop
          exact Or.inr ⟨m', n', hloop, rfl⟩

theorem slot_invariant_probe_set (malloc_ok : Bool) (di : srd_decoder_inst) (t : GHashTable)
    (hwf : probe_orders_ok di.decoder)
    (hn : di.dec_num_probes = (all_probes di.decoder).length)
    (ht : channel_map t) (hinv : slot_invariant di) :
    slot_invariant (srd_inst_probe_set_all malloc_ok di t).2 := by
  rcases probe_set_all_cases malloc_ok di t with h | ⟨m', n', hloop, h⟩
  · rw [h]; exact hinv
  · rw [h]
    have hgood : ∀ k ∈ g_hash_table_get_keys t, ∃ v p,
        g_hash_table_lookup t k = some (.int32 v) ∧ find_probe di.decoder k = some p := by
      intro k hk
      by_contra hcon
      have hnone := (probe_set_loop_eq_none di.decoder t (g_hash_table_get_keys t)
        (List.replicate di.dec_num_probes (-1)) 0).mpr ⟨k, hk, by
          by_cases hv : ∃ v, g_hash_table_lookup t k = some (.int32 v)
          · obtain ⟨v, hv⟩ := hv
            right
            cases hp : find_probe di.decoder k with
            | none => rfl
            | some p => exact absurd ⟨v, p, hv, hp⟩ hcon
          · left
            intro v hv'
            exact hv ⟨v, hv'⟩⟩
      rw [hloop] at hnone
      cases hnone
    have hval : ∀ k v, g_hash_table_lookup t k = some (.int32 v) → 0 ≤ v := by
      intro k v hv
      unfold g_hash_table_lookup at hv
      cases hf : t.find? (fun kv => kv.1 == k) with
      | none => simp [hf] at hv
      | some kv =>
        simp only [hf, Option.map_some', Option.some.injEq] at hv
        exact (ht.2 kv (List.mem_of_find?_eq_some hf) v hv).1
    have hall : ∀ k ∈ g_hash_table_get_keys t, ∃ v p,
        g_hash_table_lookup t k = some (.int32 v) ∧ v ≠ -1 ∧
        find_probe di.decoder k = some p ∧
        (List.replicate di.dec_num_probes (-1 : Int)).get? p.order = some (-1) := by
      intro k hk
      obtain ⟨v, p, hv, hp⟩ := hgood k hk
      refine ⟨v, p, hv, ?_, hp, ?_⟩
      · have := hval k v hv
        omega
      · rw [List.get?_eq_getElem?, List.getElem?_replicate,
          if_pos (hn ▸ hwf.2 p (find_probe_some hp).1)]
    obtain ⟨m2, hrun, hcnt⟩ := probe_set_loop_count di.decoder t hwf.1
      (g_hash_table_get_keys t) (List.replicate di.dec_num_probes (-1)) 0 ht.1 hall
    rw [hloop] at hrun
    simp only [Option.some.injEq, Prod.mk.injEq] at hrun
    obtain ⟨rfl, rfl⟩ := hrun
    refine ⟨?_, ?_⟩
    · intro x hx
      rcases probe_set_loop_mem di.decoder t _ _ _ _ _ hloop x hx with h1 | ⟨k, _, hv⟩
      · exact Or.inl (List.eq_of_mem_replicate h1)
      · exact Or.inr (hval k x hv)
    · show (0 + (g_hash_table_get_keys t).length + 7) / 8 = _
      rw [hcnt, mapped_count_replicate, ← ceil_div8]

/-- C16, as stated, fails: an i2c instance is created and
`srd_inst_probe_set_all` is called with the 32-bit value -5 for sda; the new
map is [-1, -5], whose second slot is neither the sentinel nor non-negative. -/
theorem C16_counterexample :
    ∃ di, InstReachable [i2c] int32_map di ∧ ¬ slot_invariant di := by
  have h1 : InstReachable [i2c] int32_map (deref [new_inst i2c "i2c" 11] 0) :=
    InstReachable.new ⟨true, true, true, some 11⟩ [] (some ⟨true, []⟩) "i2c" none
      (show srd_inst_new [i2c] ⟨true, true, true, some 11⟩ [] (some ⟨true, []⟩) "i2c" none =
        (some 0, [new_inst i2c "i2c" 11], some ⟨true, [0]⟩, none) by decide)
  have h2 := InstReachable.probe_set true [("sda", .int32 (-5))] h1
    ⟨by decide, by
      intro kv hkv v hv
      simp only [List.mem_singleton] at hkv
      subst hkv
      simp only [GVariant.int32.injEq] at hv
      subst hv
      decide⟩
  refine ⟨_, h2, ?_⟩
  intro hinv
  have := hinv.1 (-5) (by decide)
  omega

/-- C16, amended: when the probes of every loaded decoder sit at pairwise
distinct orders inside the map, then in every instance state reachable by
`srd_inst_new` followed by any sequence of `srd_inst_probe_set_all` calls
whose channel values are non-negative 32-bit integers, every probe map slot
is the unmapped sentinel or a non-negative channel index, and the byte width
equals ceil(count of mapped slots / 8). -/
theorem C16_slot_invariant (pd_list : List srd_decoder)
    (hwf : ∀ dec ∈ pd_list, probe_orders_ok dec) (di : srd_decoder_inst)
    (h : InstReachable pd_list channel_map di) : slot_invariant di := by
  have key : probe_orders_ok di.decoder ∧
      di.dec_num_probes = (all_probes di.decoder).length ∧ slot_invariant di := by
    induction h with
    | @new env heap sess decoder_id options p heap' sess' o' hnew =>
      obtain ⟨dec, py_addr, d, hdec, _, hp, hheap, _, _⟩ :=
        srd_inst_new_some pd_list env heap sess decoder_id options hnew
      have hdi : deref heap' p = { new_inst dec (new_inst_id decoder_id options) py_addr with
          py_inst := ⟨py_addr, d⟩ } := by
        rw [hheap, hp, deref_append_length]
      have hlen : (all_probes dec).length = dec.probes.length + dec.opt_probes.length := by
        simp [all_probes]
      have hd1 : (deref heap' p).decoder = dec := by rw [hdi]; rfl
      have hd2 : (deref heap' p).dec_num_probes = dec.probes.length + dec.opt_probes.length := by
        rw [hdi]; rfl
      have hd3 : (deref heap' p).dec_probemap
          = default_probemap (dec.probes.length + dec.opt_probes.length) := by
        rw [hdi]; exact new_inst_probemap dec (new_inst_id decoder_id options) py_addr
      have hd4 : (deref heap' p).data_unitsize
          = (dec.probes.length + dec.opt_probes.length + 7) / 8 := by
        rw [hdi]; exact new_inst_unitsize dec (new_inst_id decoder_id options) py_addr
      refine ⟨?_, ?_, ?_, ?_⟩
      · rw [hd1]
        exact hwf dec (List.mem_of_find?_eq_some hdec)
      · rw [hd1, hd2, hlen]
      · intro x hx
        rw [hd3] at hx
        simp only [default_probemap, List.mem_map] at hx
        obtain ⟨i, _, rfl⟩ := hx
        exact Or.inr (Int.ofNat_nonneg i)
      · rw [hd3, hd4, mapped_count_default, ceil_div8]
    | @probe_set di malloc_ok new_probes _ hallowed ih =>
      obtain ⟨ih1, ih2, ih3⟩ := ih
      have hfields : (srd_inst_probe_set_all malloc_ok di new_probes).2.decoder = di.decoder ∧
          (srd_inst_probe_set_all malloc_ok di new_probes).2.dec_num_probes
            = di.dec_num_probes := by
        rcases probe_set_all_cases malloc_ok di new_probes with h | ⟨_, _, _, h⟩ <;>
          rw [h] <;> exact ⟨rfl, rfl⟩
      refine ⟨?_, ?_, slot_invariant_probe_set malloc_ok di new_probes ih1 ih2 hallowed ih3⟩
      · rw [hfields.1]; exact ih1
      · rw [hfields.1, hfields.2]; exact ih2
  exact key.2.2

/-- C16, amended, witness: the i2c instance after `srd_inst_new` and a call
that maps sda to channel 3. -/
theorem C16_slot_invariant_witness :
    slot_invariant (srd_inst_probe_set_all true (deref [new_inst i2c "i2c" 11] 0)
      [("sda", .int32 3)]).2 := by
  have h1 : InstReachable [i2c] channel_map (deref [new_inst i2c "i2c" 11] 0) :=
    InstReachable.new ⟨true, true, true, some 11⟩ [] (some ⟨true, []⟩) "i2c" none
      (show srd_inst_new [i2c] ⟨true, true, true, some 11⟩ [] (some ⟨true, []⟩) "i2c" none =
        (some 0, [new_inst i2c "i2c" 11], some ⟨true, [0]⟩, none) by decide)
  have h2 := InstReachable.probe_set true [("sda", .int32 3)] h1
    ⟨by decide, by
      intro kv hkv v hv
      simp only [List.mem_singleton] at hkv
      subst hkv
      simp only [GVariant.int32.injEq] at hv
      subst hv
      decide⟩
  refine C16_slot_invariant [i2c] ?_ _ h2
  intro dec hdec
  simp only [List.mem_singleton] at hdec
  subst hdec
  exact ⟨by decide, by decide⟩

/-! ## Decoders without options, unsupported option types -/

/-- C17 (as stated, refuted): a decoder whose class declares zero options
through an empty `options` dict. For the non-empty input map with the single
entry baudrate = 9600, `srd_inst_option_set` returns SRD_OK, not SRD_ERR_ARG,
and the instance changes: it gets an empty option dict of its own. -/
theorem C17_counterexample :
    empty_opts_inst.decoder.py_dec.options = some [] ∧
    srd_inst_option_set (some empty_opts_inst) (some [("baudrate", .int64 9600)]) =
      (SRD_OK, some { empty_opts_inst with py_inst := ⟨0, some []⟩ },
        some [("baudrate", .int64 9600)]) ∧
    SRD_OK ≠ SRD_ERR_ARG ∧
    ({ empty_opts_inst with py_inst := ⟨0, some []⟩ } : srd_decoder_inst) ≠ empty_opts_inst := by
  decide

/-- C17 (amended): for a decoder class without an `options` attribute,
`srd_inst_option_set` returns SRD_OK on an empty input map and SRD_ERR_ARG on a
non-empty one, and in both cases leaves the input map and the instance as
they were. For a decoder class whose `options` attribute is an empty dict it
returns SRD_OK on every input map, empty or not, leaves the input map as it
was and replaces the option dict of the instance by an empty one (nothing
else of the instance changes). With a null instance or a null options table
it returns SRD_ERR_ARG (and changes nothing). -/
theorem C17_no_options (di : srd_decoder_inst) (options : GHashTable) :
    (di.decoder.py_dec.options = none → options = [] →
      srd_inst_option_set (some di) (some options) = (SRD_OK, some di, some options)) ∧
    (di.decoder.py_dec.options = none → options ≠ [] →
      srd_inst_option_set (some di) (some options) = (SRD_ERR_ARG, some di, some options)) ∧
    (di.decoder.py_dec.options = some [] →
      srd_inst_option_set (some di) (some options) =
        (SRD_OK, some { di with py_inst := { di.py_inst with options := some [] } },
          some options)) ∧
    (∀ o : Option GHashTable, srd_inst_option_set none o = (SRD_ERR_ARG, none, o)) ∧
    (∀ d : srd_decoder_inst, srd_inst_option_set (some d) none = (SRD_ERR_ARG, some d, none)) := by
  refine ⟨?_, ?_, ?_, fun o => rfl, fun d => rfl⟩
  · intro hs he
    subst he
    simp [srd_inst_option_set, hs, g_hash_table_size]
  · intro hs hne
    have : g_hash_table_size options ≠ 0 := by simpa [g_hash_table_size] using hne
    simp [srd_inst_option_set, hs, this]
  · intro hs
    simp [srd_inst_option_set, hs, PyDict_Keys, option_set_loop]

/-- C17, witness: the i2c decoder class has no `options` attribute, the can
decoder class has an empty options dict. -/
theorem C17_no_options_witness :
    srd_inst_option_set (some i2c_inst) (some []) = (SRD_OK, some i2c_inst, some []) ∧
    srd_inst_option_set (some i2c_inst) (some [("baudrate", .int64 9600)]) =
      (SRD_ERR_ARG, some i2c_inst, some [("baudrate", .int64 9600)]) ∧
    srd_inst_option_set (some empty_opts_inst) (some [("baudrate", .int64 9600)]) =
      (SRD_OK,
        some { empty_opts_inst with
          py_inst := { empty_opts_inst.py_inst with options := some [] } },
        some [("baudrate", .int64 9600)]) :=
  ⟨(C17_no_options i2c_inst []).1 rfl rfl,
   (C17_no_options i2c_inst [("baudrate", .int64 9600)]).2.1 rfl (by decide),
   (C17_no_options empty_opts_inst [("baudrate", .int64 9600)]).2.2.1 rfl⟩

/-- The option loop fails when one of its keys has a default that is neither
a string nor an integer. -/
theorem option_set_loop_unsupported (schema : PyDict (List PyObject)) :
    ∀ (ks : List String) (d : PyDict PyObject) (o : GHashTable),
      (∃ k ∈ ks, ∃ optlist tp, PyDict_GetItemString schema k = some optlist ∧
        PyList_GetItem optlist 1 = some (.other tp)) →
      (option_set_loop schema ks d o).1 = SRD_ERR_PYTHON := by
  intro ks
  induction ks with
  | nil => intro d o h; obtain ⟨k, hk, _⟩ := h; cases hk
  | cons k ks ih =>
    intro d o h
    obtain ⟨k', hk', optlist, tp, hs, hc⟩ := h
    unfold option_set_loop
    rcases List.mem_cons.mp hk' with rfl | hk'
    · simp [hs, hc, PyUnicode_Check, PyLong_Check]
    · have hrest : ∃ k ∈ ks, ∃ optlist tp, PyDict_GetItemString schema k = some optlist ∧
          PyList_GetItem optlist 1 = some (.other tp) := ⟨k', hk', optlist, tp, hs, hc⟩
      split
      · rfl
      · split
        · rfl
        · split
          · rfl
          · split
            · split
              · rfl
              · exact ih _ _ hrest
            · split
              · rfl
              · exact ih _ _ hrest

/-- C18: when some entry of the option schema of the decoder class has a
default that is neither a string nor an integer, `srd_inst_option_set` returns
an error and never SRD_OK, whatever the input map holds (a value for that
entry or none) and also for a null instance or a null map. -/
theorem C18_unsupported_option_type (di : Option srd_decoder_inst)
    (options : Option GHashTable)
    (h : ∀ d, di = some d → ∃ schema, d.decoder.py_dec.options = some schema ∧
      (PyDict_Keys schema).Nodup ∧
      ∃ k optlist tp, (k, optlist) ∈ schema ∧ PyList_GetItem optlist 1 = some (.other tp)) :
    (srd_inst_option_set di options).1 ≠ SRD_OK ∧
    (∀ d o, di = some d → options = some o →
      (srd_inst_option_set di options).1 = SRD_ERR_PYTHON) := by
  cases di with
  | none => exact ⟨by simp [srd_inst_option_set, SRD_ERR_ARG, SRD_OK], fun d o hd => by cases hd⟩
  | some d =>
    cases options with
    | none =>
      exact ⟨by simp [srd_inst_option_set, SRD_ERR_ARG, SRD_OK], fun d o _ ho => by cases ho⟩
    | some o =>
      obtain ⟨schema, hs, hnd, k, optlist, tp, hmem, hc⟩ := h d rfl
      have hloop := option_set_loop_unsupported schema (PyDict_Keys schema) [] o
        ⟨k, List.mem_map_of_mem Prod.fst hmem, optlist, tp,
          PyDict_get_of_mem schema hnd k optlist hmem, hc⟩
      have hret : (srd_inst_option_set (some d) (some o)).1 = SRD_ERR_PYTHON := by
        simp only [srd_inst_option_set, hs]
        exact hloop
      exact ⟨by rw [hret]; decide, fun _ _ _ _ => hret⟩

/-- C18, witness: a decoder class with a string option followed by a
floating-point option; with or without a value for the latter the call
fails. -/
theorem C18_unsupported_option_type_witness :
    (srd_inst_option_set (some { uart_inst with decoder := { uart with py_dec :=
        ⟨some [("parity", [.unicode "Parity", .unicode "none"]),
               ("gain", [.unicode "Gain", .other "float"])]⟩ } })
      (some [("gain", .int64 2)])).1 ≠ SRD_OK :=
  (C18_unsupported_option_type _ _ (by
    intro d hd
    cases hd
    exact ⟨_, rfl, by decide, "gain", [.unicode "Gain", .other "float"], "float",
      by decide, rfl⟩)).1

/-! ## Lookup by instance id -/

/-- C19: for a valid session, `srd_inst_find_by_id` returns the first
instance of the root list, in list order, whose id equals the wanted string,
and returns not-found exactly when no root has that id; whatever it returns
is a root, so an instance that occurs only in child lists is never
returned. -/
theorem C19_find_by_id (heap : Heap) (s : srd_session) (inst_id : String)
    (hvalid : session_is_valid (some s) = SRD_OK) :
    (∀ p, srd_inst_find_by_id heap (some s) inst_id = some p →
      (deref heap p).inst_id = inst_id ∧
      ∃ l1 l2, s.di_list = l1 ++ p :: l2 ∧ ∀ q ∈ l1, (deref heap q).inst_id ≠ inst_id) ∧
    (srd_inst_find_by_id heap (some s) inst_id = none ↔
      ∀ r ∈ s.di_list, (deref heap r).inst_id ≠ inst_id) ∧
    (∀ p, p ∉ s.di_list → srd_inst_find_by_id heap (some s) inst_id ≠ some p) := by
  have hfind : srd_inst_find_by_id heap (some s) inst_id =
      s.di_list.find? (fun tmp => (deref heap tmp).inst_id == inst_id) := by
    simp [srd_inst_find_by_id, hvalid]
  rw [hfind]
  refine ⟨?_, ?_, ?_⟩
  · intro p hp
    obtain ⟨hq, l1, l2, hl, hl1⟩ := List.find?_eq_some.mp hp
    exact ⟨by simpa using hq, l1, l2, hl, fun q hq' => by simpa using hl1 q hq'⟩
  · rw [List.find?_eq_none]
    simp
  · intro p hp hfp
    exact hp (List.mem_of_find?_eq_some hfp)

/-- C19, witness: among the roots "uart" and "uart-2", with the first root
carrying a stacked child of its own id, the id "uart-2" resolves to the second
root and the id "spi" to none. -/
theorem C19_find_by_id_witness :
    srd_inst_find_by_id [{ uart_a with next_di := [2] }, uart_named, uart_b] (some two_roots)
      "uart-2" = some 1 ∧
    srd_inst_find_by_id [{ uart_a with next_di := [2] }, uart_named, uart_b] (some two_roots)
      "spi" = none := by
  have h := C19_find_by_id [{ uart_a with next_di := [2] }, uart_named, uart_b] two_roots "spi"
    (by decide)
  exact ⟨by decide, h.2.1.mpr (by decide)⟩

/-! ## Search by Python object in an acyclic graph -/

theorem deref_of_ge (heap : Heap) (p : Ptr) (hp : heap.length ≤ p) : deref heap p = zero_inst := by
  simp [deref, List.getD_eq_getElem?_getD, List.getElem?_eq_none hp]

theorem lt_of_children_ne_nil (heap : Heap) (q : Ptr) (h : (deref heap q).next_di ≠ []) :
    q < heap.length := by
  by_contra hq
  rw [deref_of_ge heap q (Nat.le_of_not_lt hq)] at h
  exact h rfl

/-- A child relation that decreases a rank has no cycle. -/
theorem acyclic_of_rank (heap : Heap) (rank : Ptr → Nat)
    (hrank : ∀ p c, child heap p c → rank c < rank p) :
    ∀ p, ¬ Relation.TransGen (child heap) p p := by
  have hlt : ∀ a b, Relation.TransGen (child heap) a b → rank b < rank a := by
    intro a b h
    induction h with
    | single hab => exact hrank _ _ hab
    | tail _ hcb ih => exact Nat.lt_trans (hrank _ _ hcb) ih
  intro p hp
  exact Nat.lt_irrefl _ (hlt p p hp)

/-- In a heap without a cycle every instance is accessible for the relation
"is a stacked child of": there is no infinite descent through child lists. -/
theorem acc_of_acyclic (heap : Heap) (hacyc : ∀ p, ¬ Relation.TransGen (child heap) p p) :
    ∀ p, Acc (fun c q => child heap q c) p := by
  have hleaf : ∀ p, heap.length ≤ p → Acc (fun c q => child heap q c) p := by
    intro p hp
    refine Acc.intro p ?_
    intro c hc
    exact absurd hc.1 (Nat.not_lt.mpr hp)
  let rF : Fin heap.length → Fin heap.length → Prop :=
    fun a b => Relation.TransGen (child heap) b.val a.val
  haveI : IsTrans (Fin heap.length) rF := ⟨fun a b c hab hbc => Relation.TransGen.trans hbc hab⟩
  haveI : IsIrrefl (Fin heap.length) rF := ⟨fun a h => hacyc a.val h⟩
  have hwf : WellFounded rF := Finite.wellFounded_of_trans_of_irrefl rF
  have hfin : ∀ a : Fin heap.length, Acc (fun c q => child heap q c) a.val := by
    intro a
    induction a using hwf.induction with
    | _ a ih =>
      refine Acc.intro a.val ?_
      intro c hc
      by_cases hlen : c < heap.length
      · exact ih ⟨c, hlen⟩ (Relation.TransGen.single hc)
      · exact hleaf c (Nat.le_of_not_lt hlen)
  intro p
  by_cases hp : p < heap.length
  · exact hfin ⟨p, hp⟩
  · exact hleaf p (Nat.le_of_not_lt hp)

theorem in_subtree_cons (heap : Heap) (q : Ptr) (l : List Ptr) (p : Ptr) :
    in_subtree heap (q :: l) p ↔
      Relation.ReflTransGen (child heap) q p ∨ in_subtree heap l p := by
  simp [in_subtree]

theorem in_subtree_of_children (heap : Heap) (q p : Ptr)
    (h : in_subtree heap (deref heap q).next_di p) :
    Relation.ReflTransGen (child heap) q p := by
  obtain ⟨c, hc, hcp⟩ := h
  have hq : q < heap.length := lt_of_children_ne_nil heap q (List.ne_nil_of_mem hc)
  exact Relation.ReflTransGen.head ⟨hq, hc⟩ hcp

theorem children_of_reach (heap : Heap) (q p : Ptr)
    (h : Relation.ReflTransGen (child heap) q p) :
    q = p ∨ in_subtree heap (deref heap q).next_di p := by
  rcases Relation.ReflTransGen.cases_head h with h | ⟨c, hc, hcp⟩
  · exact Or.inl h
  · exact Or.inr ⟨c, hc.2, hcp⟩

/-- The search loop over a list returns, for every sufficiently large bound,
once the loop over the child list of each member does; it returns an instance
of the subtrees with the wanted Python object, or nothing when there is
none. -/
theorem find_by_obj_loop_list (heap : Heap) (s : srd_session) (obj : Nat)
    (hvalid : session_is_valid (some s) = SRD_OK) :
    ∀ l : List Ptr,
      (∀ q ∈ l, ∃ n, ∀ f, n ≤ f → ∃ r,
        find_by_obj_loop heap obj (srd_sess_inst_find_by_obj heap (some s) obj f) none
          (deref heap q).next_di = some r ∧
        (∀ p, r = some p → (deref heap p).py_inst.addr = obj ∧
          in_subtree heap (deref heap q).next_di p) ∧
        (r = none → ∀ p, in_subtree heap (deref heap q).next_di p →
          (deref heap p).py_inst.addr ≠ obj)) →
      ∃ n, ∀ f, n ≤ f → ∃ r,
        find_by_obj_loop heap obj (srd_sess_inst_find_by_obj heap (some s) obj f) none l
          = some r ∧
        (∀ p, r = some p → (deref heap p).py_inst.addr = obj ∧ in_subtree heap l p) ∧
        (r = none → ∀ p, in_subtree heap l p → (deref heap p).py_inst.addr ≠ obj) := by
  intro l
  induction l with
  | nil =>
    intro _
    refine ⟨0, fun f _ => ⟨none, rfl, fun p hp => (by cases hp), fun _ p hp => ?_⟩⟩
    obtain ⟨q, hq, _⟩ := hp
    cases hq
  | cons q l ih =>
    intro hall
    obtain ⟨nq, hq⟩ := hall q (List.mem_cons_self _ _)
    obtain ⟨nl, hl⟩ := ih (fun q' hq' => hall q' (List.mem_cons_of_mem _ hq'))
    refine ⟨max (nq + 1) nl, ?_⟩
    intro F hF
    have hF1 : nq + 1 ≤ F := le_trans (le_max_left _ _) hF
    have hF2 : nl ≤ F := le_trans (le_max_right _ _) hF
    obtain ⟨r, hr, hr1, hr2⟩ := hl F hF2
    by_cases hobj : (deref heap q).py_inst.addr = obj
    · refine ⟨some q, ?_, ?_, fun h => by cases h⟩
      · simp only [find_by_obj_loop, hobj, if_true, find_by_obj_loop_some]
      · intro p hp
        cases hp
        exact ⟨hobj, (in_subtree_cons heap q l q).mpr (Or.inl Relation.ReflTransGen.refl)⟩
    · by_cases hch : (deref heap q).next_di = []
      · refine ⟨r, ?_, ?_, ?_⟩
        · simp only [find_by_obj_loop, hobj, if_false, hch, ne_eq, not_true_eq_false]
          exact hr
        · intro p hp
          exact ⟨(hr1 p hp).1, (in_subtree_cons heap q l p).mpr (Or.inr (hr1 p hp).2)⟩
        · intro hnone p hp
          rcases (in_subtree_cons heap q l p).mp hp with h | h
          · rcases children_of_reach heap q p h with h | ⟨c, hc, _⟩
            · exact h ▸ hobj
            · rw [hch] at hc
              cases hc
          · exact hr2 hnone p h
      · obtain ⟨f, rfl⟩ : ∃ f, F = f + 1 := ⟨F - 1, by omega⟩
        obtain ⟨r', hr', hr1', hr2'⟩ := hq f (by omega)
        have hrec : srd_sess_inst_find_by_obj heap (some s) obj (f + 1)
            (deref heap q).next_di = some r' := by
          simp only [srd_sess_inst_find_by_obj, hvalid, ne_eq, not_true_eq_false, if_false,
            hch, not_false_eq_true, if_true]
          exact hr'
        cases r' with
        | some p' =>
          refine ⟨some p', ?_, ?_, fun h => by cases h⟩
          · simp only [find_by_obj_loop, hobj, if_false, hch, ne_eq, not_false_eq_true, if_true,
              hrec, find_by_obj_loop_some]
          · intro p hp
            cases hp
            exact ⟨(hr1' p' rfl).1, (in_subtree_cons heap q l p').mpr
              (Or.inl (in_subtree_of_children heap q p' (hr1' p' rfl).2))⟩
        | none =>
          refine ⟨r, ?_, ?_, ?_⟩
          · simp only [find_by_obj_loop, hobj, if_false, hch, ne_eq, not_false_eq_true, if_true,
              hrec]
            exact hr
          · intro p hp
            exact ⟨(hr1 p hp).1, (in_subtree_cons heap q l p).mpr (Or.inr (hr1 p hp).2)⟩
          · intro hnone p hp
            rcases (in_subtree_cons heap q l p).mp hp with h | h
            · rcases children_of_reach heap q p h with h | h
              · exact h ▸ hobj
              · exact hr2' rfl p h
            · exact hr2 hnone p h

/-- The search loop over the child list of an accessible instance returns for
every sufficiently large bound. -/
theorem find_by_obj_loop_node (heap : Heap) (s : srd_session) (obj : Nat)
    (hvalid : session_is_valid (some s) = SRD_OK) (q : Ptr)
    (hacc : Acc (fun c p => child heap p c) q) :
    ∃ n, ∀ f, n ≤ f → ∃ r,
      find_by_obj_loop heap obj (srd_sess_inst_find_by_obj heap (some s) obj f) none
        (deref heap q).next_di = some r ∧
      (∀ p, r = some p → (deref heap p).py_inst.addr = obj ∧
        in_subtree heap (deref heap q).next_di p) ∧
      (r = none → ∀ p, in_subtree heap (deref heap q).next_di p →
        (deref heap p).py_inst.addr ≠ obj) := by
  induction hacc with
  | intro q _ ih =>
    apply find_by_obj_loop_list heap s obj hvalid
    intro c hc
    exact ih c ⟨lt_of_children_ne_nil heap q (List.ne_nil_of_mem hc), hc⟩

/-- C20: in a valid session whose instance graph has no cycle (as in every
finite forest), for every start list (the given list, or the roots of the
session when the given list is NULL) and every Python object,
`srd_sess_inst_find_by_obj` returns for every sufficiently large bound on the
recursion depth; it returns an instance of the searched list or of its
transitive stacked children whose Python object is the given one if there is
such an instance, and not-found otherwise. -/
theorem C20_find_by_obj (heap : Heap) (s : srd_session) (stack : List Ptr) (obj : Nat)
    (hvalid : session_is_valid (some s) = SRD_OK)
    (hacyc : ∀ p, ¬ Relation.TransGen (child heap) p p) :
    ∃ n, ∀ fuel, n ≤ fuel → ∃ r,
      srd_sess_inst_find_by_obj heap (some s) obj fuel stack = some r ∧
      ((∃ q, in_subtree heap (if stack ≠ [] then stack else s.di_list) q ∧
          (deref heap q).py_inst.addr = obj) →
        ∃ p, r = some p ∧ (deref heap p).py_inst.addr = obj ∧
          in_subtree heap (if stack ≠ [] then stack else s.di_list) p) ∧
      ((¬ ∃ q, in_subtree heap (if stack ≠ [] then stack else s.di_list) q ∧
          (deref heap q).py_inst.addr = obj) → r = none) := by
  obtain ⟨n, hn⟩ := find_by_obj_loop_list heap s obj hvalid
    (if stack ≠ [] then stack else s.di_list)
    (fun q _ => find_by_obj_loop_node heap s obj hvalid q (acc_of_acyclic heap hacyc q))
  refine ⟨n + 1, ?_⟩
  intro fuel hfuel
  obtain ⟨f, rfl⟩ : ∃ f, fuel = f + 1 := ⟨fuel - 1, by omega⟩
  obtain ⟨r, hr, hr1, hr2⟩ := hn f (by omega)
  refine ⟨r, ?_, ?_, ?_⟩
  · simp only [srd_sess_inst_find_by_obj, hvalid, ne_eq, not_true_eq_false, if_false]
    exact hr
  · rintro ⟨q, hq, hqobj⟩
    cases r with
    | none => exact absurd hqobj (hr2 rfl q hq)
    | some p => exact ⟨p, rfl, (hr1 p rfl).1, (hr1 p rfl).2⟩
  · intro hnone
    cases r with
    | none => rfl
    | some p => exact absurd ⟨p, (hr1 p rfl).2, (hr1 p rfl).1⟩ hnone

/-- C20, witness: a session whose single root has one stacked child; the
search from the roots with the Python object of the child returns an instance
carrying that object. -/
theorem C20_find_by_obj_witness :
    ∃ n, ∀ fuel, n ≤ fuel → ∃ r,
      srd_sess_inst_find_by_obj [{ uart_a with next_di := [1] }, uart_b] (some ⟨true, [0]⟩) 12
        fuel [] = some r ∧
      ∃ p, r = some p ∧ (deref [{ uart_a with next_di := [1] }, uart_b] p).py_inst.addr = 12 := by
  have hacyc : ∀ p, ¬ Relation.TransGen (child [{ uart_a with next_di := [1] }, uart_b]) p p := by
    apply acyclic_of_rank _ (fun p => if p = 0 then 1 else 0)
    intro p c hpc
    have hall : ∀ p, p < 2 → ∀ c ∈ (deref [{ uart_a with next_di := [1] }, uart_b] p).next_di,
        (if c = 0 then 1 else 0) < (if p = 0 then 1 else 0) := by decide
    exact hall p hpc.1 c hpc.2
  obtain ⟨n, hn⟩ := C20_find_by_obj [{ uart_a with next_di := [1] }, uart_b] ⟨true, [0]⟩ [] 12
    (by decide) hacyc
  refine ⟨n, fun fuel hfuel => ?_⟩
  obtain ⟨r, hr, hfound, _⟩ := hn fuel hfuel
  obtain ⟨p, hp, hobj, _⟩ := hfound ⟨1, ⟨0, by decide,
    Relation.ReflTransGen.single ⟨by decide, by decide⟩⟩, by decide⟩
  exact ⟨r, hr, p, hp, hobj⟩

/-- With a single session in the global list, `srd_inst_find_by_obj` is the
search in that session. -/
theorem srd_inst_find_by_obj_single (heap : Heap) (s : srd_session) (obj fuel : Nat)
    (stack : List Ptr) :
    srd_inst_find_by_obj heap [s] obj fuel stack =
      srd_sess_inst_find_by_obj heap (some s) obj fuel stack := by
  unfold srd_inst_find_by_obj
  simp only [find_by_obj_sessions]
  cases srd_sess_inst_find_by_obj heap (some s) obj fuel stack with
  | none => rfl
  | some r => cases r <;> rfl

/-! ## Order of the search by Python object -/

/-- The search loop returns the first instance with the wanted Python object
in the concatenated listings of the members, once the recursive call on the
child list of a member does so for the rest of the listing of that member. -/
theorem find_by_obj_loop_first (heap : Heap) (obj : Nat)
    (recurse : List Ptr → Option (Option Ptr)) (listing : Ptr → Option (List Ptr))
    (hrel : ∀ q a, listing q = some a → ∃ kids, a = q :: kids ∧
      ((deref heap q).next_di ≠ [] → recurse (deref heap q).next_di =
        some (kids.find? (fun p => decide ((deref heap p).py_inst.addr = obj)))) ∧
      ((deref heap q).next_di = [] → kids = [])) :
    ∀ (l : List Ptr) (order : List Ptr), preorder_loop listing l = some order →
      find_by_obj_loop heap obj recurse none l =
        some (order.find? (fun p => decide ((deref heap p).py_inst.addr = obj))) := by
  intro l
  induction l with
  | nil =>
    intro order h
    simp only [preorder_loop, Option.some.injEq] at h
    subst h
    rfl
  | cons q l ih =>
    intro order h
    unfold preorder_loop at h
    cases ha : listing q with
    | none => simp [ha] at h
    | some a =>
      cases hb : preorder_loop listing l with
      | none => simp [ha, hb] at h
      | some b =>
        simp only [ha, hb, Option.some.injEq] at h
        subst h
        obtain ⟨kids, rfl, hkids, hleaf⟩ := hrel q a ha
        have hrest := ih b hb
        by_cases hobj : (deref heap q).py_inst.addr = obj
        · simp [find_by_obj_loop, hobj, find_by_obj_loop_some]
        · by_cases hch : (deref heap q).next_di = []
          · rw [hleaf hch]
            simp only [find_by_obj_loop, hobj, if_false, hch, ne_eq, not_true_eq_false,
              List.cons_append, List.nil_append, List.find?_cons, decide_False]
            exact hrest
          · simp only [find_by_obj_loop, hobj, if_false, hch, ne_eq, not_false_eq_true, if_true,
              hkids hch, List.cons_append, List.find?_cons, decide_False, List.find?_append]
            cases hk : kids.find? (fun p => decide ((deref heap p).py_inst.addr = obj)) with
            | none => simpa using hrest
            | some c => simp [find_by_obj_loop_some]

/-- The search loop at recursion bound `fuel` over a list returns the first
instance with the wanted Python object in the pre-order listing of the
subtrees of the list. -/
theorem find_by_obj_preorder (heap : Heap) (s : srd_session) (obj : Nat)
    (hvalid : session_is_valid (some s) = SRD_OK) :
    ∀ (fuel : Nat) (l order : List Ptr),
      preorder_loop (preorder_node heap (fuel + 1)) l = some order →
      find_by_obj_loop heap obj (srd_sess_inst_find_by_obj heap (some s) obj fuel) none l =
        some (order.find? (fun p => decide ((deref heap p).py_inst.addr = obj))) := by
  intro fuel
  induction fuel with
  | zero =>
    apply find_by_obj_loop_first
    intro q a ha
    rw [preorder_node] at ha
    cases hk : preorder_loop (preorder_node heap 0) (deref heap q).next_di with
    | none => simp [hk] at ha
    | some kids =>
      simp only [hk, Option.some.injEq] at ha
      refine ⟨kids, ha.symm, ?_, ?_⟩
      · intro hne
        exfalso
        cases hc : (deref heap q).next_di with
        | nil => exact hne hc
        | cons c cs => simp [hc, preorder_loop, preorder_node] at hk
      · intro he
        rw [he] at hk
        simp only [preorder_loop, Option.some.injEq] at hk
        exact hk.symm
  | succ f ih =>
    apply find_by_obj_loop_first
    intro q a ha
    rw [preorder_node] at ha
    cases hk : preorder_loop (preorder_node heap (f + 1)) (deref heap q).next_di with
    | none => simp [hk] at ha
    | some kids =>
      simp only [hk, Option.some.injEq] at ha
      refine ⟨kids, ha.symm, ?_, ?_⟩
      · intro hne
        simp only [srd_sess_inst_find_by_obj, hvalid, ne_eq, not_true_eq_false, if_false, hne,
          not_false_eq_true, if_true]
        exact ih _ _ hk
      · intro he
        rw [he] at hk
        simp only [preorder_loop, Option.some.injEq] at hk
        exact hk.symm

theorem preorder_loop_exists (heap : Heap) :
    ∀ l : List Ptr,
      (∀ q ∈ l, ∃ n, ∀ f, n ≤ f → ∃ a, preorder_node heap f q = some a) →
      ∃ n, ∀ f, n ≤ f → ∃ order, preorder_loop (preorder_node heap f) l = some order := by
  intro l
  induction l with
  | nil => intro _; exact ⟨0, fun f _ => ⟨[], rfl⟩⟩
  | cons q l ih =>
    intro hall
    obtain ⟨nq, hq⟩ := hall q (List.mem_cons_self _ _)
    obtain ⟨nl, hl⟩ := ih (fun q' hq' => hall q' (List.mem_cons_of_mem _ hq'))
    refine ⟨max nq nl, fun f hf => ?_⟩
    obtain ⟨a, ha⟩ := hq f (le_trans (le_max_left _ _) hf)
    obtain ⟨b, hb⟩ := hl f (le_trans (le_max_right _ _) hf)
    exact ⟨a ++ b, by simp [preorder_loop, ha, hb]⟩

/-- The subtree of an accessible instance has a pre-order listing for every
sufficiently large bound. -/
theorem preorder_node_exists (heap : Heap) (p : Ptr)
    (hacc : Acc (fun c q => child heap q c) p) :
    ∃ n, ∀ f, n ≤ f → ∃ a, preorder_node heap f p = some a := by
  induction hacc with
  | intro p _ ih =>
    obtain ⟨n, hn⟩ := preorder_loop_exists heap (deref heap p).next_di
      (fun c hc => ih c ⟨lt_of_children_ne_nil heap p (List.ne_nil_of_mem hc), hc⟩)
    refine ⟨n + 1, fun f hf => ?_⟩
    obtain ⟨g, rfl⟩ : ∃ g, f = g + 1 := ⟨f - 1, by omega⟩
    obtain ⟨kids, hk⟩ := hn g (by omega)
    exact ⟨p :: kids, by rw [preorder_node, hk]⟩

/-- C21, as stated, fails: the searched list holds the instances 0 and 1,
instance 2 is the stacked child of instance 0, and instances 1 and 2 carry the
same Python object. The search for that object returns the stacked child 2 of
the earlier instance, not the instance 1 of the searched list. -/
theorem C21_counterexample :
    (deref [{ uart_a with next_di := [2] }, uart_b, uart_shared] 1).py_inst.addr = 12 ∧
    (deref [{ uart_a with next_di := [2] }, uart_b, uart_shared] 2).py_inst.addr = 12 ∧
    (deref [{ uart_a with next_di := [2] }, uart_b, uart_shared] 0).next_di = [2] ∧
    srd_sess_inst_find_by_obj [{ uart_a with next_di := [2] }, uart_b, uart_shared]
      (some two_roots) 12 2 [0, 1] = some (some 2) ∧
    srd_sess_inst_find_by_obj [{ uart_a with next_di := [2] }, uart_b, uart_shared]
      (some two_roots) 12 2 [0, 1] ≠ some (some 1) := by
  decide

/-- C21, amended: the search visits the instances in pre-order (an
instance, then the subtrees of its stacked children, then its next sibling)
and the first match wins: for a valid session whose child relation has no
cycle and every sufficiently large bound on the recursion depth, the subtrees
of the searched list (the given list, or the roots when it is NULL) have a
pre-order listing, and `srd_sess_inst_find_by_obj` returns the first instance
of that listing that carries the wanted Python object, and not-found when
none does. So a stacked child of an earlier instance wins over a later
instance of the searched list. -/
theorem C21_find_by_obj_preorder (heap : Heap) (s : srd_session) (obj : Nat)
    (stack : List Ptr)
    (hvalid : session_is_valid (some s) = SRD_OK)
    (hacyc : ∀ p, ¬ Relation.TransGen (child heap) p p) :
    ∃ n, ∀ fuel, n ≤ fuel → ∃ order,
      preorder_loop (preorder_node heap fuel) (if stack ≠ [] then stack else s.di_list) =
        some order ∧
      srd_sess_inst_find_by_obj heap (some s) obj fuel stack =
        some (order.find? (fun p => decide ((deref heap p).py_inst.addr = obj))) := by
  obtain ⟨n, hn⟩ := preorder_loop_exists heap (if stack ≠ [] then stack else s.di_list)
    (fun q _ => preorder_node_exists heap q (acc_of_acyclic heap hacyc q))
  refine ⟨n + 1, fun fuel hfuel => ?_⟩
  obtain ⟨f, rfl⟩ : ∃ f, fuel = f + 1 := ⟨fuel - 1, by omega⟩
  obtain ⟨order, horder⟩ := hn (f + 1) (by omega)
  refine ⟨order, horder, ?_⟩
  simp only [srd_sess_inst_find_by_obj, hvalid, ne_eq, not_true_eq_false, if_false]
  exact find_by_obj_preorder heap s obj hvalid f _ order horder

/-- C21, amended, witness: in the heap of the counterexample the pre-order
listing of the searched list [0, 1] is [0, 2, 1], and the search returns 2. -/
theorem C21_find_by_obj_preorder_witness :
    preorder_loop (preorder_node [{ uart_a with next_di := [2] }, uart_b, uart_shared] 2)
      [0, 1] = some [0, 2, 1] ∧
    session_is_valid (some two_roots) = SRD_OK ∧
    ∃ n, ∀ fuel, n ≤ fuel → ∃ order,
      preorder_loop (preorder_node [{ uart_a with next_di := [2] }, uart_b, uart_shared] fuel)
        [0, 1] = some order ∧
      srd_sess_inst_find_by_obj [{ uart_a with next_di := [2] }, uart_b, uart_shared]
        (some two_roots) 12 fuel [0, 1] =
        some (order.find? (fun p => decide
          ((deref [{ uart_a with next_di := [2] }, uart_b, uart_shared] p).py_inst.addr = 12))) := by
  have hacyc : ∀ p, ¬ Relation.TransGen
      (child [{ uart_a with next_di := [2] }, uart_b, uart_shared]) p p := by
    apply acyclic_of_rank _ (fun p => if p = 0 then 1 else 0)
    intro p c hpc
    have hall : ∀ p, p < 3 →
        ∀ c ∈ (deref [{ uart_a with next_di := [2] }, uart_b, uart_shared] p).next_di,
        (if c = 0 then 1 else 0) < (if p = 0 then 1 else 0) := by decide
    exact hall p hpc.1 c hpc.2
  exact ⟨by decide, by decide,
    C21_find_by_obj_preorder [{ uart_a with next_di := [2] }, uart_b, uart_shared] two_roots 12
      [0, 1] (by decide) hacyc⟩

/-! ## Starting a stack of instances -/

theorem hooks_invoked_append_all (hook : Ptr → Bool) (a b : List Ptr)
    (h : a.all hook = true) : hooks_invoked hook (a ++ b) = a ++ hooks_invoked hook b := by
  induction a with
  | nil => rfl
  | cons p a ih =>
    simp only [List.all_cons, Bool.and_eq_true] at h
    simp [hooks_invoked, h.1, ih h.2]

theorem hooks_invoked_append_fail (hook : Ptr → Bool) (a b : List Ptr)
    (h : a.all hook = false) : hooks_invoked hook (a ++ b) = hooks_invoked hook a := by
  induction a with
  | nil => simp at h
  | cons p a ih =>
    by_cases hp : hook p = true
    · have ha : a.all hook = false := by
        simpa [List.all_cons, hp] using h
      simp [hooks_invoked, hp, ih ha]
    · simp [hooks_invoked, hp]

/-- The loop over the stacked instances invokes the hooks along the
concatenated listings of the members up to the first failure, once the
recursive call does so for each member. -/
theorem start_loop_preorder (hook : Ptr → Bool)
    (recurse : Ptr → List Ptr → Option (Int × List Ptr)) (listing : Ptr → Option (List Ptr))
    (hrel : ∀ q a started, listing q = some a →
      recurse q started = some (if a.all hook then SRD_OK else SRD_ERR_PYTHON,
        started ++ hooks_invoked hook a)) :
    ∀ (l order started : List Ptr), preorder_loop listing l = some order →
      start_loop recurse l started = some (if order.all hook then SRD_OK else SRD_ERR_PYTHON,
        started ++ hooks_invoked hook order) := by
  intro l
  induction l with
  | nil =>
    intro order started h
    simp only [preorder_loop, Option.some.injEq] at h
    subst h
    simp [start_loop, hooks_invoked]
  | cons q l ih =>
    intro order started h
    unfold preorder_loop at h
    cases ha : listing q with
    | none => simp [ha] at h
    | some a =>
      cases hb : preorder_loop listing l with
      | none => simp [ha, hb] at h
      | some b =>
        simp only [ha, hb, Option.some.injEq] at h
        subst h
        unfold start_loop
        rw [hrel q a started ha]
        by_cases hall : a.all hook = true
        · have hne : ¬ (SRD_OK ≠ SRD_OK) := fun h => h rfl
          simp only [hall, if_true, hne, if_false]
          rw [ih b (started ++ hooks_invoked hook a) hb, hooks_invoked_append_all hook a b hall]
          have ha0 := hooks_invoked_append_all hook a [] hall
          simp only [List.append_nil, hooks_invoked] at ha0
          rw [ha0, List.all_append, hall, Bool.true_and, List.append_assoc]
        · have hall' : a.all hook = false := by simpa using hall
          have hne : SRD_ERR_PYTHON ≠ SRD_OK := by decide
          simp only [hall', Bool.false_eq_true, if_false, hne, ne_eq, not_false_eq_true, if_true]
          rw [hooks_invoked_append_fail hook a b hall', List.all_append, hall',
            Bool.false_and]
          simp

/-- The function `srd_inst_start` on an instance whose subtree has a
pre-order listing within the recursion bound: the hooks invoked are that
listing up to and including the first failure, and the status is SRD_OK when
no hook of the listing fails and SRD_ERR_PYTHON otherwise. -/
theorem start_preorder (heap : Heap) (hook : Ptr → Bool) :
    ∀ (fuel : Nat) (di : Ptr) (started order : List Ptr),
      preorder_node heap fuel di = some order →
      srd_inst_start heap hook fuel di started =
        some (if order.all hook then SRD_OK else SRD_ERR_PYTHON,
          started ++ hooks_invoked hook order) := by
  intro fuel
  induction fuel with
  | zero => intro di started order h; simp [preorder_node] at h
  | succ f ih =>
    intro di started order h
    rw [preorder_node] at h
    cases hk : preorder_loop (preorder_node heap f) (deref heap di).next_di with
    | none => simp [hk] at h
    | some kids =>
      simp only [hk, Option.some.injEq] at h
      subst h
      rw [srd_inst_start]
      by_cases hd : hook di = true
      · simp only [hd, Bool.not_true, Bool.false_eq_true, if_false]
        rw [start_loop_preorder hook (srd_inst_start heap hook f) (preorder_node heap f)
          (fun q a st hq => ih q st a hq) _ kids _ hk]
        simp [hooks_invoked, hd, List.all_cons]
      · simp [hooks_invoked, hd, List.all_cons]

theorem hooks_invoked_fail (hook : Ptr → Bool) (l : List Ptr) :
    (∃ p ∈ hooks_invoked hook l, hook p = false) ↔ l.all hook = false := by
  induction l with
  | nil => simp [hooks_invoked]
  | cons q l ih =>
    by_cases hq : hook q = true
    · simp only [hooks_invoked, hq, if_true, List.all_cons, Bool.true_and, ← ih,
        List.mem_cons, exists_eq_or_imp]
      simp [hq]
    · simp [hooks_invoked, hq]

/-- C22: for an instance whose stacked subtree is finite (the instance graph
has no cycle) and every assignment of start-hook outcomes, `srd_inst_start`
returns for every sufficiently large bound on the recursion depth; the hooks
it invokes are the pre-order listing of the subtree (the instance, then the
subtree of each child in child-list order) up to and including the first
hook that fails; it returns SRD_ERR_PYTHON when some invoked hook failed and
SRD_OK exactly when every instance of the subtree was started successfully.
In particular, when the hook of the instance itself fails nothing else is
started. -/
theorem C22_start (heap : Heap) (start_hook : Ptr → Bool) (di : Ptr) (started : List Ptr)
    (hacyc : ∀ p, ¬ Relation.TransGen (child heap) p p) :
    ∃ n, ∀ fuel, n ≤ fuel → ∃ order rest ret invoked,
      preorder_node heap fuel di = some order ∧ order = di :: rest ∧
      srd_inst_start heap start_hook fuel di started = some (ret, started ++ invoked) ∧
      invoked = hooks_invoked start_hook order ∧
      (ret = SRD_OK ↔ ∀ p ∈ order, start_hook p = true) ∧
      (ret = SRD_ERR_PYTHON ↔ ∃ p ∈ invoked, start_hook p = false) ∧
      (ret = SRD_OK → invoked = order) ∧
      (start_hook di = false → invoked = [di]) := by
  obtain ⟨n, hn⟩ := preorder_node_exists heap di (acc_of_acyclic heap hacyc di)
  refine ⟨n, fun fuel hfuel => ?_⟩
  obtain ⟨order, horder⟩ := hn fuel hfuel
  have hhead : ∃ rest, order = di :: rest := by
    cases fuel with
    | zero => simp [preorder_node] at horder
    | succ f =>
      rw [preorder_node] at horder
      cases hk : preorder_loop (preorder_node heap f) (deref heap di).next_di with
      | none => simp [hk] at horder
      | some kids =>
        simp only [hk, Option.some.injEq] at horder
        exact ⟨kids, horder.symm⟩
  obtain ⟨rest, hrest⟩ := hhead
  refine ⟨order, rest, if order.all start_hook then SRD_OK else SRD_ERR_PYTHON,
    hooks_invoked start_hook order, horder, hrest,
    start_preorder heap start_hook fuel di started order horder, rfl, ?_, ?_, ?_, ?_⟩
  · by_cases hall : order.all start_hook = true
    · simp only [hall, if_true, true_iff]
      exact List.all_eq_true.mp hall
    · simp only [hall, Bool.false_eq_true, if_false]
      constructor
      · intro h
        exact absurd h (by decide)
      · intro h
        exact absurd (List.all_eq_true.mpr h) hall
  · rw [hooks_invoked_fail]
    by_cases hall : order.all start_hook = true
    · simp only [hall, if_true]
      constructor
      · intro h
        exact absurd h (by decide)
      · intro h
        cases h
    · have hall' : order.all start_hook = false := by simpa using hall
      simp [hall']
  · intro hret
    by_cases hall : order.all start_hook = true
    · have := hooks_invoked_append_all start_hook order [] hall
      simpa [hooks_invoked] using this
    · simp only [hall, Bool.false_eq_true, if_false] at hret
      exact absurd hret (by decide)
  · intro hd
    rw [hrest]
    simp [hooks_invoked, hd]

/-- C22, witness: instance 0 with the stacked children 1 and 2, where the
hook of child 1 fails: the hooks of 0 and 1 are invoked, the later sibling 2
is not started, and the status is SRD_ERR_PYTHON. -/
theorem C22_start_witness :
    srd_inst_start [{ uart_a with next_di := [1, 2] }, uart_b, uart_shared]
      (fun p => p != 1) 2 0 [] = some (SRD_ERR_PYTHON, [0, 1]) ∧
    ∃ n, ∀ fuel, n ≤ fuel → ∃ ret invoked,
      srd_inst_start [{ uart_a with next_di := [1, 2] }, uart_b, uart_shared]
        (fun p => p != 1) fuel 0 [] = some (ret, [] ++ invoked) ∧
      (ret = SRD_ERR_PYTHON ↔ ∃ p ∈ invoked, (fun p => p != 1) p = false) := by
  have hacyc : ∀ p, ¬ Relation.TransGen
      (child [{ uart_a with next_di := [1, 2] }, uart_b, uart_shared]) p p := by
    apply acyclic_of_rank _ (fun p => if p = 0 then 1 else 0)
    intro p c hpc
    have hall : ∀ p, p < 3 →
        ∀ c ∈ (deref [{ uart_a with next_di := [1, 2] }, uart_b, uart_shared] p).next_di,
        (if c = 0 then 1 else 0) < (if p = 0 then 1 else 0) := by decide
    exact hall p hpc.1 c hpc.2
  obtain ⟨n, hn⟩ := C22_start [{ uart_a with next_di := [1, 2] }, uart_b, uart_shared]
    (fun p => p != 1) 0 [] hacyc
  refine ⟨by decide, n, fun fuel hfuel => ?_⟩
  obtain ⟨_, _, ret, invoked, _, _, hrun, _, _, herr, _, _⟩ := hn fuel hfuel
  exact ⟨ret, invoked, hrun, herr⟩

/-! ## Decoding -/

/-- C23: called with a null buffer or with buffer length 0, `srd_inst_decode`
returns SRD_ERR_ARG without calling the decode method, and the heap (so the
state of every instance) is what it was. -/
theorem C23_decode_invalid (heap : Heap) (decode_hook : DecodeCall → Heap → Bool × Heap)
    (calls : List DecodeCall) (di : Option Ptr) (start_samplenum end_samplenum : Nat)
    (inbuf : Option (List Nat)) (inbuflen : Nat)
    (h : inbuf = none ∨ inbuflen = 0) :
    srd_inst_decode heap decode_hook calls di start_samplenum end_samplenum inbuf inbuflen =
      (SRD_ERR_ARG, heap, calls) := by
  unfold srd_inst_decode
  cases di with
  | none => rfl
  | some d =>
    cases inbuf with
    | none => rfl
    | some buf =>
      rcases h with h | h
      · cases h
      · simp [h]

/-- C23, witness: a zero-length buffer for a uart instance. -/
theorem C23_decode_invalid_witness :
    srd_inst_decode [uart_a] (fun _ h => (true, h)) [] (some 0) 0 0 (some []) 0 =
      (SRD_ERR_ARG, [uart_a], []) :=
  C23_decode_invalid [uart_a] (fun _ h => (true, h)) [] (some 0) 0 0 (some []) 0 (Or.inr rfl)

/-- C28: for an instance and a non-null buffer of length > 0,
`srd_inst_decode` calls the decode method exactly once, on the Python object
of that instance, with the given start and end sample numbers and a cursor
bound to the instance, the start sample number, the buffer and its length,
with iteration count 0; it calls no method of any stacked child (whatever the
child list holds); and it returns SRD_OK when the call succeeds and
SRD_ERR_PYTHON when it fails. -/
theorem C28_decode (heap : Heap) (decode_hook : DecodeCall → Heap → Bool × Heap)
    (calls : List DecodeCall) (di : Ptr) (start_samplenum end_samplenum : Nat)
    (buf : List Nat) (inbuflen : Nat) (hlen : 0 < inbuflen) :
    ∃ call : DecodeCall,
      call.py_inst = (deref heap di).py_inst.addr ∧
      call.start_samplenum = start_samplenum ∧ call.end_samplenum = end_samplenum ∧
      call.logic.di = di ∧ call.logic.start_samplenum = start_samplenum ∧
      call.logic.itercnt = 0 ∧ call.logic.inbuf = buf ∧ call.logic.inbuflen = inbuflen ∧
      srd_inst_decode heap decode_hook calls (some di) start_samplenum end_samplenum (some buf)
        inbuflen =
        (if (decode_hook call heap).1 then SRD_OK else SRD_ERR_PYTHON,
          (decode_hook call heap).2, calls ++ [call]) := by
  refine ⟨{ py_inst := (deref heap di).py_inst.addr, start_samplenum := start_samplenum,
            end_samplenum := end_samplenum,
            logic := { di := di, start_samplenum := start_samplenum, itercnt := 0,
                       inbuf := buf, inbuflen := inbuflen, sample := [none, none] } },
    rfl, rfl, rfl, rfl, rfl, rfl, rfl, rfl, ?_⟩
  have hne : inbuflen ≠ 0 := Nat.pos_iff_ne_zero.mp hlen
  simp only [srd_inst_decode, hne, if_false]
  split <;> simp_all

/-- C28, witness: a uart instance with a stacked child and a buffer of two
bytes; one call, on the Python object 11 of the instance itself. -/
theorem C28_decode_witness :
    ∃ call : DecodeCall, call.py_inst = 11 ∧ call.logic.itercnt = 0 ∧
      srd_inst_decode [{ uart_a with next_di := [1] }, uart_b] (fun _ h => (false, h)) []
        (some 0) 5 7 (some [170, 85]) 2 =
      (SRD_ERR_PYTHON, [{ uart_a with next_di := [1] }, uart_b], [call]) := by
  obtain ⟨call, h1, _, _, _, _, h6, _, _, hrun⟩ :=
    C28_decode [{ uart_a with next_di := [1] }, uart_b] (fun _ h => (false, h)) [] 0 5 7
      [170, 85] 2 (by decide)
  exact ⟨call, h1, h6, hrun⟩

/-! ## Teardown of a whole session -/

/-- Inside the cycle of `cyclic_heap` the recursion of `srd_inst_free_all`
reaches every bound. -/
theorem free_all_cycle_none (st : FreeState) (hst : st.sess = some one_root) :
    ∀ fuel, srd_inst_free_all cyclic_heap fuel st [1] = none := by
  intro fuel
  induction fuel with
  | zero => rfl
  | succ f ih =>
    have hk : (deref cyclic_heap 1).next_di = [1] := rfl
    simp [srd_inst_free_all, hst, session_is_valid, one_root, free_all_loop, hk]
    simp [one_root] at hst
    simp [ih]

/-- The loop of `srd_inst_free_all` over a non-empty list whose head is
accessible returns for every sufficiently large bound on the recursion depth,
and the session is what it was. -/
theorem free_all_loop_head (heap : Heap) (s : srd_session)
    (hvalid : session_is_valid (some s) = SRD_OK) (q : Ptr)
    (hacc : Acc (fun c p => child heap p c) q) :
    ∃ n, ∀ f, n ≤ f → ∀ st : FreeState, st.sess = some s → ∀ rest : List Ptr,
      ∃ st1, free_all_loop heap (srd_inst_free_all heap f) none (q :: rest) st = some st1 ∧
        st1.sess = some s := by
  induction hacc with
  | intro q _ ih =>
    cases hk : (deref heap q).next_di with
    | nil =>
      refine ⟨0, fun f _ st hst rest => ?_⟩
      exact ⟨{ st with freed := srd_inst_free st.freed q }, by simp [free_all_loop, hk], hst⟩
    | cons c kids =>
      have hc : child heap q c :=
        ⟨lt_of_children_ne_nil heap q (by rw [hk]; exact List.cons_ne_nil _ _),
          by rw [hk]; exact List.mem_cons_self _ _⟩
      obtain ⟨n, hn⟩ := ih c hc
      refine ⟨n + 1, fun f hf st hst rest => ?_⟩
      obtain ⟨g, rfl⟩ : ∃ g, f = g + 1 := ⟨f - 1, by omega⟩
      obtain ⟨st1, hst1, hsess1⟩ := hn g (by omega) st hst kids
      have hrec : srd_inst_free_all heap (g + 1) st (c :: kids) = some st1 := by
        have hv : session_is_valid st.sess = SRD_OK := by rw [hst]; exact hvalid
        simp only [srd_inst_free_all, hv, ne_eq, not_true_eq_false, if_false, hst,
          List.cons_ne_nil, not_false_eq_true, if_true, hst1]
        simp [hvalid]
      refine ⟨{ st1 with freed := srd_inst_free st1.freed q }, ?_, hsess1⟩
      simp [free_all_loop, hk, hrec]

/-- C24 (as stated, refuted): the session with the single root 0 reached by
stacking instance 1 on instance 0 and then on itself is valid, and
`srd_inst_free_all(sess, NULL)` returns for no bound on the recursion depth:
the recursion through the child list of instance 1 never ends, so the root
list is never cleared. -/
theorem C24_counterexample :
    srd_inst_stack [uart_a, uart_b] (some two_roots) (some 0) (some 1) =
      (SRD_OK, [{ uart_a with next_di := [1] }, uart_b], some one_root) ∧
    srd_inst_stack [{ uart_a with next_di := [1] }, uart_b] (some one_root) (some 1) (some 1) =
      (SRD_OK, cyclic_heap, some one_root) ∧
    session_is_valid (some one_root) = SRD_OK ∧
    ¬ ∃ fuel st1, srd_inst_free_all cyclic_heap fuel ⟨some one_root, []⟩ [] = some st1 := by
  refine ⟨by decide, by decide, by decide, ?_⟩
  rintro ⟨fuel, st1, h⟩
  cases fuel with
  | zero => simp [srd_inst_free_all] at h
  | succ f =>
    have hk : (deref cyclic_heap 0).next_di = [1] := rfl
    have hnone := free_all_cycle_none ⟨some one_root, []⟩ rfl f
    simp [srd_inst_free_all, session_is_valid, one_root, free_all_loop, hk] at h
    simp [one_root] at hnone
    simp [hnone] at h

/-- C24 (amended): for a valid session whose child relation has no cycle,
`srd_inst_free_all` returns for every sufficiently large bound on the
recursion depth; with a NULL list the root list of the session is empty
afterwards (and nothing else of the session changes), with a non-null list
the session is what it was. -/
theorem C24_free_all_roots (heap : Heap) (s : srd_session) (freed stack : List Ptr)
    (hvalid : session_is_valid (some s) = SRD_OK)
    (hacyc : ∀ p, ¬ Relation.TransGen (child heap) p p) :
    ∃ n, ∀ fuel, n ≤ fuel → ∃ st1,
      srd_inst_free_all heap fuel ⟨some s, freed⟩ stack = some st1 ∧
      (stack = [] → st1.sess = some { s with di_list := [] }) ∧
      (stack ≠ [] → st1.sess = some s) := by
  have hloop : ∀ l : List Ptr, ∃ n, ∀ f, n ≤ f → ∃ st1,
      free_all_loop heap (srd_inst_free_all heap f) none l ⟨some s, freed⟩ = some st1 ∧
        st1.sess = some s := by
    intro l
    cases l with
    | nil => exact ⟨0, fun f _ => ⟨⟨some s, freed⟩, rfl, rfl⟩⟩
    | cons q rest =>
      obtain ⟨n, hn⟩ := free_all_loop_head heap s hvalid q (acc_of_acyclic heap hacyc q)
      exact ⟨n, fun f hf => hn f hf ⟨some s, freed⟩ rfl rest⟩
  obtain ⟨n, hn⟩ := hloop (if stack ≠ [] then stack else s.di_list)
  refine ⟨n + 1, fun fuel hfuel => ?_⟩
  obtain ⟨f, rfl⟩ : ∃ f, fuel = f + 1 := ⟨fuel - 1, by omega⟩
  obtain ⟨st1, hst1, hsess1⟩ := hn f (by omega)
  simp only [srd_inst_free_all, hvalid, ne_eq, not_true_eq_false, if_false]
  simp only [ne_eq] at hst1
  rw [hst1]
  by_cases hs : stack = []
  · refine ⟨{ st1 with sess := st1.sess.map (fun s1 => { s1 with di_list := [] }) }, ?_, ?_, ?_⟩
    · simp [hs]
    · intro _
      simp [hsess1]
    · intro h
      exact absurd hs h
  · refine ⟨st1, by simp [hs], fun h => absurd h hs, fun _ => hsess1⟩

/-- C24, witness: two uart roots without children; the call with a NULL list
clears the root list. -/
theorem C24_free_all_roots_witness :
    session_is_valid (some two_roots) = SRD_OK ∧
    ∃ n, ∀ fuel, n ≤ fuel → ∃ st1,
      srd_inst_free_all [uart_a, uart_b] fuel ⟨some two_roots, []⟩ [] = some st1 ∧
      st1.sess = some { two_roots with di_list := [] } := by
  have hacyc : ∀ p, ¬ Relation.TransGen (child [uart_a, uart_b]) p p := by
    apply acyclic_of_rank _ (fun _ => 0)
    intro p c hpc
    have hall : ∀ p, p < 2 → ∀ c ∈ (deref [uart_a, uart_b] p).next_di, (0 : Nat) < 0 := by
      decide
    exact hall p hpc.1 c hpc.2
  obtain ⟨n, hn⟩ := C24_free_all_roots [uart_a, uart_b] two_roots [] [] (by decide) hacyc
  refine ⟨by decide, n, fun fuel hfuel => ?_⟩
  obtain ⟨st1, hrun, hnull, _⟩ := hn fuel hfuel
  exact ⟨st1, hrun, hnull rfl⟩

/-! ## Stacking twice -/

/-- C25 (as stated, refuted): two uart roots 0 and 1. After
`srd_inst_stack(sess, 0, 1)` the child list of instance 0 is `[1]`; after a
second `srd_inst_stack(sess, 0, 1)` it is `[1, 1]`: the root list is the same,
the child list is not. -/
theorem C25_counterexample :
    srd_inst_stack [uart_a, uart_b] (some two_roots) (some 0) (some 1) =
      (SRD_OK, [{ uart_a with next_di := [1] }, uart_b], some one_root) ∧
    srd_inst_stack [{ uart_a with next_di := [1] }, uart_b] (some one_root) (some 0) (some 1) =
      (SRD_OK, [{ uart_a with next_di := [1, 1] }, uart_b], some one_root) ∧
    (deref [{ uart_a with next_di := [1, 1] }, uart_b] 0).next_di ≠
      (deref [{ uart_a with next_di := [1] }, uart_b] 0).next_di := by
  refine ⟨by decide, by decide, by decide⟩

/-- C25 (amended): for a valid session with pairwise distinct roots and an
allocated instance `from`, a second `srd_inst_stack(sess, from, to)` after a
first one returns SRD_OK and leaves the session (so the root list) as the
first call left it, but appends `to` to the child list of `from` once more:
the child list is the old one followed by `to` twice. Nothing else of `from`
and no other instance changes in the second call. -/
theorem C25_stack_twice (heap : Heap) (s : srd_session) (f t : Ptr)
    (hvalid : session_is_valid (some s) = SRD_OK) (hf : f < heap.length)
    (hnodup : s.di_list.Nodup) :
    ∃ heap1 s1 heap2,
      srd_inst_stack heap (some s) (some f) (some t) = (SRD_OK, heap1, some s1) ∧
      srd_inst_stack heap1 (some s1) (some f) (some t) = (SRD_OK, heap2, some s1) ∧
      (deref heap1 f).next_di = (deref heap f).next_di ++ [t] ∧
      (deref heap2 f).next_di = (deref heap f).next_di ++ [t, t] ∧
      deref heap2 f = { deref heap1 f with next_di := (deref heap1 f).next_di ++ [t] } ∧
      ∀ q, q ≠ f → deref heap2 q = deref heap1 q := by
  have hlive : s.live = true := by
    simp only [session_is_valid] at hvalid
    by_contra h
    simp [h] at hvalid
    revert hvalid
    decide
  have hf1 : f < (heap.set f
      { deref heap f with next_di := g_slist_append (deref heap f).next_di t }).length := by
    simpa using hf
  have hnot : t ∉ (if g_slist_find s.di_list t then g_slist_remove s.di_list t
      else s.di_list) := by
    by_cases ht : t ∈ s.di_list
    · have hc : g_slist_find s.di_list t = true := by simpa [g_slist_find] using ht
      rw [hc, if_pos rfl, g_slist_remove]
      exact fun h => ((List.Nodup.mem_erase_iff hnodup).mp h).1 rfl
    · simp [g_slist_find, ht]
  refine ⟨heap.set f { deref heap f with next_di := g_slist_append (deref heap f).next_di t },
    { s with di_list := if g_slist_find s.di_list t then g_slist_remove s.di_list t
        else s.di_list },
    (heap.set f { deref heap f with next_di := g_slist_append (deref heap f).next_di t }).set f
      { deref (heap.set f
          { deref heap f with next_di := g_slist_append (deref heap f).next_di t }) f with
        next_di := g_slist_append (deref (heap.set f
          { deref heap f with next_di := g_slist_append (deref heap f).next_di t }) f).next_di
          t }, ?_, ?_, ?_, ?_, ?_, ?_⟩
  · simp [srd_inst_stack, hvalid]
  · have hfind : g_slist_find (if g_slist_find s.di_list t then g_slist_remove s.di_list t
        else s.di_list) t = false := by
      simpa [g_slist_find] using hnot
    simp only [srd_inst_stack, session_is_valid, hlive, if_true, ne_eq, not_true_eq_false,
      if_false, hfind, Bool.false_eq_true]
  · rw [deref_set_self heap f _ hf]
    rfl
  · rw [deref_set_self _ f _ hf1, deref_set_self heap f _ hf]
    simp [g_slist_append]
  · rw [deref_set_self _ f _ hf1]
    rfl
  · intro q hq
    exact deref_set_ne _ f q _ hq

/-- C25, witness: the two uart roots; the second call leaves the session with
the single root 0 and makes the child list of instance 0 `[1, 1]`. -/
theorem C25_stack_twice_witness :
    ∃ heap1 s1 heap2,
      srd_inst_stack [uart_a, uart_b] (some two_roots) (some 0) (some 1) =
        (SRD_OK, heap1, some s1) ∧
      srd_inst_stack heap1 (some s1) (some 0) (some 1) = (SRD_OK, heap2, some s1) ∧
      (deref heap2 0).next_di = (deref [uart_a, uart_b] 0).next_di ++ [1, 1] := by
  obtain ⟨heap1, s1, heap2, h1, h2, _, h4, _, _⟩ :=
    C25_stack_twice [uart_a, uart_b] two_roots 0 1 (by decide) (by decide) (by decide)
  exact ⟨heap1, s1, heap2, h1, h2, h4⟩

/-! ## Instance ids of the roots -/

/-- A successful `srd_inst_new` appends the new address to the root list and
an instance with the chosen id to the heap. -/
theorem srd_inst_new_root (pd_list : List srd_decoder) (env : NewEnv) (heap : Heap)
    (s : srd_session) (decoder_id : String) (options : Option InstOptions)
    {p : Ptr} {heap' : Heap} {s' : srd_session} {o' : Option InstOptions}
    (h : srd_inst_new pd_list env heap (some s) decoder_id options =
      (some p, heap', some s', o')) :
    ∃ di, di.inst_id = new_inst_id decoder_id options ∧ heap' = heap ++ [di] ∧
      s' = { s with di_list := s.di_list ++ [heap.length] } := by
  obtain ⟨dec, py_addr, d, _, _, _, hheap, _, _⟩ :=
    srd_inst_new_some pd_list env heap (some s) decoder_id options h
  refine ⟨_, ?_, hheap, ?_⟩
  · rfl
  · rcases srd_inst_new_cases pd_list env heap (some s) decoder_id options with
      ⟨s0, di, o2, hs0, _, h2⟩ | ⟨o2, h2⟩
    · rw [h2] at h
      simp only [Prod.mk.injEq, Option.some.injEq] at h
      cases hs0
      exact h.2.2.1.symm
    · rw [h2] at h
      simp at h

/-- C26 (as stated, refuted): two successful calls `srd_inst_new(sess, "uart",
NULL)` on the empty session give the two roots 0 and 1, both with the
instance id "uart". -/
theorem C26_counterexample :
    NewReachable [uart] any_new [uart_a, uart_b] two_roots ∧
    root_ids [uart_a, uart_b] two_roots = ["uart", "uart"] ∧
    ¬ (root_ids [uart_a, uart_b] two_roots).Nodup := by
  refine ⟨?_, by decide, by decide⟩
  have h1 : srd_inst_new [uart] ⟨true, true, true, some 11⟩ [] (some ⟨true, []⟩) "uart" none =
      (some 0, [uart_a], some ⟨true, [0]⟩, none) := by decide
  have h2 : srd_inst_new [uart] ⟨true, true, true, some 12⟩ [uart_a] (some ⟨true, [0]⟩) "uart"
      none = (some 1, [uart_a, uart_b], some two_roots, none) := by decide
  exact NewReachable.new _ "uart" none
    (NewReachable.new _ "uart" none NewReachable.init trivial h1) trivial h2

/-- C26 (amended): in every session state reached from the empty session by
successful `srd_inst_new` calls each of which chooses an instance id (the "id"
entry of its options table, or the decoder id) that no current root has, the
instance ids of the roots are pairwise distinct. The function itself makes no
such check. -/
theorem C26_root_ids_distinct (pd_list : List srd_decoder) (heap : Heap) (s : srd_session)
    (h : NewReachable pd_list fresh_id heap s) :
    (root_ids heap s).Nodup := by
  have hinv : (∀ r ∈ s.di_list, r < heap.length) ∧ (root_ids heap s).Nodup := by
    induction h with
    | init => exact ⟨fun r hr => (by cases hr), List.nodup_nil⟩
    | @new heap0 s0 env decoder_id options p heap1 s1 o1 _ hallowed hnew ih =>
      obtain ⟨hlt, hnd⟩ := ih
      obtain ⟨di, hid, hheap, hs⟩ := srd_inst_new_root pd_list env heap0 s0 decoder_id options hnew
      subst hheap
      subst hs
      have hmap : ∀ l : List Ptr, (∀ r ∈ l, r < heap0.length) →
          l.map (fun r => (deref (heap0 ++ [di]) r).inst_id) =
            l.map (fun r => (deref heap0 r).inst_id) := by
        intro l hl
        apply List.map_congr_left
        intro r hr
        rw [deref_append_lt heap0 di r (hl r hr)]
      refine ⟨?_, ?_⟩
      · intro r hr
        simp only [List.mem_append, List.mem_singleton] at hr
        simp only [List.length_append, List.length_singleton]
        rcases hr with hr | rfl
        · exact Nat.lt_succ_of_lt (hlt r hr)
        · exact Nat.lt_succ_self _
      · simp only [root_ids, List.map_append, List.map_cons, List.map_nil]
        rw [hmap s0.di_list hlt, deref_append_length, hid]
        rw [List.nodup_append]
        refine ⟨hnd, List.nodup_singleton _, ?_⟩
        intro a ha hb
        simp only [List.mem_singleton] at hb
        obtain ⟨r, hr, hra⟩ := List.mem_map.mp ha
        exact hallowed r hr (hra.trans hb)
  exact hinv.2

/-- C26, witness: a uart instance created without options and one created
with the "id" entry "uart-2" have distinct ids. -/
theorem C26_root_ids_distinct_witness :
    NewReachable [uart] fresh_id [uart_a, { uart_named with
      py_inst := ⟨13, some [("baudrate", .long 115200), ("parity", .unicode "none")]⟩ }]
      two_roots ∧
    (root_ids [uart_a, { uart_named with
      py_inst := ⟨13, some [("baudrate", .long 115200), ("parity", .unicode "none")]⟩ }]
      two_roots).Nodup := by
  have h1 : srd_inst_new [uart] ⟨true, true, true, some 11⟩ [] (some ⟨true, []⟩) "uart" none =
      (some 0, [uart_a], some ⟨true, [0]⟩, none) := by decide
  have h2 : srd_inst_new [uart] ⟨true, true, true, some 13⟩ [uart_a] (some ⟨true, [0]⟩) "uart"
      (some ⟨some "uart-2", []⟩) =
      (some 1, [uart_a, { uart_named with
          py_inst := ⟨13, some [("baudrate", .long 115200), ("parity", .unicode "none")]⟩ }],
        some two_roots, some ⟨none, []⟩) := by decide
  have hfresh : fresh_id [uart_a] ⟨true, [0]⟩ "uart" (some ⟨some "uart-2", []⟩) := by
    intro r hr
    simp only [List.mem_singleton] at hr
    subst hr
    decide
  have hr : NewReachable [uart] fresh_id [uart_a, { uart_named with
      py_inst := ⟨13, some [("baudrate", .long 115200), ("parity", .unicode "none")]⟩ }]
      two_roots :=
    NewReachable.new _ "uart" (some ⟨some "uart-2", []⟩)
      (NewReachable.new _ "uart" none NewReachable.init (fun r hr => (by cases hr)) h1)
      hfresh h2
  exact ⟨hr, C26_root_ids_distinct [uart] _ two_roots hr⟩

/-! ## Option state after a failed coercion -/

/-- A failing pass of the option loop over one key leaves the dict and the
table as they were. -/
theorem option_set_loop_step_err (schema : PyDict (List PyObject)) (k : String)
    (d : PyDict PyObject) (o : GHashTable)
    (h : (option_set_loop schema [k] d o).1 ≠ SRD_OK) :
    option_set_loop schema [k] d o = (SRD_ERR_PYTHON, d, o) := by
  revert h
  simp only [option_set_loop]
  split
  · intro _; rfl
  · split
    · intro _; rfl
    · split
      · intro _; rfl
      · split
        · split
          · intro _; rfl
          · intro h; exact absurd rfl h
        · split
          · intro _; rfl
          · intro h; exact absurd rfl h

/-- The option loop over `k :: ks` is the pass over `k` followed, when that
pass succeeds, by the loop over `ks`. -/
theorem option_set_loop_cons (schema : PyDict (List PyObject)) (k : String) (ks : List String)
    (d : PyDict PyObject) (o : GHashTable) :
    option_set_loop schema (k :: ks) d o =
      if (option_set_loop schema [k] d o).1 = SRD_OK then
        option_set_loop schema ks (option_set_loop schema [k] d o).2.1
          (option_set_loop schema [k] d o).2.2
      else option_set_loop schema [k] d o := by
  have hne : SRD_ERR_PYTHON ≠ SRD_OK := by decide
  simp only [option_set_loop]
  split
  · simp [hne]
  · split
    · simp [hne]
    · split
      · simp [hne]
      · split
        · split
          · simp [hne]
          · simp
        · split
          · simp [hne]
          · simp

/-- A failing run of the option loop: the keys split at the failing one, the
loop over the keys before it succeeds, and the dict and the table returned are
the ones that successful part built. -/
theorem option_set_loop_err (schema : PyDict (List PyObject)) :
    ∀ (ks : List String) (d : PyDict PyObject) (o : GHashTable),
      (option_set_loop schema ks d o).1 ≠ SRD_OK →
      ∃ ks1 k ks2 d1 o1, ks = ks1 ++ k :: ks2 ∧
        option_set_loop schema ks1 d o = (SRD_OK, d1, o1) ∧
        option_set_loop schema [k] d1 o1 = (SRD_ERR_PYTHON, d1, o1) ∧
        option_set_loop schema ks d o = (SRD_ERR_PYTHON, d1, o1) := by
  intro ks
  induction ks with
  | nil => intro d o h; exact absurd rfl h
  | cons k ks ih =>
    intro d o h
    by_cases hstep : (option_set_loop schema [k] d o).1 = SRD_OK
    · rw [option_set_loop_cons, if_pos hstep] at h
      obtain ⟨ks1, k1, ks2, d1, o1, hks, hpre, hfail, hall⟩ := ih _ _ h
      refine ⟨k :: ks1, k1, ks2, d1, o1, by rw [hks]; rfl, ?_, hfail, ?_⟩
      · rw [option_set_loop_cons, if_pos hstep]
        exact hpre
      · rw [option_set_loop_cons, if_pos hstep]
        exact hall
    · have herr := option_set_loop_step_err schema k d o hstep
      refine ⟨[], k, ks, d, o, rfl, rfl, herr, ?_⟩
      rw [option_set_loop_cons, if_neg hstep]
      exact herr

/-- C27 (as stated, refuted): the uart instance configured with baudrate =
9600 and parity = "even" (by a successful `srd_inst_option_set`). A second
call with the integer 1 for the string option parity fails, and the option
dict of the instance is then the one holding only baudrate with its default,
the entry processed before the failing one: not the dict it had before. -/
theorem C27_counterexample :
    srd_inst_option_set (some uart_inst)
        (some [("baudrate", .int64 9600), ("parity", .string "even")]) =
      (SRD_OK, some uart_configured, some []) ∧
    srd_inst_option_set (some uart_configured) (some [("parity", .int64 1)]) =
      (SRD_ERR_PYTHON,
        some { uart_configured with py_inst := ⟨0, some [("baudrate", .long 115200)]⟩ },
        some [("parity", .int64 1)]) ∧
    (some [("baudrate", .long 115200)] : Option (PyDict PyObject)) ≠
      uart_configured.py_inst.options := by
  decide

/-- C27 (amended): when `srd_inst_option_set` returns an error for a decoder
class that declares options (with distinct keys), the option dict of the
instance is replaced by a new dict that holds exactly the schema entries
processed before the failing one: the schema keys split at the failing key,
the loop over the keys before it succeeds and builds that dict, whose keys
are those keys, and the input map has lost exactly the entries under those
keys. Nothing else of the instance changes. -/
theorem C27_option_set_partial (di : srd_decoder_inst) (options : GHashTable)
    (schema : PyDict (List PyObject)) (hs : di.decoder.py_dec.options = some schema)
    (hnd : (PyDict_Keys schema).Nodup)
    (herr : (srd_inst_option_set (some di) (some options)).1 ≠ SRD_OK) :
    ∃ ks1 k ks2 d1, PyDict_Keys schema = ks1 ++ k :: ks2 ∧
      option_set_loop schema ks1 [] options =
        (SRD_OK, d1, options.filter (fun kv => decide (kv.1 ∉ ks1))) ∧
      (option_set_loop schema [k] d1 (options.filter (fun kv => decide (kv.1 ∉ ks1)))).1 ≠
        SRD_OK ∧
      PyDict_Keys d1 = ks1 ∧
      (srd_inst_option_set (some di) (some options)).2 =
        (some { di with py_inst := { di.py_inst with options := some d1 } },
          some (options.filter (fun kv => decide (kv.1 ∉ ks1)))) := by
  simp only [srd_inst_option_set, hs] at herr ⊢
  obtain ⟨ks1, k, ks2, d1, o1, hks, hpre, hfail, hall⟩ :=
    option_set_loop_err schema (PyDict_Keys schema) [] options herr
  have hnd1 : ks1.Nodup := by
    rw [hks] at hnd
    exact List.Nodup.of_append_left hnd
  obtain ⟨h1, h2, _, _⟩ := option_set_loop_ok schema ks1 [] options d1 o1 hnd1 (by simp) hpre
  subst h2
  refine ⟨ks1, k, ks2, d1, hks, hpre, ?_, by simpa [PyDict_Keys] using h1, ?_⟩
  · rw [hfail]
    exact (by decide : SRD_ERR_PYTHON ≠ SRD_OK)
  · rw [hall]

/-- C27, witness: the configured uart instance and the integer 1 for the
string option parity; the keys split as `[baudrate]`, parity, `[]`, and the
instance is left with the dict holding baudrate alone. -/
theorem C27_option_set_partial_witness :
    ∃ ks1 k ks2 d1, PyDict_Keys [("baudrate", [PyObject.unicode "Baud rate", .long 115200]),
        ("parity", [.unicode "Parity", .unicode "none"])] = ks1 ++ k :: ks2 ∧
      PyDict_Keys d1 = ks1 ∧
      (srd_inst_option_set (some uart_configured) (some [("parity", .int64 1)])).2 =
        (some { uart_configured with
            py_inst := { uart_configured.py_inst with options := some d1 } },
          some ([("parity", GVariant.int64 1)].filter (fun kv => decide (kv.1 ∉ ks1)))) := by
  obtain ⟨ks1, k, ks2, d1, h1, _, _, h4, h5⟩ :=
    C27_option_set_partial uart_configured [("parity", .int64 1)] _ rfl (by decide) (by decide)
  exact ⟨ks1, k, ks2, d1, h1, h4, h5⟩

/-! ## Library initialisation -/

/-- C29: the state machine over `max_session_id`. `srd_init` called with
`max_session_id` other than -1 returns SRD_ERR and changes nothing. From -1 it
returns SRD_OK and sets `max_session_id` to 0 when every search-path addition
returns SRD_OK, and otherwise returns the status of the first addition that
fails and leaves `max_session_id` at -1. `srd_exit` returns SRD_OK and leaves
`max_session_id` at -1. `srd_check_init` is true exactly when
`max_session_id >= 0`. Two calls of `srd_init` in a row never both return
SRD_OK. -/
theorem C29_init_state_machine (st : LibState) (env env2 : InitEnv)
    (path path2 : Option String) :
    (st.max_session_id ≠ -1 → srd_init st env path = (SRD_ERR, st)) ∧
    (st.max_session_id = -1 →
      (init_additions env path).find? (fun r => decide (r ≠ SRD_OK)) = none →
      (srd_init st env path).1 = SRD_OK ∧ (srd_init st env path).2.max_session_id = 0) ∧
    (st.max_session_id = -1 → ∀ ret,
      (init_additions env path).find? (fun r => decide (r ≠ SRD_OK)) = some ret →
      (srd_init st env path).1 = ret ∧ ret ≠ SRD_OK ∧
        (srd_init st env path).2.max_session_id = -1) ∧
    (srd_exit st).1 = SRD_OK ∧ (srd_exit st).2.max_session_id = -1 ∧
    (srd_check_init st = true ↔ 0 ≤ st.max_session_id) ∧
    ¬ ((srd_init st env path).1 = SRD_OK ∧
        (srd_init (srd_init st env path).2 env2 path2).1 = SRD_OK) := by
  have hne : SRD_ERR_MALLOC ≠ SRD_OK := by decide
  have herr : SRD_ERR ≠ SRD_OK := by decide
  obtain ⟨m, py⟩ := st
  obtain ⟨dir, envp, b1, b2, b3⟩ := env
  refine ⟨?_, ?_, ?_, rfl, rfl, ?_, ?_⟩
  · intro h
    simp only at h
    simp [srd_init, h]
  · intro h
    simp only at h
    subst h
    cases path <;> cases envp <;> cases b1 <;> cases b2 <;> cases b3 <;>
      simp [init_additions, srd_decoder_searchpath_add, srd_init, hne]
  · intro h ret
    simp only at h
    subst h
    cases path <;> cases envp <;> cases b1 <;> cases b2 <;> cases b3 <;>
      simp [init_additions, srd_decoder_searchpath_add, srd_init, hne] <;>
      (intro h; subst h; exact ⟨rfl, hne⟩)
  · simp only [srd_check_init]
    by_cases hm : m < 0
    · simp [hm]
    · simp [hm, Int.not_lt.mp hm]
  · rintro ⟨h1, h2⟩
    by_cases hm : m = -1
    · have h0 : (srd_init ⟨m, py⟩ ⟨dir, envp, b1, b2, b3⟩ path).2.max_session_id = 0 := by
        subst hm
        revert h1
        cases path <;> cases envp <;> cases b1 <;> cases b2 <;> cases b3 <;>
          simp [srd_init, srd_decoder_searchpath_add, hne]
      generalize (srd_init ⟨m, py⟩ ⟨dir, envp, b1, b2, b3⟩ path).2 = st1 at h0 h2
      have hs : srd_init st1 env2 path2 = (SRD_ERR, st1) := by
        simp [srd_init, h0]
      rw [hs] at h2
      exact herr h2
    · have hs : srd_init ⟨m, py⟩ ⟨dir, envp, b1, b2, b3⟩ path = (SRD_ERR, ⟨m, py⟩) := by
        simp [srd_init, hm]
      rw [hs] at h1
      exact herr h1

end Srd
